import Mathlib

/-!
# space-game: the tick-driven state machine of `main.go`

A shallow embedding of `src/main.go` (package `main`): the vector helpers, the
`Model` record, `initialModel`, `Model.Update` and `Model.View`, with the copy of the
vector helpers in `pkg/maths/vector.go` and the glyph choice of `pkg/view/view.go`.

## Number model

Go's `float64` is IEEE-754 binary64.  A finite binary64 value is a rational number, and
every arithmetic operation returns the exact result rounded to the nearest value with a
53-bit significand, ties going to the even significand.  The embedding keeps that rounding
explicit: values are rationals and `+`, `-`, `*`, `/` are followed by `roundF64`.
The lower end of the exponent range is modelled: no value is finer than `2^-1074`, so
results below the normal range are rounded to a multiple of `2^-1074` (gradual
underflow, down to 0).  NaN, the infinities, the sign of zero and overflow (a result of
magnitude `2^1024` or more, which Go turns into an infinity) are not modelled; every
concrete value used below is far below that bound.

Go's `int` is modelled by `Int`; the two arithmetic steps on `cursor` are guarded by the
comparisons of the source and cannot overflow.  The map `selected` of type
`map[int]struct{}` is a `KeySet`: the nil map, or an allocated map with its finite set of
keys.  Reading the nil map finds no key and `delete` does nothing on it, but storing a key
in it panics; `Update` and `run` therefore return an `Option`, `none` standing for the
panic.
-/

namespace SpaceGame

/-! ## binary64 rounding -/

/-- Nearest integer to a rational, a tie going to the even neighbour. -/
def roundHalfEven (s : ℚ) : ℤ :=
  if s - ⌊s⌋ < 1 / 2 then ⌊s⌋
  else if 1 / 2 < s - ⌊s⌋ then ⌊s⌋ + 1
  else if ⌊s⌋ % 2 = 0 then ⌊s⌋ else ⌊s⌋ + 1

/-- Rounding to a multiple of `2^e`, a tie going to the even multiple. -/
def roundAt (e : ℤ) (q : ℚ) : ℚ := (roundHalfEven (q / 2 ^ e) : ℚ) * 2 ^ e

/-- Rounding to a 53-bit significand with no bound on the exponent: the significand is
scaled to 53 bits (`2^52 ≤ |q| / 2^e < 2^53`), rounded to the nearest integer with ties to
even, and scaled back. -/
def round53 (q : ℚ) : ℚ :=
  if q = 0 then 0 else roundAt (Int.log 2 |q| - 52) q

/-- Rounding of an exact result to binary64: as `round53`, but the unit in the last place
is never below `2^-1074`, the smallest positive binary64 value. -/
def roundF64 (q : ℚ) : ℚ :=
  if q = 0 then 0 else roundAt (max (Int.log 2 |q| - 52) (-1074)) q

/-- Go `a + b` on float64. -/
def f64add (a b : ℚ) : ℚ := roundF64 (a + b)

/-- Go `a - b` on float64. -/
def f64sub (a b : ℚ) : ℚ := roundF64 (a - b)

/-- Go `a * b` on float64. -/
def f64mul (a b : ℚ) : ℚ := roundF64 (a * b)

/-- Go `a / b` on float64, for `b ≠ 0` (a zero divisor gives an infinity or NaN in Go,
which is not modelled; the value of `roundF64 (a / 0)`, which is 0, stands for it). -/
def f64div (a b : ℚ) : ℚ := roundF64 (a / b)

/-- Go `math.Min` on finite values: the smaller argument, no rounding. -/
def f64min (a b : ℚ) : ℚ := min a b

/-- Go `math.Max` on finite values: the larger argument, no rounding. -/
def f64max (a b : ℚ) : ℚ := max a b

/-- Go `math.Pow(x, 2)`: `pow` splits `x` with `Frexp`, squares the significand once
(a product rounded to 53 bits, whatever the exponent) and puts the exponent back with
`Ldexp`, which rounds once more when the result is below the normal range. -/
def f64pow2 (x : ℚ) : ℚ := roundF64 (round53 (x * x))

/-- Go `math.Sqrt` on a non-negative finite value: the correctly rounded square root.
With `2^k` the unit in the last place of the result, `t = q / 4^k` lies in
`[2^104, 2^106)`, `s = ⌊√t⌋` has 53 bits, and the result is `s` or `s + 1` according to
the comparison of `t` with `(s + 1/2)^2`.  (A negative argument gives NaN in Go, which is
not modelled; the value 0 is returned for it.) -/
def f64sqrt (q : ℚ) : ℚ :=
  if q ≤ 0 then 0
  else
    let k : ℤ := Int.log 2 q / 2 - 52
    let t : ℚ := q / 2 ^ (2 * k)
    let s : ℤ := (Nat.sqrt ⌊t⌋₊ : ℤ)
    let c : ℚ := (s : ℚ) * s + s + 1 / 4
    let m : ℤ := if t < c then s else if c < t then s + 1 else if s % 2 = 0 then s else s + 1
    (m : ℚ) * 2 ^ k

/-! ## Vectors and records (`main.go`, lines 14 to 61) -/

/-- Go `type Vector3 [3]float64`: the fields are the array elements 0, 1, 2. -/
structure Vector3 where
  c0 : ℚ
  c1 : ℚ
  c2 : ℚ
  deriving DecidableEq

/-- Go `type Point3 [3]float64`. -/
structure Point3 where
  c0 : ℚ
  c1 : ℚ
  c2 : ℚ
  deriving DecidableEq

/-- Go `ScalarProduct`. -/
def ScalarProduct (vector : Vector3) (scalar : ℚ) : Vector3 :=
  ⟨f64mul vector.c0 scalar, f64mul vector.c1 scalar, f64mul vector.c2 scalar⟩

/-- Go `Magnitude`. -/
def Magnitude (vector : Vector3) : ℚ :=
  f64sqrt (f64add (f64add (f64pow2 vector.c0) (f64pow2 vector.c1)) (f64pow2 vector.c2))

/-- Go `Add`. -/
def Add (vectorA vectorB : Vector3) : Vector3 :=
  ⟨f64add vectorA.c0 vectorB.c0, f64add vectorA.c1 vectorB.c1, f64add vectorA.c2 vectorB.c2⟩

/-- Go `Normalize`. -/
def Normalize (vector : Vector3) : Vector3 :=
  let magnitude := Magnitude vector
  ScalarProduct vector (f64div 1 magnitude)

/-! ### The copy of the vector helpers in `pkg/maths/vector.go`

The package declares `Vector3` as the same array type `[3]float64`. -/

/-- Go `maths.ScalarProduct`. -/
def Maths.ScalarProduct (vector : Vector3) (scalar : ℚ) : Vector3 :=
  ⟨f64mul vector.c0 scalar, f64mul vector.c1 scalar, f64mul vector.c2 scalar⟩

/-- Go `maths.Magnitude`. -/
def Maths.Magnitude (vector : Vector3) : ℚ :=
  f64sqrt (f64add (f64add (f64pow2 vector.c0) (f64pow2 vector.c1)) (f64pow2 vector.c2))

/-- Go `maths.Normalize`. -/
def Maths.Normalize (vector : Vector3) : Vector3 :=
  let magnitude := Maths.Magnitude vector
  Maths.ScalarProduct vector (f64div 1 magnitude)

/-- Go `struct CelestialBody`. -/
structure CelestialBody where
  Name : String
  Mass : ℚ
  internalAbsoluteLocation : Point3
  internalAbsoluteVelocity : Vector3
  deriving DecidableEq

/-- Go `struct Sensors`. -/
structure Sensors where
  fuel : ℚ
  deltaV : ℚ
  orientation : Vector3
  velocity : Vector3
  location : Point3
  body : CelestialBody
  deriving DecidableEq

/-- Go `map[int]struct{}`: the nil map (the zero value of the type), or a map allocated
with `make`, given by its set of keys. -/
inductive KeySet where
  | nil
  | alloc (keys : Finset Int)
  deriving DecidableEq

/-- The keys a map holds; the nil map holds none. -/
def KeySet.toFinset : KeySet → Finset Int
  | .nil => ∅
  | .alloc keys => keys

/-- The test `_, ok := m[k]`: `k ∈ m` is `ok`.  It is false for every key of the nil map. -/
instance : Membership Int KeySet := ⟨fun m k => k ∈ m.toFinset⟩

instance (k : Int) (m : KeySet) : Decidable (k ∈ m) :=
  inferInstanceAs (Decidable (k ∈ m.toFinset))

/-- Go `delete(m, k)`; on the nil map it does nothing. -/
def KeySet.delete : KeySet → Int → KeySet
  | .nil, _ => .nil
  | .alloc keys, k => .alloc (keys.erase k)

/-- Go `m[k] = struct{}{}`; on the nil map it panics ("assignment to entry in nil map"),
which is the result `none`. -/
def KeySet.store : KeySet → Int → Option KeySet
  | .nil, _ => none
  | .alloc keys, k => some (.alloc (insert k keys))

/-- Go `struct Model`. -/
structure Model where
  choices : List String
  cursor : Int
  celestialBodies : List CelestialBody
  frameOfReference : Int
  selected : KeySet
  sensors : Sensors
  deriving DecidableEq

/-- Go `initialModel`; the fields the literal leaves out take Go's zero values, the
decimal literals `150.3` and `56.6` are the nearest float64 values, and `selected` is the
empty map made by `make`. -/
def initialModel : Model where
  choices := ["MainThrusters", "LeftThrusters", "RightThrusters", "TopThrusters", "BotThrusters"]
  cursor := 0
  celestialBodies :=
    [{ Name := "Earth", Mass := 45,
       internalAbsoluteLocation := ⟨100, roundF64 (1503 / 10), roundF64 (566 / 10)⟩,
       internalAbsoluteVelocity := ⟨0, 0, 0⟩ }]
  frameOfReference := 0
  selected := .alloc ∅
  sensors :=
    { fuel := 50, deltaV := 0, orientation := ⟨1, 0, 0⟩, velocity := ⟨0, 0, 0⟩,
      location := ⟨0, 0, 0⟩,
      body := { Name := "", Mass := 0, internalAbsoluteLocation := ⟨0, 0, 0⟩,
                internalAbsoluteVelocity := ⟨0, 0, 0⟩ } }

/-! ## Events and `Model.Update` (`main.go`, lines 92 to 152) -/

/-- The messages `Update` distinguishes: a `tea.KeyMsg` with the text of `msg.String()`,
a `tickMsg`, and every other message of the runtime. -/
inductive Msg where
  | key (s : String)
  | tick
  | other
  deriving DecidableEq

/-- The command returned next to the model: `nil`, `tea.Quit` or `tick()`. -/
inductive Cmd where
  | none
  | quit
  | tick
  deriving DecidableEq

/-- The `tickMsg` case of `Model.Update`: the four assignments to fields of
`model.sensors`, in the order of the source, each reading the fields as the previous
assignments left them. -/
def tickStep (model : Model) : Model :=
  let sensors : Sensors := model.sensors
  -- Velocity
  let sensors : Sensors := { sensors with
    velocity := Add sensors.velocity (ScalarProduct sensors.orientation sensors.deltaV) }
  -- Fuel
  let sensors : Sensors := { sensors with fuel := f64sub sensors.fuel sensors.deltaV }
  -- Force
  let sensors : Sensors :=
    if (0 : Int) ∈ model.selected then
      { sensors with deltaV := f64min 10 (f64add sensors.deltaV 1) }
    else
      { sensors with deltaV := f64max 0 (f64sub sensors.deltaV 1) }
  let sensors : Sensors := { sensors with deltaV := f64min sensors.fuel sensors.deltaV }
  { model with sensors := sensors }

/-- The `"enter", " "` case of `Model.Update`: the key `model.cursor` is deleted from
`selected` when the map has it and stored when it has not; the store panics (`none`) when
the map is nil. -/
def toggleSelected (model : Model) : Option Model :=
  if model.cursor ∈ model.selected then
    some { model with selected := model.selected.delete model.cursor }
  else
    (model.selected.store model.cursor).map fun selected => { model with selected := selected }

/-- Go `Model.Update`; `none` is a panic. -/
def Update (model : Model) (msg : Msg) : Option (Model × Cmd) :=
  match msg with
  | .key s =>
    if s = "ctrl+c" ∨ s = "q" then some (model, .quit)
    else if s = "up" ∨ s = "k" then
      some (if model.cursor > 0 then { model with cursor := model.cursor - 1 } else model, .none)
    else if s = "down" ∨ s = "j" then
      some (if model.cursor < (model.choices.length : Int) - 1 then
          { model with cursor := model.cursor + 1 }
        else model, .none)
    else if s = "enter" ∨ s = " " then (toggleSelected model).map fun next => (next, .none)
    else some (model, .none)
  | .tick => some (tickStep model, .tick)
  | .other => some (model, .none)

/-- The model after a list of events, each passed to `Update` in turn; `none` when one of
the calls panics. -/
def run (model : Model) : List Msg → Option Model
  | [] => some model
  | msg :: rest => (Update model msg).bind fun result => run result.1 rest

/-- The states the program can be in: `initialModel`, closed under the calls of `Update`
that return. -/
inductive Reachable : Model → Prop where
  | init : Reachable initialModel
  | step (model next : Model) (msg : Msg) (cmd : Cmd) :
      Reachable model → Update model msg = some (next, cmd) → Reachable next

/-- The model after `n` tick events in a row: on a tick `Update` returns `tickStep model`. -/
def ticks (n : ℕ) (model : Model) : Model := tickStep^[n] model

/-! ## `Model.View` (`main.go`, lines 154 to 254) -/

/-- Go `fmt.Sprintf("%f", x)` on a finite float64: the sign, then the decimal expansion
rounded to six decimals (`strconv` rounds the exact decimal value, a tie going to the even
digit), the fraction padded with zeros to six digits. -/
def fmtF (q : ℚ) : String :=
  let n : ℕ := (roundHalfEven (|q| * 1000000)).toNat
  let frac : String := toString (n % 1000000)
  (if q < 0 then "-" else "") ++ toString (n / 1000000) ++ "." ++
    String.mk (List.replicate (6 - frac.length) '0') ++ frac

/-- The raw string literal appended by `View` when `deltaV > 0`: the rocket with its exhaust
plume (`main.go`, the branch taken when `model.sensors.deltaV > 0.0`). -/
def rocketWithExhaust : String :=
  String.join [
    "\n",
    "       !\n",
    "       !\n",
    "       ^\n",
    "      / \\\n",
    "     /___\\\n",
    "    |=   =|\n",
    "    |     |\n",
    "    |     |\n",
    "    |     |\n",
    "    |     |\n",
    "    |     |\n",
    "    |     |\n",
    "    |     |\n",
    "    |     |\n",
    "    |     |\n",
    "   /|##!##|\\\n",
    "  / |##!##| \\\n",
    " /  |##!##|  \\\n",
    "|  / ^ | ^ \\  |\n",
    "| /  ( | )  \\ |\n",
    "|/   ( | )   \\|\n",
    "    ((   ))\n",
    "   ((  :  ))\n",
    "   ((  :  ))\n",
    "    ((   ))\n",
    "     (( ))\n",
    "      ( )\n",
    "       .\n",
    "       .\n",
    "       .\n"]

/-- The raw string literal appended by `View` otherwise: the rocket with no exhaust
(`main.go`, the `else` branch). -/
def rocketNoExhaust : String :=
  String.join [
    "\n",
    "       !\n",
    "       !\n",
    "       ^\n",
    "      / \\\n",
    "     /___\\\n",
    "    |=   =|\n",
    "    |     |\n",
    "    |     |\n",
    "    |     |\n",
    "    |     |\n",
    "    |     |\n",
    "    |     |\n",
    "    |     |\n",
    "    |     |\n",
    "    |     |\n",
    "   /|##!##|\\\n",
    "  / |##!##| \\\n",
    " /  |##!##|  \\\n",
    "|  /       \\  |\n",
    "| /         \\ |\n",
    "|/           \\|\n",
    "\n",
    "\n",
    "\n",
    "\n",
    "\n",
    "\n",
    "\n",
    "\n",
    "\n"]

/-- The text appended by one pass of the loop over `model.choices` in `View`:
`fmt.Sprintf("%s [%s] %s\n", cursor, checked, choice)`. -/
def controlRow (model : Model) (i : ℕ) (choice : String) : String :=
  -- Is the cursor pointing at this choice?
  let cursor : String := if model.cursor = (i : Int) then ">" else " "
  -- Is this choice selected?
  let checked : String := if (i : Int) ∈ model.selected then "x" else " "
  -- Render the row
  cursor ++ " [" ++ checked ++ "] " ++ choice ++ "\n"

/-- Go `Model.View`. -/
def View (model : Model) : String :=
  -- The header
  let s : String := "Sensors\n\n"
  let s : String := s ++ ("Speed (m/s): " ++ fmtF (Magnitude model.sensors.velocity) ++ "\n")
  let s : String := s ++ ("âˆ†V (m/s): " ++ fmtF model.sensors.deltaV ++ "\n")
  let s : String := s ++ ("Fuel: " ++ fmtF model.sensors.fuel ++ "\n")
  let s : String :=
    if model.sensors.deltaV > 0 then s ++ rocketWithExhaust else s ++ rocketNoExhaust
  let s : String := s ++ "\n\nPilot Controls\n\n"
  -- Iterate over our choices
  let s : String :=
    model.choices.enum.foldl (fun (s : String) (ic : ℕ × String) => s ++ controlRow model ic.1 ic.2) s
  -- The footer
  s ++ "\nPress q to quit.\n"

/-- The choice of `topRight` in `ViewModel.View` of `pkg/view/view.go`; the two strings
`space.ThrusterOn` and `space.ThrusterOff` are not declared in the files at hand and are
taken as parameters. -/
def viewTopRight (ThrusterOn ThrusterOff : String) (DeltaV : ℚ) : String :=
  let topRight : String := ""
  if DeltaV > 0 then topRight ++ ThrusterOn else topRight ++ ThrusterOff

/-- The Sensors block of the frame: the header and the three formatted readings. -/
def sensorsBlock (model : Model) : String :=
  "Sensors\n\n" ++ ("Speed (m/s): " ++ fmtF (Magnitude model.sensors.velocity) ++ "\n") ++
    ("âˆ†V (m/s): " ++ fmtF model.sensors.deltaV ++ "\n") ++
    ("Fuel: " ++ fmtF model.sensors.fuel ++ "\n")

/-- The rows of the Pilot Controls list, one per choice in list order. -/
def controlRows (model : Model) : String :=
  String.join (model.choices.enum.map (fun ic => controlRow model ic.1 ic.2))

/-- The tick on natural-number sensor values `(fuel, deltaV)`, with `sel` telling whether
index 0 is selected: the integer shadow of `tickStep` used in the proofs (subtraction on
`ℕ` stops at 0, which is what `math.Max(0, deltaV - 1)` does to `0 - 1`). -/
def natTick (sel : Bool) (p : ℕ × ℕ) : ℕ × ℕ :=
  (p.1 - p.2, min (p.1 - p.2) (if sel then min 10 (p.2 + 1) else p.2 - 1))

/-- The invariant of the sensors: fuel and deltaV are natural numbers with
`deltaV ≤ 10`, `deltaV ≤ fuel` and `fuel ≤ 50`. -/
def SensorInv (m : Model) : Prop :=
  ∃ f d : ℕ, m.sensors.fuel = f ∧ m.sensors.deltaV = d ∧ d ≤ 10 ∧ d ≤ f ∧ f ≤ 50

/-- The start of the throttle scenarios: `initialModel` with index 0 (MainThrusters) put
into `selected`. -/
def thrustersOn : Model := { initialModel with selected := .alloc {0} }

/-- The model after: select MainThrusters, let `n` ticks pass, deselect MainThrusters
(`burnThenRelease_run` shows that `run` returns it for these events). -/
def burnThenRelease (n : ℕ) : Model :=
  { ticks n thrustersOn with selected := .alloc ∅ }

/-- A model whose `selected` map is nil; the other fields are those of `initialModel`. -/
def nilMapModel : Model := { initialModel with selected := .nil }

/-- Go `Model{}`: every field at its zero value, so that the `selected` map is nil. -/
def zeroModel : Model where
  choices := []
  cursor := 0
  celestialBodies := []
  frameOfReference := 0
  selected := .nil
  sensors :=
    { fuel := 0, deltaV := 0, orientation := ⟨0, 0, 0⟩, velocity := ⟨0, 0, 0⟩,
      location := ⟨0, 0, 0⟩,
      body := { Name := "", Mass := 0, internalAbsoluteLocation := ⟨0, 0, 0⟩,
                internalAbsoluteVelocity := ⟨0, 0, 0⟩ } }

/-- A model outside the reachable ones, on which the float64 sums of the velocity rule
are no longer exact: fuel `2^200`, deltaV `2^60 + 2^8`, nothing selected. -/
def driftModel : Model :=
  { initialModel with
    sensors := { initialModel.sensors with fuel := 2 ^ 200, deltaV := 1152921504606847232 } }

/-- A model outside the reachable ones whose deltaV is a float64 value with a square below
the float64 range: fuel 1, deltaV `2^-600`, nothing selected. -/
def creepModel : Model :=
  { initialModel with
    sensors := { initialModel.sensors with fuel := 1, deltaV := 2 ^ (-600 : ℤ) } }

/-- A model that holds `deltaV = 10` for four ticks: MainThrusters selected, fuel 40. -/
def cruiseModel : Model :=
  { thrustersOn with sensors := { thrustersOn.sensors with fuel := 40, deltaV := 10 } }

/-- A model that holds more deltaV than fuel: fuel 1, deltaV 5, nothing selected. -/
def overdrawnModel : Model :=
  { initialModel with sensors := { initialModel.sensors with fuel := 1, deltaV := 5 } }

/-- The invariant behind the conservation of `velocity[0] + fuel`: fuel, deltaV and the
first velocity component are natural numbers, the other two components are 0, the
orientation is `(1, 0, 0)`, `deltaV ≤ fuel` and `velocity[0] + fuel = 50`. -/
def ConservedInv (m : Model) : Prop :=
  ∃ f d v : ℕ, m.sensors.fuel = f ∧ m.sensors.deltaV = d ∧ m.sensors.velocity = ⟨v, 0, 0⟩ ∧
    m.sensors.orientation = ⟨1, 0, 0⟩ ∧ d ≤ f ∧ v + f = 50

/-- The factor `1 - 2^-53` by which one rounding to 53 bits can shrink a value. -/
def relLo : ℚ := 1 - 1 / 2 ^ 53

/-- The values `x` and `y` agree up to `k` roundings: each is at least the other times
`relLo ^ k`. -/
def Near (k : ℕ) (x y : ℚ) : Prop := y * relLo ^ k ≤ x ∧ x * relLo ^ k ≤ y

/-! ## Rounding lemmas -/

theorem roundHalfEven_intCast (n : ℤ) : roundHalfEven (n : ℚ) = n := by
  simp [roundHalfEven]

theorem roundAt_repr (m e E : ℤ) (h : E ≤ e) :
    roundAt E ((m : ℚ) * 2 ^ e) = (m : ℚ) * 2 ^ e := by
  obtain ⟨k, hk⟩ : ∃ k : ℕ, e - E = k := ⟨(e - E).toNat, by omega⟩
  have hq : (m : ℚ) * 2 ^ e / 2 ^ E = ((m * 2 ^ k : ℤ) : ℚ) := by
    rw [mul_div_assoc, ← zpow_sub₀ (by norm_num), hk]
    push_cast
    rw [zpow_natCast]
  unfold roundAt
  rw [hq, roundHalfEven_intCast, ← hq]
  field_simp

/-- The exponent of a non-zero value `m * 2^e` with a 53-bit significand `m`. -/
theorem log_repr_le (m e : ℤ) (hm : |m| < 2 ^ 53) (h0 : (m : ℚ) * 2 ^ e ≠ 0) :
    Int.log 2 |(m : ℚ) * 2 ^ e| - 52 ≤ e := by
  have h2 : (0 : ℚ) < 2 ^ e := by positivity
  have habs : |(m : ℚ) * 2 ^ e| = |(m : ℚ)| * 2 ^ e := by
    rw [abs_mul, abs_of_pos h2]
  have hpos : (0 : ℚ) < |(m : ℚ) * 2 ^ e| := abs_pos.mpr h0
  have hmq : |(m : ℚ)| < 2 ^ (53 : ℤ) := by
    have h : ((|m| : ℤ) : ℚ) < ((2 ^ 53 : ℤ) : ℚ) := by exact_mod_cast hm
    rw [Int.cast_abs] at h
    calc |(m : ℚ)| < ((2 ^ 53 : ℤ) : ℚ) := h
      _ = 2 ^ (53 : ℤ) := by norm_num
  have hlt : |(m : ℚ) * 2 ^ e| < ((2 : ℕ) : ℚ) ^ (53 + e) := by
    rw [habs, zpow_add₀ (by norm_num)]
    push_cast
    exact mul_lt_mul_of_pos_right hmq h2
  have hlog : Int.log 2 |(m : ℚ) * 2 ^ e| < 53 + e :=
    (Int.lt_zpow_iff_log_lt (by norm_num) hpos).mp hlt
  omega

/-- A value `m * 2^e` whose significand `m` fits in 53 bits is its own 53-bit rounding. -/
theorem round53_repr (m e : ℤ) (hm : |m| < 2 ^ 53) :
    round53 ((m : ℚ) * 2 ^ e) = (m : ℚ) * 2 ^ e := by
  unfold round53
  split_ifs with h0
  · exact h0.symm
  · exact roundAt_repr m e _ (log_repr_le m e hm h0)

/-- A value `m * 2^e` whose significand `m` fits in 53 bits and whose unit `2^e` is not
below `2^-1074` is its own rounding. -/
theorem roundF64_repr (m e : ℤ) (hm : |m| < 2 ^ 53) (he : -1074 ≤ e) :
    roundF64 ((m : ℚ) * 2 ^ e) = (m : ℚ) * 2 ^ e := by
  unfold roundF64
  split_ifs with h0
  · exact h0.symm
  · exact roundAt_repr m e _ (max_le (log_repr_le m e hm h0) he)

theorem roundF64_intCast (n : ℤ) (hn : |n| < 2 ^ 53) : roundF64 (n : ℚ) = n := by
  simpa using roundF64_repr n 0 hn (by norm_num)

theorem roundF64_natCast (n : ℕ) (hn : n < 2 ^ 53) : roundF64 (n : ℚ) = n := by
  have := roundF64_intCast (n : ℤ) (by rw [Nat.abs_cast]; exact_mod_cast hn)
  simpa using this


/-! ## Arithmetic on small natural numbers is exact -/

theorem f64add_natCast (a b : ℕ) (h : a + b < 2 ^ 53) :
    f64add (a : ℚ) (b : ℚ) = ((a + b : ℕ) : ℚ) := by
  unfold f64add
  rw [← Nat.cast_add]
  exact roundF64_natCast _ h

theorem f64sub_natCast (a b : ℕ) (ha : a < 2 ^ 53) (hb : b < 2 ^ 53) :
    f64sub (a : ℚ) (b : ℚ) = (((a : ℤ) - (b : ℤ) : ℤ) : ℚ) := by
  unfold f64sub
  have h : |(a : ℤ) - (b : ℤ)| < 2 ^ 53 := by
    rw [abs_lt]; constructor <;> omega
  have := roundF64_intCast ((a : ℤ) - (b : ℤ)) h
  push_cast at this ⊢
  exact this

theorem f64mul_natCast (a b : ℕ) (h : a * b < 2 ^ 53) :
    f64mul (a : ℚ) (b : ℚ) = ((a * b : ℕ) : ℚ) := by
  unfold f64mul
  rw [← Nat.cast_mul]
  exact roundF64_natCast _ h

theorem f64pow2_natCast (a : ℕ) (h : a * a < 2 ^ 53) :
    f64pow2 (a : ℚ) = ((a * a : ℕ) : ℚ) := by
  unfold f64pow2
  rw [← Nat.cast_mul]
  have h53 : round53 ((a * a : ℕ) : ℚ) = ((a * a : ℕ) : ℚ) := by
    have := round53_repr ((a * a : ℕ) : ℤ) 0 (by rw [Nat.abs_cast]; exact_mod_cast h)
    simpa using this
  rw [h53]
  exact roundF64_natCast _ h

/-! ## The tick in closed form -/

/-- The sensors after a tick, in terms of the sensors before it. -/
theorem tickStep_sensors (m : Model) :
    (tickStep m).sensors =
      { m.sensors with
        velocity := Add m.sensors.velocity (ScalarProduct m.sensors.orientation m.sensors.deltaV)
        fuel := f64sub m.sensors.fuel m.sensors.deltaV
        deltaV := f64min (f64sub m.sensors.fuel m.sensors.deltaV)
          (if (0 : Int) ∈ m.selected then f64min 10 (f64add m.sensors.deltaV 1)
            else f64max 0 (f64sub m.sensors.deltaV 1)) } := by
  unfold tickStep
  by_cases h : (0 : Int) ∈ m.selected <;> simp [h]

theorem tickStep_selected (m : Model) : (tickStep m).selected = m.selected := rfl

theorem tickStep_cursor (m : Model) : (tickStep m).cursor = m.cursor := rfl

theorem tickStep_choices (m : Model) : (tickStep m).choices = m.choices := rfl

theorem tickStep_orientation (m : Model) :
    (tickStep m).sensors.orientation = m.sensors.orientation := by
  rw [tickStep_sensors]

/-- On natural-number sensor values the tick is the integer step `natTick`. -/
theorem tickStep_nat (m : Model) (f d : ℕ) (hf : m.sensors.fuel = f) (hd : m.sensors.deltaV = d)
    (hdf : d ≤ f) (hf2 : f < 2 ^ 52) :
    (tickStep m).sensors.fuel = (((natTick (decide ((0 : Int) ∈ m.selected)) (f, d)).1 : ℕ) : ℚ) ∧
    (tickStep m).sensors.deltaV =
      (((natTick (decide ((0 : Int) ∈ m.selected)) (f, d)).2 : ℕ) : ℚ) := by
  have hsub : f64sub (f : ℚ) (d : ℚ) = ((f - d : ℕ) : ℚ) := by
    rw [f64sub_natCast f d (by omega) (by omega)]
    have : (f : ℤ) - (d : ℤ) = ((f - d : ℕ) : ℤ) := by omega
    rw [this]; norm_cast
  rw [tickStep_sensors, hf, hd, hsub]
  refine ⟨by simp [natTick], ?_⟩
  by_cases h : (0 : Int) ∈ m.selected
  · have hadd : f64add (d : ℚ) 1 = ((d + 1 : ℕ) : ℚ) := by
      have := f64add_natCast d 1 (by omega)
      simpa using this
    simp only [h, if_true, natTick, decide_True, hadd, f64min]
    push_cast
    rfl
  · have hsub1 : f64max 0 (f64sub (d : ℚ) 1) = ((d - 1 : ℕ) : ℚ) := by
      have := f64sub_natCast d 1 (by omega) (by norm_num)
      rw [Nat.cast_one] at this
      rw [this]
      unfold f64max
      rcases Nat.eq_zero_or_pos d with h0 | hpos
      · subst h0; norm_num
      · have h1 : (d : ℤ) - ((1 : ℕ) : ℤ) = ((d - 1 : ℕ) : ℤ) := by omega
        rw [h1]
        have : (0 : ℚ) ≤ ((d - 1 : ℕ) : ℚ) := Nat.cast_nonneg _
        rw [Int.cast_natCast, max_eq_right this]
    simp only [h, if_false, natTick, decide_False, hsub1, f64min]
    push_cast
    rfl

/-! ## Key events, runs and reachable states -/

@[simp] theorem KeySet.mem_alloc (k : Int) (keys : Finset Int) :
    k ∈ KeySet.alloc keys ↔ k ∈ keys := Iff.rfl

@[simp] theorem KeySet.not_mem_nil (k : Int) : ¬ k ∈ KeySet.nil :=
  Finset.not_mem_empty k

theorem KeySet.ne_nil_iff (m : KeySet) : m ≠ KeySet.nil ↔ ∃ keys, m = KeySet.alloc keys := by
  cases m with
  | nil => simp
  | alloc keys => simp

/-- The toggle on an allocated map. -/
theorem toggleSelected_alloc (m : Model) (keys : Finset Int) (h : m.selected = .alloc keys) :
    toggleSelected m = some { m with
      selected := KeySet.alloc
        (if m.cursor ∈ keys then keys.erase m.cursor else insert m.cursor keys) } := by
  unfold toggleSelected
  rw [h]
  by_cases hc : m.cursor ∈ keys
  · rw [if_pos ((KeySet.mem_alloc _ _).mpr hc), if_pos hc]; rfl
  · rw [if_neg (fun h1 => hc ((KeySet.mem_alloc _ _).mp h1)), if_neg hc]; rfl

/-- The toggle on the nil map: the read finds no key and the store panics. -/
theorem toggleSelected_nil (m : Model) (h : m.selected = .nil) : toggleSelected m = none := by
  unfold toggleSelected
  rw [h, if_neg (KeySet.not_mem_nil _)]
  rfl

/-- What a toggle that returns has changed: the `selected` map only, and the map it
returns is allocated. -/
theorem toggleSelected_some (m m' : Model) (h : toggleSelected m = some m') :
    m'.sensors = m.sensors ∧ m'.cursor = m.cursor ∧ m'.choices = m.choices ∧
    m'.celestialBodies = m.celestialBodies ∧ m'.frameOfReference = m.frameOfReference ∧
    m'.selected ≠ KeySet.nil := by
  cases hs : m.selected with
  | nil => rw [toggleSelected_nil m hs] at h; exact absurd h (by simp)
  | alloc keys =>
    rw [toggleSelected_alloc m keys hs] at h
    cases h
    exact ⟨rfl, rfl, rfl, rfl, rfl, by simp⟩

theorem Update_tick (m : Model) : Update m .tick = some (tickStep m, Cmd.tick) := rfl

theorem Update_other (m : Model) : Update m .other = some (m, Cmd.none) := rfl

/-- The key case of `Update` as a chain of tests on the text of the key. -/
theorem Update_key (m : Model) (s : String) :
    Update m (.key s) =
      if s = "ctrl+c" ∨ s = "q" then some (m, Cmd.quit)
      else if s = "up" ∨ s = "k" then
        some (if m.cursor > 0 then { m with cursor := m.cursor - 1 } else m, Cmd.none)
      else if s = "down" ∨ s = "j" then
        some (if m.cursor < (m.choices.length : Int) - 1 then { m with cursor := m.cursor + 1 }
          else m, Cmd.none)
      else if s = "enter" ∨ s = " " then (toggleSelected m).map fun next => (next, Cmd.none)
      else some (m, Cmd.none) := rfl

/-- What a key event that returns has left alone, and what it can have changed. -/
theorem Update_key_some (m m' : Model) (s : String) (c : Cmd)
    (h : Update m (.key s) = some (m', c)) :
    m'.sensors = m.sensors ∧ m'.choices = m.choices ∧
    m'.celestialBodies = m.celestialBodies ∧ m'.frameOfReference = m.frameOfReference ∧
    (m.selected ≠ KeySet.nil → m'.selected ≠ KeySet.nil) := by
  rw [Update_key] at h
  split_ifs at h with h1 h2 h3 h4 h5 h6
  · cases h; exact ⟨rfl, rfl, rfl, rfl, id⟩
  · cases h; exact ⟨rfl, rfl, rfl, rfl, id⟩
  · cases h; exact ⟨rfl, rfl, rfl, rfl, id⟩
  · cases h; exact ⟨rfl, rfl, rfl, rfl, id⟩
  · cases h; exact ⟨rfl, rfl, rfl, rfl, id⟩
  · cases ht : toggleSelected m with
    | none => rw [ht] at h; exact absurd h (by simp)
    | some next =>
      rw [ht] at h
      cases h
      obtain ⟨t1, -, t3, t4, t5, t6⟩ := toggleSelected_some m _ ht
      exact ⟨t1, t3, t4, t5, fun _ => t6⟩
  · cases h; exact ⟨rfl, rfl, rfl, rfl, id⟩

theorem Update_key_sensors (m m' : Model) (s : String) (c : Cmd)
    (h : Update m (.key s) = some (m', c)) : m'.sensors = m.sensors :=
  (Update_key_some m m' s c h).1

/-- With an allocated map `Update` returns, and the map it returns is allocated. -/
theorem Update_returns (m : Model) (msg : Msg) (h : m.selected ≠ KeySet.nil) :
    ∃ m' c, Update m msg = some (m', c) ∧ m'.selected ≠ KeySet.nil := by
  cases msg with
  | key s =>
    obtain ⟨keys, hk⟩ := (KeySet.ne_nil_iff _).mp h
    rw [Update_key, toggleSelected_alloc m keys hk]
    split_ifs <;> first
      | exact ⟨_, _, rfl, h⟩
      | exact ⟨_, _, rfl, by simp⟩
  | tick => exact ⟨_, _, rfl, h⟩
  | other => exact ⟨_, _, rfl, h⟩

theorem Update_alloc (m m' : Model) (msg : Msg) (c : Cmd) (h : m.selected ≠ KeySet.nil)
    (hu : Update m msg = some (m', c)) : m'.selected ≠ KeySet.nil := by
  obtain ⟨m₁, c₁, h1, h2⟩ := Update_returns m msg h
  rw [hu] at h1
  cases h1
  exact h2

theorem run_nil (m : Model) : run m [] = some m := rfl

theorem run_cons_eq (m : Model) (msg : Msg) (l : List Msg) :
    run m (msg :: l) = (Update m msg).bind fun result => run result.1 l := rfl

theorem run_cons (m m' : Model) (msg : Msg) (c : Cmd) (l : List Msg)
    (h : Update m msg = some (m', c)) : run m (msg :: l) = run m' l := by
  show (Update m msg).bind (fun result => run result.1 l) = _
  rw [h]
  rfl

theorem run_append (m : Model) (l₁ l₂ : List Msg) :
    run m (l₁ ++ l₂) = (run m l₁).bind fun m' => run m' l₂ := by
  induction l₁ generalizing m with
  | nil => rfl
  | cons a l ih =>
    rw [List.cons_append, run_cons_eq, run_cons_eq]
    cases hu : Update m a with
    | none => rfl
    | some r => exact ih r.1

/-- A property kept by every call of `Update` that returns holds after every run that
returns. -/
theorem run_invariant (P : Model → Prop)
    (hstep : ∀ m msg m' c, P m → Update m msg = some (m', c) → P m')
    (m : Model) (l : List Msg) (m' : Model) (h : P m) (hr : run m l = some m') : P m' := by
  induction l generalizing m with
  | nil => cases hr; exact h
  | cons a l ih =>
    cases hu : Update m a with
    | none =>
      rw [run_cons_eq, hu] at hr
      exact absurd hr (by simp)
    | some r =>
      rw [run_cons m r.1 a r.2 l hu] at hr
      exact ih r.1 (hstep m a r.1 r.2 h hu) hr

/-- From a model with an allocated map every run returns. -/
theorem run_returns (m : Model) (l : List Msg) (h : m.selected ≠ KeySet.nil) :
    ∃ m', run m l = some m' ∧ m'.selected ≠ KeySet.nil := by
  induction l generalizing m with
  | nil => exact ⟨m, rfl, h⟩
  | cons a l ih =>
    obtain ⟨m₁, c, hu, h1⟩ := Update_returns m a h
    obtain ⟨m₂, hr, h2⟩ := ih m₁ h1
    exact ⟨m₂, by rw [run_cons m m₁ a c l hu]; exact hr, h2⟩

theorem initialModel_alloc : initialModel.selected ≠ KeySet.nil := by
  simp [initialModel]

theorem reachable_run (m m' : Model) (l : List Msg) (h : Reachable m)
    (hr : run m l = some m') : Reachable m' :=
  run_invariant Reachable (fun m₁ msg m₂ c h1 hu => Reachable.step m₁ m₂ msg c h1 hu) m l m' h hr

theorem reachable_iff_run (m : Model) : Reachable m ↔ ∃ l, run initialModel l = some m := by
  constructor
  · intro h
    induction h with
    | init => exact ⟨[], rfl⟩
    | step m₁ m₂ msg c _ hu ih =>
      obtain ⟨l, hl⟩ := ih
      refine ⟨l ++ [msg], ?_⟩
      rw [run_append, hl]
      show run m₁ [msg] = some m₂
      rw [run_cons m₁ m₂ msg c [] hu]
      rfl
  · rintro ⟨l, hl⟩
    exact reachable_run _ _ l Reachable.init hl

theorem reachable_alloc (m : Model) (h : Reachable m) : m.selected ≠ KeySet.nil := by
  obtain ⟨l, hl⟩ := (reachable_iff_run m).mp h
  exact run_invariant (fun m => m.selected ≠ KeySet.nil)
    (fun m₁ msg m₂ c h1 hu => Update_alloc m₁ m₂ msg c h1 hu) _ l m initialModel_alloc hl

theorem ticks_succ (n : ℕ) (m : Model) : ticks (n + 1) m = tickStep (ticks n m) := by
  unfold ticks
  rw [Function.iterate_succ_apply']

theorem ticks_zero (m : Model) : ticks 0 m = m := rfl

/-- The definition `ticks` is `run` on `n` tick events. -/
theorem ticks_eq_run (n : ℕ) (m : Model) : run m (List.replicate n .tick) = some (ticks n m) := by
  induction n generalizing m with
  | zero => rfl
  | succ n ih =>
    rw [List.replicate_succ, run_cons m (tickStep m) .tick Cmd.tick _ (Update_tick m), ih]
    unfold ticks
    rw [Function.iterate_succ_apply]

theorem sensorInv_initial : SensorInv initialModel :=
  ⟨50, 0, by simp [initialModel], by simp [initialModel], by omega, by omega, le_refl _⟩

theorem sensorInv_tickStep (m : Model) (h : SensorInv m) : SensorInv (tickStep m) := by
  obtain ⟨f, d, hf, hd, h10, hdf, h50⟩ := h
  obtain ⟨h1, h2⟩ := tickStep_nat m f d hf hd hdf (by omega)
  refine ⟨_, _, h1, h2, ?_, ?_, ?_⟩
  · unfold natTick; dsimp only; split_ifs <;> omega
  · unfold natTick; dsimp only; split_ifs <;> omega
  · unfold natTick; dsimp only; omega

theorem sensorInv_Update (m : Model) (msg : Msg) (m' : Model) (c : Cmd) (h : SensorInv m)
    (hu : Update m msg = some (m', c)) : SensorInv m' := by
  cases msg with
  | key s =>
    obtain ⟨f, d, hf, hd, hrest⟩ := h
    have hs := Update_key_sensors m m' s c hu
    exact ⟨f, d, by rw [hs, hf], by rw [hs, hd], hrest⟩
  | tick =>
    rw [Update_tick] at hu
    cases hu
    exact sensorInv_tickStep m h
  | other =>
    rw [Update_other] at hu
    cases hu
    exact h

theorem sensorInv_run (m : Model) (l : List Msg) (m' : Model) (h : SensorInv m)
    (hr : run m l = some m') : SensorInv m' :=
  run_invariant SensorInv sensorInv_Update m l m' h hr

theorem sensorInv_of_reachable (m : Model) (h : Reachable m) : SensorInv m := by
  obtain ⟨l, hl⟩ := (reachable_iff_run m).mp h
  exact sensorInv_run _ l m sensorInv_initial hl

/-! ## The clamp invariants -/

/-- C1: every finite sequence of events passed to `Update` from `initialModel` returns a
state, and in that state the fuel is not negative. -/
theorem fuel_nonneg (events : List Msg) :
    ∃ m, run initialModel events = some m ∧ 0 ≤ m.sensors.fuel := by
  obtain ⟨m, hr, -⟩ := run_returns initialModel events initialModel_alloc
  obtain ⟨f, d, hf, -, -, -, -⟩ := sensorInv_run _ events m sensorInv_initial hr
  refine ⟨m, hr, ?_⟩
  rw [hf]
  exact Nat.cast_nonneg f

/-- C2: every finite sequence of events passed to `Update` from `initialModel` returns a
state, in which `0 ≤ deltaV`, `deltaV ≤ 10` and `deltaV ≤ fuel`; and the deltaV left by
one more tick is at most the fuel held before that tick. -/
theorem deltaV_bounds (events : List Msg) :
    ∃ m, run initialModel events = some m ∧
      0 ≤ m.sensors.deltaV ∧ m.sensors.deltaV ≤ 10 ∧ m.sensors.deltaV ≤ m.sensors.fuel ∧
      ∃ m', run initialModel (events ++ [.tick]) = some m' ∧
        m'.sensors.deltaV ≤ m.sensors.fuel := by
  obtain ⟨m, hr, -⟩ := run_returns initialModel events initialModel_alloc
  obtain ⟨f, d, hf, hd, h10, hdf, h50⟩ := sensorInv_run _ events m sensorInv_initial hr
  refine ⟨m, hr, ?_, ?_, ?_, tickStep m, ?_, ?_⟩
  · rw [hd]; exact Nat.cast_nonneg d
  · rw [hd]; exact_mod_cast h10
  · rw [hd, hf]; exact_mod_cast hdf
  · rw [run_append, hr]
    show run m [.tick] = _
    rw [run_cons m (tickStep m) .tick Cmd.tick [] (Update_tick m)]
    rfl
  · obtain ⟨-, h2⟩ := tickStep_nat m f d hf hd hdf (by omega)
    rw [h2, hf]
    have : (natTick (decide ((0 : Int) ∈ m.selected)) (f, d)).2 ≤ f := by
      unfold natTick; dsimp only; split_ifs <;> omega
    exact_mod_cast this

/-! ## Runs of ticks on natural-number sensor values -/

theorem roundF64_zero : roundF64 0 = 0 := by
  simp [roundF64]

theorem natTick_fst (sel : Bool) (p : ℕ × ℕ) : (natTick sel p).1 = p.1 - p.2 := rfl

theorem natTick_snd (sel : Bool) (p : ℕ × ℕ) :
    (natTick sel p).2 = min (p.1 - p.2) (if sel then min 10 (p.2 + 1) else p.2 - 1) := rfl

theorem natTick_iterate_le (sel : Bool) (n : ℕ) (f d : ℕ) (hdf : d ≤ f) :
    ((natTick sel)^[n] (f, d)).2 ≤ ((natTick sel)^[n] (f, d)).1 ∧
    ((natTick sel)^[n] (f, d)).1 ≤ f := by
  induction n with
  | zero => exact ⟨hdf, le_refl f⟩
  | succ n ih =>
    rw [Function.iterate_succ_apply']
    obtain ⟨h1, h2⟩ := ih
    constructor
    · rw [natTick_fst, natTick_snd]; exact min_le_left _ _
    · rw [natTick_fst]; omega

theorem ticks_selected (n : ℕ) (m : Model) : (ticks n m).selected = m.selected := by
  induction n with
  | zero => rfl
  | succ n ih => rw [ticks_succ, tickStep_selected, ih]

theorem ticks_orientation (n : ℕ) (m : Model) :
    (ticks n m).sensors.orientation = m.sensors.orientation := by
  induction n with
  | zero => rfl
  | succ n ih => rw [ticks_succ, tickStep_orientation, ih]

/-- Fuel and deltaV after `n` ticks are the `n`-th iterate of `natTick`. -/
theorem ticks_nat (n : ℕ) (m : Model) (f d : ℕ) (hf : m.sensors.fuel = f)
    (hd : m.sensors.deltaV = d) (hdf : d ≤ f) (hf2 : f < 2 ^ 52) :
    (ticks n m).sensors.fuel =
      ((((natTick (decide ((0 : Int) ∈ m.selected)))^[n] (f, d)).1 : ℕ) : ℚ) ∧
    (ticks n m).sensors.deltaV =
      ((((natTick (decide ((0 : Int) ∈ m.selected)))^[n] (f, d)).2 : ℕ) : ℚ) := by
  induction n with
  | zero => exact ⟨hf, hd⟩
  | succ n ih =>
    obtain ⟨h1, h2⟩ := ih
    obtain ⟨h3, h4⟩ := natTick_iterate_le (decide ((0 : Int) ∈ m.selected)) n f d hdf
    have := tickStep_nat (ticks n m) _ _ h1 h2 h3 (by omega)
    rw [ticks_selected] at this
    rw [ticks_succ, Function.iterate_succ_apply']
    exact this

/-- With the orientation `(1, 0, 0)` a tick adds deltaV to the first component of the
velocity and leaves the other two at zero. -/
theorem tickStep_velocity_nat (m : Model) (v d : ℕ)
    (ho : m.sensors.orientation = ⟨1, 0, 0⟩) (hv : m.sensors.velocity = ⟨v, 0, 0⟩)
    (hd : m.sensors.deltaV = d) (h : v + d < 2 ^ 53) :
    (tickStep m).sensors.velocity = ⟨((v + d : ℕ) : ℚ), 0, 0⟩ := by
  have h1 : f64mul 1 (d : ℚ) = d := by
    have := f64mul_natCast 1 d (by omega)
    simpa using this
  have h0 : f64mul 0 (d : ℚ) = 0 := by
    simp [f64mul, roundF64_zero]
  have h00 : f64add 0 0 = 0 := by
    simp [f64add, roundF64_zero]
  rw [tickStep_sensors]
  simp only [ho, hv, hd, Add, ScalarProduct, h1, h0, h00, f64add_natCast v d h]

/-- Conservation along a run of ticks: what the fuel loses, the velocity gains. -/
theorem ticks_velocity_nat (n : ℕ) (m : Model) (f d v : ℕ) (hf : m.sensors.fuel = f)
    (hd : m.sensors.deltaV = d) (hdf : d ≤ f) (hf2 : v + f < 2 ^ 52)
    (ho : m.sensors.orientation = ⟨1, 0, 0⟩) (hv : m.sensors.velocity = ⟨v, 0, 0⟩) :
    (ticks n m).sensors.velocity =
      ⟨((v + f - ((natTick (decide ((0 : Int) ∈ m.selected)))^[n] (f, d)).1 : ℕ) : ℚ), 0, 0⟩ := by
  induction n with
  | zero =>
    rw [ticks_zero, hv]
    simp
  | succ n ih =>
    obtain ⟨h1, h2⟩ := ticks_nat n m f d hf hd hdf (by omega)
    obtain ⟨h3, h4⟩ := natTick_iterate_le (decide ((0 : Int) ∈ m.selected)) n f d hdf
    have ho2 := ticks_orientation n m
    rw [ho] at ho2
    rw [ticks_succ, tickStep_velocity_nat (ticks n m) _ _ ho2 ih h2 (by omega),
      Function.iterate_succ_apply']
    rw [natTick_fst]
    have hsum : v + f - ((natTick (decide ((0 : Int) ∈ m.selected)))^[n] (f, d)).1
          + ((natTick (decide ((0 : Int) ∈ m.selected)))^[n] (f, d)).2
        = v + f - (((natTick (decide ((0 : Int) ∈ m.selected)))^[n] (f, d)).1
          - ((natTick (decide ((0 : Int) ∈ m.selected)))^[n] (f, d)).2) := by
      omega
    rw [hsum]

/-! ## The tick in terms of the state before it -/

/-- C3: for every model, `Update` on a tick returns a model with
`velocity' = Add(velocity, ScalarProduct(orientation, deltaV))`, `fuel' = fuel - deltaV`,
and `deltaV' = min(fuel', min(10, deltaV + 1))` when index 0 is selected, otherwise
`deltaV' = min(fuel', max(0, deltaV - 1))`: velocity and fuel use the deltaV held before
the tick, and the final clamp uses the fuel already reduced in this tick. -/
theorem tick_update_formulas (m : Model) :
    ∃ m', Update m .tick = some (m', Cmd.tick) ∧
      m'.sensors.velocity =
        Add m.sensors.velocity (ScalarProduct m.sensors.orientation m.sensors.deltaV) ∧
      m'.sensors.fuel = f64sub m.sensors.fuel m.sensors.deltaV ∧
      m'.sensors.deltaV =
        (if (0 : Int) ∈ m.selected then
          f64min m'.sensors.fuel (f64min 10 (f64add m.sensors.deltaV 1))
        else
          f64min m'.sensors.fuel (f64max 0 (f64sub m.sensors.deltaV 1))) := by
  refine ⟨tickStep m, rfl, ?_⟩
  rw [tickStep_sensors]
  refine ⟨rfl, rfl, ?_⟩
  by_cases h : (0 : Int) ∈ m.selected <;> simp [h]

/-! ## Throttle ramp and scenario -/

/-- The toggle keys run `toggleSelected` and return no command. -/
theorem Update_toggle (m : Model) (s : String) (hs : s = "enter" ∨ s = " ") :
    Update m (.key s) = (toggleSelected m).map fun next => (next, Cmd.none) := by
  rcases hs with rfl | rfl <;> simp [Update]

theorem Update_toggle_alloc (m : Model) (s : String) (hs : s = "enter" ∨ s = " ")
    (keys : Finset Int) (h : m.selected = .alloc keys) :
    Update m (.key s) = some ({ m with
      selected := KeySet.alloc
        (if m.cursor ∈ keys then keys.erase m.cursor else insert m.cursor keys) }, Cmd.none) := by
  rw [Update_toggle m s hs, toggleSelected_alloc m keys h]
  rfl

theorem Update_toggle_nil (m : Model) (s : String) (hs : s = "enter" ∨ s = " ")
    (h : m.selected = .nil) : Update m (.key s) = none := by
  rw [Update_toggle m s hs, toggleSelected_nil m h]
  rfl

theorem Update_enter_initial :
    Update initialModel (.key "enter") = some (thrustersOn, Cmd.none) := by
  rw [Update_toggle_alloc initialModel _ (Or.inl rfl) ∅ rfl]
  rfl

theorem Update_space_initial :
    Update initialModel (.key " ") = some (thrustersOn, Cmd.none) := by
  rw [Update_toggle_alloc initialModel _ (Or.inr rfl) ∅ rfl]
  rfl

theorem thrustersOn_ticks (n : ℕ) :
    (ticks n thrustersOn).sensors.fuel = ((((natTick true)^[n] (50, 0)).1 : ℕ) : ℚ) ∧
    (ticks n thrustersOn).sensors.deltaV = ((((natTick true)^[n] (50, 0)).2 : ℕ) : ℚ) ∧
    (ticks n thrustersOn).sensors.velocity =
      ⟨((50 - ((natTick true)^[n] (50, 0)).1 : ℕ) : ℚ), 0, 0⟩ := by
  have hsel : decide ((0 : Int) ∈ thrustersOn.selected) = true := by
    simp [thrustersOn]
  have hf : thrustersOn.sensors.fuel = ((50 : ℕ) : ℚ) := by simp [thrustersOn, initialModel]
  have hd : thrustersOn.sensors.deltaV = ((0 : ℕ) : ℚ) := by simp [thrustersOn, initialModel]
  have hv : thrustersOn.sensors.velocity = ⟨((0 : ℕ) : ℚ), 0, 0⟩ := by
    simp [thrustersOn, initialModel]
  have h1 := ticks_nat n thrustersOn 50 0 hf hd (by omega) (by norm_num)
  have h2 := ticks_velocity_nat n thrustersOn 50 0 0 hf hd (by omega) (by norm_num) rfl hv
  rw [hsel] at h1 h2
  rw [zero_add] at h2
  exact ⟨h1.1, h1.2, h2⟩

theorem ramp_table (N : ℕ) (hN : N ≤ 10) :
    ((natTick true)^[N] (50, 0)).1 + ∑ i in Finset.range N, i = 50 ∧
    (N ≤ 9 → ((natTick true)^[N] (50, 0)).2 = N) ∧
    (N = 10 → ((natTick true)^[N] (50, 0)).2 = 5) := by
  interval_cases N <;> decide

/-- The events "select MainThrusters, then `n` ticks" return `ticks n thrustersOn`. -/
theorem run_enter_ticks (n : ℕ) :
    run initialModel (.key "enter" :: List.replicate n .tick) = some (ticks n thrustersOn) := by
  rw [run_cons _ _ _ _ _ Update_enter_initial, ticks_eq_run]

/-- C4, as stated, fails at `N = 10`: after ten ticks with MainThrusters selected the fuel
is 5 and the clamp against the fuel leaves `deltaV = 5`, not 10. -/
theorem tenth_tick_is_fuel_capped :
    run initialModel (.key "enter" :: List.replicate 10 .tick) = some (ticks 10 thrustersOn) ∧
    (ticks 10 thrustersOn).sensors.fuel = 5 ∧
    (ticks 10 thrustersOn).sensors.deltaV = 5 ∧
    (ticks 10 thrustersOn).sensors.deltaV ≠ 10 := by
  obtain ⟨h1, h2, -⟩ := thrustersOn_ticks 10
  have h : (natTick true)^[10] (50, 0) = (5, 5) := by decide
  rw [h] at h1 h2
  rw [h1, h2]
  exact ⟨run_enter_ticks 10, by norm_num, by norm_num, by norm_num⟩

/-- C4, amended: from `initialModel` with index 0 selected, `N ≤ 10` ticks return a model
in which the fuel is `50 - (0 + 1 + ... + (N-1))`; deltaV is `N` for `N ≤ 9`, and 5 (the
fuel left) for `N = 10`. -/
theorem throttle_ramp (N : ℕ) (hN : N ≤ 10) :
    run initialModel (.key "enter" :: List.replicate N .tick) = some (ticks N thrustersOn) ∧
    run thrustersOn (List.replicate N .tick) = some (ticks N thrustersOn) ∧
    (ticks N thrustersOn).sensors.fuel = 50 - ∑ i in Finset.range N, (i : ℚ) ∧
    (N ≤ 9 → (ticks N thrustersOn).sensors.deltaV = N) ∧
    (N = 10 → (ticks N thrustersOn).sensors.deltaV = 5) := by
  obtain ⟨h1, h2, -⟩ := thrustersOn_ticks N
  obtain ⟨t1, t2, t3⟩ := ramp_table N hN
  refine ⟨run_enter_ticks N, ticks_eq_run N thrustersOn, ?_, ?_, ?_⟩
  · rw [h1, eq_sub_iff_add_eq]
    have h := congrArg (fun k : ℕ => (k : ℚ)) t1
    simpa using h
  · intro h; rw [h2, t2 h]
  · intro h; rw [h2, t3 h]; norm_num

theorem throttle_ramp_witness :
    run thrustersOn (List.replicate 7 .tick) = some (ticks 7 thrustersOn) ∧
    (ticks 7 thrustersOn).sensors.fuel = 29 ∧ (ticks 7 thrustersOn).sensors.deltaV = 7 := by
  have h := throttle_ramp 7 (by norm_num)
  refine ⟨h.2.1, ?_, ?_⟩
  · rw [h.2.2.1]; simp [Finset.sum_range_succ]; norm_num
  · rw [h.2.2.2.1 (by norm_num)]; norm_num

/-- C5: from `initialModel`, one toggle key event ("enter" or " ") followed by three
tick events returns a model with `deltaV = 3`, `fuel = 47` and `velocity = (3, 0, 0)`. -/
theorem scenario_three_ticks :
    (∃ m, run initialModel [.key "enter", .tick, .tick, .tick] = some m ∧
      m.sensors.deltaV = 3 ∧ m.sensors.fuel = 47 ∧ m.sensors.velocity = ⟨3, 0, 0⟩) ∧
    (∃ m, run initialModel [.key " ", .tick, .tick, .tick] = some m ∧
      m.sensors.deltaV = 3 ∧ m.sensors.fuel = 47 ∧ m.sensors.velocity = ⟨3, 0, 0⟩) := by
  have he : run initialModel [.key "enter", .tick, .tick, .tick] = some (ticks 3 thrustersOn) :=
    run_enter_ticks 3
  have hs : run initialModel [.key " ", .tick, .tick, .tick] = some (ticks 3 thrustersOn) := by
    rw [run_cons _ _ _ _ _ Update_space_initial]
    exact ticks_eq_run 3 thrustersOn
  obtain ⟨h1, h2, h3⟩ := thrustersOn_ticks 3
  have h : (natTick true)^[3] (50, 0) = (47, 3) := by decide
  rw [h] at h1 h2 h3
  have hv : (ticks 3 thrustersOn).sensors.velocity = ⟨3, 0, 0⟩ := by
    rw [h3]; norm_num
  exact ⟨⟨_, he, by rw [h2]; norm_num, by rw [h1]; norm_num, hv⟩,
    ⟨_, hs, by rw [h2]; norm_num, by rw [h1]; norm_num, hv⟩⟩

/-! ## Ramp-down -/

theorem ticks_cursor (n : ℕ) (m : Model) : (ticks n m).cursor = m.cursor := by
  induction n with
  | zero => rfl
  | succ n ih => rw [ticks_succ, tickStep_cursor, ih]

/-- The events "select MainThrusters, `n` ticks, deselect MainThrusters" return
`burnThenRelease n`. -/
theorem burnThenRelease_run (n : ℕ) :
    run initialModel (Msg.key "enter" :: (List.replicate n Msg.tick ++ [Msg.key "enter"]))
      = some (burnThenRelease n) := by
  have hc : (ticks n thrustersOn).cursor = 0 := by rw [ticks_cursor]; rfl
  have hs : (ticks n thrustersOn).selected = .alloc {0} := by rw [ticks_selected]; rfl
  rw [run_cons _ _ _ _ _ Update_enter_initial, run_append, ticks_eq_run]
  show run (ticks n thrustersOn) [Msg.key "enter"] = _
  rw [run_cons _ _ _ _ _ (Update_toggle_alloc (ticks n thrustersOn) _ (Or.inl rfl) {0} hs), run_nil]
  have he : (if (ticks n thrustersOn).cursor ∈ ({0} : Finset Int)
      then ({0} : Finset Int).erase (ticks n thrustersOn).cursor
      else insert (ticks n thrustersOn).cursor ({0} : Finset Int)) = ∅ := by
    rw [hc]; decide
  rw [he]
  rfl

theorem burnThenRelease_selected (n : ℕ) : (0 : Int) ∉ (burnThenRelease n).selected :=
  Finset.not_mem_empty 0

theorem burnThenRelease_sensors (n : ℕ) :
    (burnThenRelease n).sensors = (ticks n thrustersOn).sensors := rfl

theorem burnThenRelease_reachable (n : ℕ) : Reachable (burnThenRelease n) :=
  reachable_run _ _ _ Reachable.init (burnThenRelease_run n)

/-- C6, as stated, fails in a reachable state: select MainThrusters, ten ticks, deselect
gives `fuel = 5`, `deltaV = 5` with index 0 not selected, and the next tick takes deltaV
from 5 to 0, not to 4. -/
theorem release_with_low_fuel_drops_to_zero :
    Reachable (burnThenRelease 10) ∧
    (0 : Int) ∉ (burnThenRelease 10).selected ∧
    (burnThenRelease 10).sensors.fuel = 5 ∧
    (burnThenRelease 10).sensors.deltaV = 5 ∧
    ∃ m', Update (burnThenRelease 10) .tick = some (m', Cmd.tick) ∧
      m'.sensors.deltaV = 0 ∧
      m'.sensors.deltaV ≠ (burnThenRelease 10).sensors.deltaV - 1 := by
  obtain ⟨h1, h2, -⟩ := thrustersOn_ticks 10
  have h : (natTick true)^[10] (50, 0) = (5, 5) := by decide
  rw [h, ← burnThenRelease_sensors] at h1 h2
  have hsel := burnThenRelease_selected 10
  obtain ⟨-, h4⟩ := tickStep_nat (burnThenRelease 10) 5 5 h1 h2 (le_refl 5) (by norm_num)
  have h5 : (tickStep (burnThenRelease 10)).sensors.deltaV = 0 := by
    rw [h4]
    simp [hsel, natTick]
  refine ⟨burnThenRelease_reachable 10, hsel, ?_, ?_, tickStep (burnThenRelease 10), rfl, h5, ?_⟩
  · rw [h1]; norm_num
  · rw [h2]; norm_num
  · rw [h5, h2]; norm_num

/-- C6, amended: in every reachable state in which index 0 is not selected, one tick
returns a model with `deltaV' = 0` when `deltaV = 0`, and
`deltaV' = min(fuel - deltaV, deltaV - 1)` when `deltaV > 0`: deltaV falls by exactly 1
when the fuel left after the tick is at least `deltaV - 1`, and otherwise drops to the
fuel left. -/
theorem ramp_down (m : Model) (hr : Reachable m) (hsel : (0 : Int) ∉ m.selected) :
    ∃ m', Update m .tick = some (m', Cmd.tick) ∧
      (m.sensors.deltaV = 0 → m'.sensors.deltaV = 0) ∧
      (0 < m.sensors.deltaV →
        m'.sensors.deltaV = min (m.sensors.fuel - m.sensors.deltaV) (m.sensors.deltaV - 1)) ∧
      (0 < m.sensors.deltaV → m.sensors.deltaV - 1 ≤ m.sensors.fuel - m.sensors.deltaV →
        m'.sensors.deltaV = m.sensors.deltaV - 1) := by
  obtain ⟨f, d, hf, hd, h10, hdf, h50⟩ := sensorInv_of_reachable m hr
  obtain ⟨-, h2⟩ := tickStep_nat m f d hf hd hdf (by omega)
  have hdec : decide ((0 : Int) ∈ m.selected) = false := by simp [hsel]
  rw [hdec, natTick_snd] at h2
  simp only [Bool.false_eq_true, if_false] at h2
  have hmain : 0 < d →
      (tickStep m).sensors.deltaV = min ((f : ℚ) - d) ((d : ℚ) - 1) := by
    intro hpos
    rw [h2]
    push_cast [Nat.cast_sub hdf, Nat.cast_sub (show 1 ≤ d from hpos)]
    rfl
  refine ⟨tickStep m, rfl, ?_⟩
  rw [hf, hd]
  refine ⟨?_, ?_, ?_⟩
  · intro h0
    have hd0 : d = 0 := by exact_mod_cast h0
    rw [h2, hd0]
    simp
  · intro hpos
    exact hmain (by exact_mod_cast hpos)
  · intro hpos hle
    rw [hmain (by exact_mod_cast hpos)]
    exact min_eq_right hle

theorem ramp_down_witness :
    Reachable (burnThenRelease 3) ∧ (0 : Int) ∉ (burnThenRelease 3).selected ∧
    (burnThenRelease 3).sensors.deltaV = 3 ∧
    ∃ m', Update (burnThenRelease 3) .tick = some (m', Cmd.tick) ∧ m'.sensors.deltaV = 2 := by
  obtain ⟨h1, h2, -⟩ := thrustersOn_ticks 3
  have h : (natTick true)^[3] (50, 0) = (47, 3) := by decide
  rw [h, ← burnThenRelease_sensors] at h1 h2
  obtain ⟨m', hu, -, -, key⟩ := ramp_down (burnThenRelease 3) (burnThenRelease_reachable 3)
    (burnThenRelease_selected 3)
  refine ⟨burnThenRelease_reachable 3, burnThenRelease_selected 3, ?_, m', hu, ?_⟩
  · rw [h2]; norm_num
  · rw [key (by rw [h2]; norm_num) (by rw [h1, h2]; norm_num), h2]; norm_num

/-! ## Cursor and selection -/

/-- Two toggles in a row on an allocated map return the model they started from. -/
theorem toggleSelected_twice (m : Model) (keys : Finset Int) (h : m.selected = .alloc keys) :
    ∃ m₁, toggleSelected m = some m₁ ∧ toggleSelected m₁ = some m := by
  refine ⟨_, toggleSelected_alloc m keys h, ?_⟩
  rw [toggleSelected_alloc _ _ rfl]
  cases m with
  | mk choices cursor bodies frame selected sensors =>
    dsimp only at h ⊢
    subst h
    by_cases hc : cursor ∈ keys
    · simp [hc, Finset.insert_erase]
    · simp [hc, Finset.erase_insert]

theorem Update_up (m : Model) (s : String) (hs : s = "up" ∨ s = "k") :
    Update m (.key s) =
      some (if m.cursor > 0 then { m with cursor := m.cursor - 1 } else m, Cmd.none) := by
  rcases hs with rfl | rfl <;> simp [Update]

theorem Update_down (m : Model) (s : String) (hs : s = "down" ∨ s = "j") :
    Update m (.key s) =
      some (if m.cursor < (m.choices.length : Int) - 1 then { m with cursor := m.cursor + 1 }
        else m, Cmd.none) := by
  rcases hs with rfl | rfl <;> simp [Update]

theorem set_cursor_self (m : Model) (c : Int) (h : c = m.cursor) :
    { m with cursor := c } = m := by
  subst h; rfl

theorem cursorInv_Update (m : Model) (msg : Msg) (m' : Model) (c : Cmd)
    (h : m.choices = initialModel.choices ∧ 0 ≤ m.cursor ∧ m.cursor ≤ 4)
    (hu : Update m msg = some (m', c)) :
    m'.choices = initialModel.choices ∧ 0 ≤ m'.cursor ∧ m'.cursor ≤ 4 := by
  obtain ⟨hc, h0, h4⟩ := h
  have hlen : (m.choices.length : Int) = 5 := by rw [hc]; rfl
  cases msg with
  | key s =>
    rw [Update_key] at hu
    split_ifs at hu
    all_goals first
      | (cases hu; refine ⟨hc, ?_, ?_⟩ <;> dsimp only <;> omega)
      | (obtain ⟨next, ht, he⟩ := Option.map_eq_some'.mp hu
         cases he
         obtain ⟨-, t2, t3, -⟩ := toggleSelected_some m _ ht
         rw [t2, t3]
         exact ⟨hc, h0, h4⟩)
  | tick => cases hu; exact ⟨hc, h0, h4⟩
  | other => cases hu; exact ⟨hc, h0, h4⟩

theorem cursorInv_run (m : Model) (l : List Msg) (m' : Model)
    (h : m.choices = initialModel.choices ∧ 0 ≤ m.cursor ∧ m.cursor ≤ 4)
    (hr : run m l = some m') :
    m'.choices = initialModel.choices ∧ 0 ≤ m'.cursor ∧ m'.cursor ≤ 4 :=
  run_invariant (fun m => m.choices = initialModel.choices ∧ 0 ≤ m.cursor ∧ m.cursor ≤ 4)
    cursorInv_Update m l m' h hr

/-- C8: for a model with five choices and the cursor in `[0, 4]`, "up" or "k" sets the
cursor to `max(0, cursor - 1)` and "down" or "j" sets it to `min(4, cursor + 1)`, changing
nothing else and returning no command; "up" at 0 and "down" at 4 return the model
unchanged; and every run of events from `initialModel` returns a state in which the
choices are the fixed list and the cursor is in `[0, 4]`. -/
theorem cursor_clamped (m : Model) (hlen : m.choices.length = 5) (h0 : 0 ≤ m.cursor)
    (h4 : m.cursor ≤ 4) (events : List Msg) :
    (Update m (.key "up") = some ({ m with cursor := max 0 (m.cursor - 1) }, Cmd.none) ∧
     Update m (.key "k") = some ({ m with cursor := max 0 (m.cursor - 1) }, Cmd.none)) ∧
    (Update m (.key "down") = some ({ m with cursor := min 4 (m.cursor + 1) }, Cmd.none) ∧
     Update m (.key "j") = some ({ m with cursor := min 4 (m.cursor + 1) }, Cmd.none)) ∧
    (m.cursor = 0 →
      Update m (.key "up") = some (m, Cmd.none) ∧ Update m (.key "k") = some (m, Cmd.none)) ∧
    (m.cursor = 4 →
      Update m (.key "down") = some (m, Cmd.none) ∧ Update m (.key "j") = some (m, Cmd.none)) ∧
    (∃ m', run initialModel events = some m' ∧
      m'.choices = initialModel.choices ∧ 0 ≤ m'.cursor ∧ m'.cursor ≤ 4) := by
  have hl : (m.choices.length : Int) = 5 := by rw [hlen]; rfl
  have hup : ∀ s, s = "up" ∨ s = "k" →
      Update m (.key s) = some ({ m with cursor := max 0 (m.cursor - 1) }, Cmd.none) := by
    intro s hs
    rw [Update_up m s hs]
    by_cases hpos : m.cursor > 0
    · rw [if_pos hpos, max_eq_right (by omega)]
    · rw [if_neg hpos, set_cursor_self m _ (by rw [max_eq_left (by omega)]; omega)]
  have hdown : ∀ s, s = "down" ∨ s = "j" →
      Update m (.key s) = some ({ m with cursor := min 4 (m.cursor + 1) }, Cmd.none) := by
    intro s hs
    rw [Update_down m s hs, hl]
    by_cases hlt : m.cursor < 5 - 1
    · rw [if_pos hlt, min_eq_right (by omega)]
    · rw [if_neg hlt, set_cursor_self m _ (by rw [min_eq_left (by omega)]; omega)]
  refine ⟨⟨hup _ (Or.inl rfl), hup _ (Or.inr rfl)⟩, ⟨hdown _ (Or.inl rfl), hdown _ (Or.inr rfl)⟩,
    ?_, ?_, ?_⟩
  · intro hc
    have hno : ¬ m.cursor > 0 := by omega
    constructor
    · rw [Update_up m _ (Or.inl rfl), if_neg hno]
    · rw [Update_up m _ (Or.inr rfl), if_neg hno]
  · intro hc
    have hno : ¬ m.cursor < (m.choices.length : Int) - 1 := by omega
    constructor
    · rw [Update_down m _ (Or.inl rfl), if_neg hno]
    · rw [Update_down m _ (Or.inr rfl), if_neg hno]
  · obtain ⟨m', hr, -⟩ := run_returns initialModel events initialModel_alloc
    exact ⟨m', hr, cursorInv_run initialModel events m' ⟨rfl, le_refl _, by decide⟩ hr⟩

theorem cursor_clamped_witness :
    Update thrustersOn (.key "up") = some (thrustersOn, Cmd.none) ∧
    Update thrustersOn (.key "down") = some ({ thrustersOn with cursor := 1 }, Cmd.none) ∧
    ∃ m', run initialModel [.key "down", .key "j", .key "down", .key "j", .key "down"]
      = some m' ∧ m'.cursor ≤ 4 := by
  have h := cursor_clamped thrustersOn rfl (le_refl _) (by decide)
    [.key "down", .key "j", .key "down", .key "j", .key "down"]
  obtain ⟨m', hr, -, -, h4⟩ := h.2.2.2.2
  exact ⟨(h.2.2.1 rfl).1, h.2.1.1, m', hr, h4⟩

/-- C9, as stated, fails on a model whose `selected` map is nil: the first toggle key
event stores into the nil map and panics, so no model comes back. -/
theorem toggle_on_nil_map_panics :
    nilMapModel.selected = KeySet.nil ∧
    Update nilMapModel (.key "enter") = none ∧
    Update nilMapModel (.key " ") = none ∧
    ¬ ∃ m₁ c₁ c₂, Update nilMapModel (.key "enter") = some (m₁, c₁) ∧
      Update m₁ (.key "enter") = some (nilMapModel, c₂) := by
  have h1 := Update_toggle_nil nilMapModel "enter" (Or.inl rfl) rfl
  have h2 := Update_toggle_nil nilMapModel " " (Or.inr rfl) rfl
  refine ⟨rfl, h1, h2, ?_⟩
  rintro ⟨m₁, c₁, c₂, h, -⟩
  rw [h1] at h
  exact absurd h (by simp)

/-- C9, amended: for every model whose `selected` map is not nil, two toggle key events
in a row (each "enter" or " ") both return, and the second returns the model itself: the
selected set is restored and nothing else has changed. -/
theorem double_toggle (m : Model) (h : m.selected ≠ KeySet.nil) :
    (∃ m₁, Update m (.key "enter") = some (m₁, Cmd.none) ∧
      Update m₁ (.key "enter") = some (m, Cmd.none)) ∧
    (∃ m₁, Update m (.key "enter") = some (m₁, Cmd.none) ∧
      Update m₁ (.key " ") = some (m, Cmd.none)) ∧
    (∃ m₁, Update m (.key " ") = some (m₁, Cmd.none) ∧
      Update m₁ (.key "enter") = some (m, Cmd.none)) ∧
    (∃ m₁, Update m (.key " ") = some (m₁, Cmd.none) ∧
      Update m₁ (.key " ") = some (m, Cmd.none)) := by
  obtain ⟨keys, hk⟩ := (KeySet.ne_nil_iff _).mp h
  obtain ⟨m₁, t1, t2⟩ := toggleSelected_twice m keys hk
  have key : ∀ s₁ s₂, (s₁ = "enter" ∨ s₁ = " ") → (s₂ = "enter" ∨ s₂ = " ") →
      ∃ m₁, Update m (.key s₁) = some (m₁, Cmd.none) ∧
        Update m₁ (.key s₂) = some (m, Cmd.none) := by
    intro s₁ s₂ h₁ h₂
    refine ⟨m₁, ?_, ?_⟩
    · rw [Update_toggle m s₁ h₁, t1]; rfl
    · rw [Update_toggle m₁ s₂ h₂, t2]; rfl
  exact ⟨key _ _ (Or.inl rfl) (Or.inl rfl), key _ _ (Or.inl rfl) (Or.inr rfl),
    key _ _ (Or.inr rfl) (Or.inl rfl), key _ _ (Or.inr rfl) (Or.inr rfl)⟩

theorem double_toggle_witness :
    thrustersOn.selected ≠ KeySet.nil ∧
    ∃ m₁, Update thrustersOn (.key "enter") = some (m₁, Cmd.none) ∧
      Update m₁ (.key " ") = some (thrustersOn, Cmd.none) :=
  ⟨by simp [thrustersOn], (double_toggle thrustersOn (by simp [thrustersOn])).2.1⟩

/-- C10, as stated, fails on the zero value `Model{}`, whose `selected` map is nil: the
cursor 0 is not in the map, so the toggle stores into the nil map and panics; there is no
`selected'` for index 0 to be in. -/
theorem toggle_of_zero_model_panics :
    (0 : Int) ∉ zeroModel.selected ∧ zeroModel.cursor = 0 ∧
    Update zeroModel (.key "enter") = none ∧
    Update zeroModel (.key " ") = none := by
  refine ⟨KeySet.not_mem_nil 0, rfl, ?_, ?_⟩
  · exact Update_toggle_nil zeroModel "enter" (Or.inl rfl) rfl
  · exact Update_toggle_nil zeroModel " " (Or.inr rfl) rfl

/-- C10, amended: for every model whose `selected` map is not nil and every index `i`,
one toggle key event ("enter" or " ") returns a model in which `i` is in `selected'`
exactly when one and only one of `i ∈ selected` and `i = cursor` holds; the cursor does
not move. -/
theorem toggle_membership (m : Model) (i : Int) (h : m.selected ≠ KeySet.nil) :
    (∃ m', Update m (.key "enter") = some (m', Cmd.none) ∧
      (i ∈ m'.selected ↔ Xor' (i ∈ m.selected) (i = m.cursor)) ∧ m'.cursor = m.cursor) ∧
    (∃ m', Update m (.key " ") = some (m', Cmd.none) ∧
      (i ∈ m'.selected ↔ Xor' (i ∈ m.selected) (i = m.cursor)) ∧ m'.cursor = m.cursor) := by
  obtain ⟨keys, hk⟩ := (KeySet.ne_nil_iff _).mp h
  have key : (i ∈ KeySet.alloc (if m.cursor ∈ keys then keys.erase m.cursor
      else insert m.cursor keys) ↔ Xor' (i ∈ m.selected) (i = m.cursor)) := by
    rw [hk, KeySet.mem_alloc, KeySet.mem_alloc]
    by_cases h : m.cursor ∈ keys
    · rw [if_pos h]
      simp only [Finset.mem_erase, Xor']
      constructor
      · rintro ⟨h1, h2⟩; exact Or.inl ⟨h2, h1⟩
      · rintro (⟨h1, h2⟩ | ⟨h1, h2⟩)
        · exact ⟨h2, h1⟩
        · exact absurd (h1 ▸ h) h2
    · rw [if_neg h]
      simp only [Finset.mem_insert, Xor']
      constructor
      · rintro (h1 | h1)
        · exact Or.inr ⟨h1, fun h2 => h (h1 ▸ h2)⟩
        · exact Or.inl ⟨h1, fun h2 => h (h2 ▸ h1)⟩
      · rintro (⟨h1, h2⟩ | ⟨h1, h2⟩)
        · exact Or.inr h1
        · exact Or.inl h1
  exact ⟨⟨_, Update_toggle_alloc m _ (Or.inl rfl) keys hk, key, rfl⟩,
    ⟨_, Update_toggle_alloc m _ (Or.inr rfl) keys hk, key, rfl⟩⟩

theorem toggle_membership_witness :
    thrustersOn.selected ≠ KeySet.nil ∧
    ∃ m', Update thrustersOn (.key "enter") = some (m', Cmd.none) ∧
      ((0 : Int) ∈ m'.selected ↔ Xor' ((0 : Int) ∈ thrustersOn.selected)
        ((0 : Int) = thrustersOn.cursor)) ∧ m'.cursor = thrustersOn.cursor :=
  ⟨by simp [thrustersOn], (toggle_membership thrustersOn 0 (by simp [thrustersOn])).1⟩

/-! ## Evaluating inexact roundings -/

theorem roundHalfEven_of_near (s : ℚ) (m : ℤ) (h : |s - m| < 1 / 2) : roundHalfEven s = m := by
  rw [abs_lt] at h
  obtain ⟨h1, h2⟩ := h
  unfold roundHalfEven
  rcases le_or_lt (m : ℚ) s with hms | hms
  · have hfl : ⌊s⌋ = m := by
      rw [Int.floor_eq_iff]; constructor <;> linarith
    rw [hfl, if_pos (by linarith)]
  · have hfl : ⌊s⌋ = m - 1 := by
      rw [Int.floor_eq_iff]; push_cast; constructor <;> linarith
    rw [hfl]
    push_cast
    rw [if_neg (by linarith), if_pos (by linarith)]
    ring

theorem roundHalfEven_tie_odd (m : ℤ) (h : m % 2 = 1) :
    roundHalfEven ((m : ℚ) + 1 / 2) = m + 1 := by
  have hfl : ⌊(m : ℚ) + 1 / 2⌋ = m := by
    rw [Int.floor_eq_iff]; constructor <;> linarith
  unfold roundHalfEven
  rw [hfl, if_neg (by norm_num), if_neg (by norm_num), if_neg (by omega)]

theorem roundHalfEven_tie_even (m : ℤ) (h : m % 2 = 0) :
    roundHalfEven ((m : ℚ) + 1 / 2) = m := by
  have hfl : ⌊(m : ℚ) + 1 / 2⌋ = m := by
    rw [Int.floor_eq_iff]; constructor <;> linarith
  unfold roundHalfEven
  rw [hfl, if_neg (by norm_num), if_neg (by norm_num), if_pos h]

/-- The exponent of a positive value whose scaled significand `q / 2^e` lies in
`[2^52, 2^53)`. -/
theorem log_of_scaled (q : ℚ) (e : ℤ) (h1 : 2 ^ 52 ≤ q / 2 ^ e) (h2 : q / 2 ^ e < 2 ^ 53) :
    0 < q ∧ Int.log 2 q - 52 = e := by
  have hpow : (0 : ℚ) < 2 ^ e := by positivity
  have hq : 0 < q := by
    have : (0 : ℚ) < q / 2 ^ e := lt_of_lt_of_le (by positivity) h1
    exact (div_pos_iff_of_pos_right hpow).mp this
  have hlo : ((2 : ℕ) : ℚ) ^ (e + 52) ≤ q := by
    rw [zpow_add₀ (by norm_num)]
    have := (le_div_iff₀ hpow).mp h1
    push_cast
    calc (2 : ℚ) ^ e * 2 ^ (52 : ℤ) = 2 ^ 52 * 2 ^ e := by rw [mul_comm]; norm_num
      _ ≤ q := this
  have hhi : q < ((2 : ℕ) : ℚ) ^ (e + 52 + 1) := by
    rw [add_assoc, zpow_add₀ (by norm_num)]
    have := (div_lt_iff₀ hpow).mp h2
    push_cast
    calc q < 2 ^ 53 * 2 ^ e := this
      _ = (2 : ℚ) ^ e * 2 ^ ((52 : ℤ) + 1) := by rw [mul_comm]; norm_num
  have a1 := (Int.zpow_le_iff_le_log (by norm_num) hq).mp hlo
  have a2 := (Int.lt_zpow_iff_log_lt (by norm_num) hq).mp hhi
  exact ⟨hq, by omega⟩

theorem round53_of_scaled (q : ℚ) (e : ℤ) (h1 : 2 ^ 52 ≤ q / 2 ^ e) (h2 : q / 2 ^ e < 2 ^ 53) :
    round53 q = (roundHalfEven (q / 2 ^ e) : ℚ) * 2 ^ e := by
  obtain ⟨hq, hlog⟩ := log_of_scaled q e h1 h2
  unfold round53
  rw [if_neg hq.ne', abs_of_pos hq, hlog]
  rfl

theorem roundF64_of_scaled (q : ℚ) (e : ℤ) (h1 : 2 ^ 52 ≤ q / 2 ^ e) (h2 : q / 2 ^ e < 2 ^ 53)
    (he : -1074 ≤ e) :
    roundF64 q = (roundHalfEven (q / 2 ^ e) : ℚ) * 2 ^ e := by
  obtain ⟨hq, hlog⟩ := log_of_scaled q e h1 h2
  unfold roundF64
  rw [if_neg hq.ne', abs_of_pos hq, hlog, max_eq_left he]
  rfl

theorem round53_eval_near (q : ℚ) (e m : ℤ) (h1 : 2 ^ 52 ≤ q / 2 ^ e) (h2 : q / 2 ^ e < 2 ^ 53)
    (h3 : |q / 2 ^ e - m| < 1 / 2) : round53 q = (m : ℚ) * 2 ^ e := by
  rw [round53_of_scaled q e h1 h2, roundHalfEven_of_near _ m h3]

theorem roundF64_eval_near (q : ℚ) (e m : ℤ) (h1 : 2 ^ 52 ≤ q / 2 ^ e) (h2 : q / 2 ^ e < 2 ^ 53)
    (h3 : |q / 2 ^ e - m| < 1 / 2) (he : -1074 ≤ e) : roundF64 q = (m : ℚ) * 2 ^ e := by
  rw [roundF64_of_scaled q e h1 h2 he, roundHalfEven_of_near _ m h3]

theorem roundF64_eval_tie_odd (q : ℚ) (e m : ℤ) (h1 : 2 ^ 52 ≤ q / 2 ^ e)
    (h2 : q / 2 ^ e < 2 ^ 53) (h3 : q / 2 ^ e = m + 1 / 2) (hodd : m % 2 = 1)
    (he : -1074 ≤ e) :
    roundF64 q = ((m + 1 : ℤ) : ℚ) * 2 ^ e := by
  rw [roundF64_of_scaled q e h1 h2 he, h3, roundHalfEven_tie_odd m hodd]

/-- Evaluation of `f64sqrt`: with `t = q / 4^k` in `[2^104, 2^106)`, `s = ⌊√t⌋` and
`t` below `(s + 1/2)^2`, the result is `s * 2^k`. -/
theorem f64sqrt_eval (q : ℚ) (k : ℤ) (s : ℕ) (h1 : 2 ^ 104 ≤ q / 2 ^ (2 * k))
    (h2 : q / 2 ^ (2 * k) < 2 ^ 106) (h3 : (s : ℚ) * s ≤ q / 2 ^ (2 * k))
    (h4 : q / 2 ^ (2 * k) < ((s : ℚ) + 1) * (s + 1))
    (h5 : q / 2 ^ (2 * k) < (s : ℚ) * s + s + 1 / 4) :
    f64sqrt q = (s : ℚ) * 2 ^ k := by
  have hpow : (0 : ℚ) < 2 ^ (2 * k) := by positivity
  have ht : (0 : ℚ) < q / 2 ^ (2 * k) := lt_of_lt_of_le (by positivity) h1
  have hq : 0 < q := (div_pos_iff_of_pos_right hpow).mp ht
  have hlo : ((2 : ℕ) : ℚ) ^ (2 * k + 104) ≤ q := by
    rw [zpow_add₀ (by norm_num)]
    have := (le_div_iff₀ hpow).mp h1
    push_cast
    calc (2 : ℚ) ^ (2 * k) * 2 ^ (104 : ℤ) = 2 ^ 104 * 2 ^ (2 * k) := by rw [mul_comm]; norm_num
      _ ≤ q := this
  have hhi : q < ((2 : ℕ) : ℚ) ^ (2 * k + 106) := by
    rw [zpow_add₀ (by norm_num)]
    have := (div_lt_iff₀ hpow).mp h2
    push_cast
    calc q < 2 ^ 106 * 2 ^ (2 * k) := this
      _ = (2 : ℚ) ^ (2 * k) * 2 ^ (106 : ℤ) := by rw [mul_comm]; norm_num
  have hk : Int.log 2 q / 2 - 52 = k := by
    have a1 := (Int.zpow_le_iff_le_log (by norm_num) hq).mp hlo
    have a2 := (Int.lt_zpow_iff_log_lt (by norm_num) hq).mp hhi
    omega
  have hsqrt : Nat.sqrt ⌊q / 2 ^ (2 * k)⌋₊ = s := by
    symm
    rw [Nat.eq_sqrt]
    constructor
    · rw [Nat.le_floor_iff ht.le]; push_cast; exact h3
    · rw [Nat.floor_lt ht.le]; push_cast; exact h4
  unfold f64sqrt
  rw [if_neg (not_le.mpr hq)]
  simp only [hk, hsqrt, Int.cast_natCast]
  rw [if_pos h5]
  push_cast
  rfl

/-- The square root of the square of a representable value `n * 2^e` is exact. -/
theorem f64sqrt_sq_repr (n : ℕ) (e : ℤ) (hn : n < 2 ^ 53) :
    f64sqrt (((n : ℚ) * 2 ^ e) * ((n : ℚ) * 2 ^ e)) = (n : ℚ) * 2 ^ e := by
  rcases Nat.eq_zero_or_pos n with h0 | hpos
  · subst h0; simp [f64sqrt]
  have ha : Nat.log 2 n < 53 := Nat.log_lt_of_lt_pow hpos.ne' hn
  obtain ⟨j, hj⟩ : ∃ j : ℕ, j + Nat.log 2 n = 52 := ⟨52 - Nat.log 2 n, by omega⟩
  have hlo : 2 ^ 52 ≤ n * 2 ^ j := by
    calc 2 ^ 52 = 2 ^ Nat.log 2 n * 2 ^ j := by rw [← pow_add, add_comm, hj]
      _ ≤ n * 2 ^ j := Nat.mul_le_mul_right _ (Nat.pow_log_le_self 2 hpos.ne')
  have hhi : n * 2 ^ j < 2 ^ 53 := by
    calc n * 2 ^ j < 2 ^ (Nat.log 2 n + 1) * 2 ^ j :=
          Nat.mul_lt_mul_of_pos_right (Nat.lt_pow_succ_log_self (by norm_num) n) (by positivity)
      _ = 2 ^ 53 := by rw [← pow_add]; congr 1; omega
  have hloq : (2 : ℚ) ^ 52 ≤ ((n * 2 ^ j : ℕ) : ℚ) := by exact_mod_cast hlo
  have hhiq : ((n * 2 ^ j : ℕ) : ℚ) < 2 ^ 53 := by exact_mod_cast hhi
  have hs0 : (0 : ℚ) ≤ ((n * 2 ^ j : ℕ) : ℚ) := Nat.cast_nonneg _
  have ht : ((n : ℚ) * 2 ^ e) * ((n : ℚ) * 2 ^ e) / 2 ^ (2 * (e - (j : ℤ)))
      = ((n * 2 ^ j : ℕ) : ℚ) * ((n * 2 ^ j : ℕ) : ℚ) := by
    have h2 : (2 : ℚ) ^ (2 * (e - (j : ℤ))) = 2 ^ e * 2 ^ e / (2 ^ j * 2 ^ j) := by
      rw [show 2 * (e - (j : ℤ)) = (e + e) - ((j : ℤ) + j) by ring, zpow_sub₀ (by norm_num),
        zpow_add₀ (by norm_num), zpow_add₀ (by norm_num), zpow_natCast]
    rw [h2]
    push_cast
    field_simp
    ring
  have key := f64sqrt_eval (((n : ℚ) * 2 ^ e) * ((n : ℚ) * 2 ^ e)) (e - (j : ℤ)) (n * 2 ^ j)
    (by rw [ht]; nlinarith) (by rw [ht]; nlinarith) (by rw [ht]) (by rw [ht]; nlinarith)
    (by rw [ht]; linarith)
  rw [key, zpow_sub₀ (by norm_num), zpow_natCast]
  push_cast
  field_simp
  ring

/-! ## Velocity accumulation -/

theorem round53_zero : round53 0 = 0 := by
  simp [round53]

theorem f64pow2_zero : f64pow2 0 = 0 := by
  simp [f64pow2, round53_zero, roundF64_zero]

theorem f64add_zero_right (m e : ℤ) (hm : |m| < 2 ^ 53) (he : -1074 ≤ e) :
    f64add ((m : ℚ) * 2 ^ e) 0 = (m : ℚ) * 2 ^ e := by
  unfold f64add
  rw [add_zero, roundF64_repr m e hm he]

/-- The magnitude of a vector along the first axis whose length `n * 2^e` has an exactly
representable square. -/
theorem Magnitude_axis (n : ℕ) (e : ℤ) (h : n * n < 2 ^ 53) (he : -1074 ≤ e + e) :
    Magnitude ⟨(n : ℚ) * 2 ^ e, 0, 0⟩ = (n : ℚ) * 2 ^ e := by
  have hn : n < 2 ^ 53 := lt_of_le_of_lt (Nat.le_mul_self n) h
  have hsq : (n : ℚ) * 2 ^ e * ((n : ℚ) * 2 ^ e) = (((n * n : ℕ) : ℤ) : ℚ) * 2 ^ (e + e) := by
    rw [zpow_add₀ (by norm_num)]; push_cast; ring
  have habs : |((n * n : ℕ) : ℤ)| < 2 ^ 53 := by
    rw [Nat.abs_cast]; exact_mod_cast h
  have hp : f64pow2 ((n : ℚ) * 2 ^ e) = (((n * n : ℕ) : ℤ) : ℚ) * 2 ^ (e + e) := by
    unfold f64pow2
    rw [hsq, round53_repr _ _ habs, roundF64_repr _ _ habs he]
  unfold Magnitude
  dsimp only
  rw [hp, f64pow2_zero, f64add_zero_right _ _ habs he, f64add_zero_right _ _ habs he, ← hsq,
    f64sqrt_sq_repr n e hn]

/-- The velocity after a tick of a model oriented along the first axis. -/
theorem tickStep_velocity_axis (m : Model) (v : ℚ) (ho : m.sensors.orientation = ⟨1, 0, 0⟩)
    (hv : m.sensors.velocity = ⟨v, 0, 0⟩) :
    (tickStep m).sensors.velocity = ⟨f64add v (f64mul 1 m.sensors.deltaV), 0, 0⟩ := by
  have h0 : f64mul 0 m.sensors.deltaV = 0 := by
    simp [f64mul, roundF64_zero]
  have h00 : f64add 0 0 = 0 := by
    simp [f64add, roundF64_zero]
  rw [tickStep_sensors]
  simp only [ho, hv, Add, ScalarProduct, h0, h00]

theorem axis_velocity_after_ticks (m : Model) (a N : ℕ) (e : ℤ)
    (ho : m.sensors.orientation = ⟨1, 0, 0⟩) (hv : m.sensors.velocity = ⟨0, 0, 0⟩)
    (hd : ∀ i, i < N → (ticks i m).sensors.deltaV = (a : ℚ) * 2 ^ e)
    (hrep : a * N < 2 ^ 53) (he : -1074 ≤ e) (n : ℕ) (hn : n ≤ N) :
    (ticks n m).sensors.velocity = ⟨(((a * n : ℕ) : ℤ) : ℚ) * 2 ^ e, 0, 0⟩ := by
  induction n with
  | zero => rw [ticks_zero, hv]; simp
  | succ n ih =>
    have hlt : n < N := hn
    have ha : a ≤ a * N := Nat.le_mul_of_pos_right a (by omega)
    have han : a * (n + 1) ≤ a * N := Nat.mul_le_mul_left a hn
    have ho2 : (ticks n m).sensors.orientation = ⟨1, 0, 0⟩ := by rw [ticks_orientation, ho]
    have h1 : f64mul 1 ((a : ℚ) * 2 ^ e) = (a : ℚ) * 2 ^ e := by
      unfold f64mul
      rw [one_mul]
      have := roundF64_repr (a : ℤ) e
        (by rw [Nat.abs_cast]; exact_mod_cast (by omega : a < 2 ^ 53)) he
      simpa using this
    have h2 : f64add ((((a * n : ℕ) : ℤ) : ℚ) * 2 ^ e) ((a : ℚ) * 2 ^ e)
        = (((a * (n + 1) : ℕ) : ℤ) : ℚ) * 2 ^ e := by
      unfold f64add
      have hsum : (((a * n : ℕ) : ℤ) : ℚ) * 2 ^ e + (a : ℚ) * 2 ^ e
          = (((a * (n + 1) : ℕ) : ℤ) : ℚ) * 2 ^ e := by push_cast; ring
      rw [hsum]
      exact roundF64_repr _ e
        (by rw [Nat.abs_cast]; exact_mod_cast (by omega : a * (n + 1) < 2 ^ 53)) he
    rw [ticks_succ, tickStep_velocity_axis (ticks n m) _ ho2 (ih (by omega)), hd n hlt, h1, h2]

/-! ## The velocity rule on values that are not exactly summable -/

theorem drift_fuel : roundF64 (2 ^ 200 - 1152921504606847232) = 2 ^ 200 := by
  rw [roundF64_eval_near _ 147 (2 ^ 53) (by norm_num) (by norm_num)
    (by rw [abs_lt]; constructor <;> norm_num) (by norm_num)]
  norm_num

theorem drift_deltaV : roundF64 (1152921504606847232 - 1) = 1152921504606847232 := by
  rw [roundF64_eval_near _ 8 4503599627370497 (by norm_num) (by norm_num)
    (by rw [abs_lt]; constructor <;> norm_num) (by norm_num)]
  norm_num

theorem drift_repr : roundF64 1152921504606847232 = 1152921504606847232 := by
  have h := roundF64_repr 4503599627370497 8 (by norm_num) (by norm_num)
  norm_num at h
  exact h

/-- One tick of a model with the sensors of `driftModel`: fuel and deltaV come back
unchanged, the velocity gains the rounded sum. -/
theorem drift_tickStep (m : Model) (v : ℚ) (hf : m.sensors.fuel = 2 ^ 200)
    (hd : m.sensors.deltaV = 1152921504606847232) (hsel : (0 : Int) ∉ m.selected)
    (ho : m.sensors.orientation = ⟨1, 0, 0⟩) (hv : m.sensors.velocity = ⟨v, 0, 0⟩) :
    (tickStep m).sensors.fuel = 2 ^ 200 ∧
    (tickStep m).sensors.deltaV = 1152921504606847232 ∧
    (tickStep m).sensors.velocity = ⟨roundF64 (v + 1152921504606847232), 0, 0⟩ := by
  have hvel := tickStep_velocity_axis m v ho hv
  have h1 : f64mul 1 (1152921504606847232 : ℚ) = 1152921504606847232 := by
    unfold f64mul; rw [one_mul, drift_repr]
  rw [hd, h1] at hvel
  refine ⟨?_, ?_, hvel⟩
  · rw [tickStep_sensors, hf, hd]
    show f64sub (2 ^ 200) 1152921504606847232 = 2 ^ 200
    exact drift_fuel
  · rw [tickStep_sensors, hf, hd]
    show f64min (f64sub (2 ^ 200) 1152921504606847232)
      (if (0 : Int) ∈ m.selected then f64min 10 (f64add 1152921504606847232 1)
        else f64max 0 (f64sub 1152921504606847232 1)) = 1152921504606847232
    rw [if_neg hsel]
    unfold f64sub f64max f64min
    rw [drift_fuel, drift_deltaV]
    norm_num

theorem drift_ticks (n : ℕ) :
    (ticks n driftModel).sensors.fuel = 2 ^ 200 ∧
    (ticks n driftModel).sensors.deltaV = 1152921504606847232 ∧
    ∃ v : ℚ, (ticks n driftModel).sensors.velocity = ⟨v, 0, 0⟩ := by
  induction n with
  | zero => exact ⟨rfl, rfl, 0, rfl⟩
  | succ n ih =>
    obtain ⟨h1, h2, v, h3⟩ := ih
    have hsel : (0 : Int) ∉ (ticks n driftModel).selected := by
      rw [ticks_selected]; simp [driftModel, initialModel]
    have ho : (ticks n driftModel).sensors.orientation = ⟨1, 0, 0⟩ := by
      rw [ticks_orientation]; rfl
    rw [ticks_succ]
    obtain ⟨k1, k2, k3⟩ := drift_tickStep _ v h1 h2 hsel ho h3
    exact ⟨k1, k2, _, k3⟩

/-- From the velocity after `n` ticks of `driftModel` to the velocity after `n + 1`. -/
theorem drift_next (n : ℕ) (v w : ℚ) (hv : (ticks n driftModel).sensors.velocity = ⟨v, 0, 0⟩)
    (hw : roundF64 (v + 1152921504606847232) = w) :
    (ticks (n + 1) driftModel).sensors.velocity = ⟨w, 0, 0⟩ := by
  obtain ⟨h1, h2, -⟩ := drift_ticks n
  have hsel : (0 : Int) ∉ (ticks n driftModel).selected := by
    rw [ticks_selected]; simp [driftModel, initialModel]
  have ho : (ticks n driftModel).sensors.orientation = ⟨1, 0, 0⟩ := by
    rw [ticks_orientation]; rfl
  rw [ticks_succ, (drift_tickStep _ v h1 h2 hsel ho hv).2.2, hw]

theorem drift_sum1 : roundF64 (0 + 1152921504606847232) = 1152921504606847232 := by
  rw [zero_add, drift_repr]

theorem drift_sum2 :
    roundF64 (1152921504606847232 + 1152921504606847232) = 2305843009213694464 := by
  have h := roundF64_repr 4503599627370497 9 (by norm_num) (by norm_num)
  norm_num at h ⊢
  exact h

theorem drift_sum3 :
    roundF64 (2305843009213694464 + 1152921504606847232) = 3458764513820541952 := by
  rw [roundF64_eval_tie_odd _ 9 6755399441055745 (by norm_num) (by norm_num) (by norm_num)
    (by norm_num) (by norm_num)]
  norm_num

theorem drift_sum4 :
    roundF64 (3458764513820541952 + 1152921504606847232) = 4611686018427388928 := by
  rw [roundF64_eval_near _ 10 4503599627370497 (by norm_num) (by norm_num)
    (by rw [abs_lt]; constructor <;> norm_num) (by norm_num)]
  norm_num

theorem drift_sum5 :
    roundF64 (4611686018427388928 + 1152921504606847232) = 5764607523034235904 := by
  rw [roundF64_eval_near _ 10 5629499534213121 (by norm_num) (by norm_num)
    (by rw [abs_lt]; constructor <;> norm_num) (by norm_num)]
  norm_num

theorem drift_sum6 :
    roundF64 (5764607523034235904 + 1152921504606847232) = 6917529027641082880 := by
  rw [roundF64_eval_near _ 10 6755399441055745 (by norm_num) (by norm_num)
    (by rw [abs_lt]; constructor <;> norm_num) (by norm_num)]
  norm_num

theorem drift_velocity :
    (ticks 6 driftModel).sensors.velocity = ⟨6917529027641082880, 0, 0⟩ := by
  have h0 : (ticks 0 driftModel).sensors.velocity = ⟨0, 0, 0⟩ := rfl
  have h1 := drift_next 0 _ _ h0 drift_sum1
  have h2 := drift_next 1 _ _ h1 drift_sum2
  have h3 := drift_next 2 _ _ h2 drift_sum3
  have h4 := drift_next 3 _ _ h3 drift_sum4
  have h5 := drift_next 4 _ _ h4 drift_sum5
  exact drift_next 5 _ _ h5 drift_sum6

theorem drift_product : f64mul 1152921504606847232 6 = 6917529027641083904 := by
  unfold f64mul
  rw [roundF64_eval_tie_odd _ 10 6755399441055745 (by norm_num) (by norm_num) (by norm_num)
    (by norm_num) (by norm_num)]
  norm_num

theorem drift_magnitude :
    Magnitude ⟨6917529027641082880, 0, 0⟩ = 6917529027641082880 := by
  have hr : roundF64 47852207848256990314002985648673259520
      = 47852207848256990314002985648673259520 := by
    have h := roundF64_repr 5066549580791810 73 (by norm_num) (by norm_num)
    norm_num at h
    exact h
  have hp : f64pow2 6917529027641082880 = 47852207848256990314002985648673259520 := by
    have h53 : round53 (6917529027641082880 * 6917529027641082880)
        = 47852207848256990314002985648673259520 := by
      rw [round53_eval_near _ 73 5066549580791810 (by norm_num) (by norm_num)
        (by rw [abs_lt]; constructor <;> norm_num)]
      norm_num
    unfold f64pow2
    rw [h53, hr]
  have hs : f64sqrt 47852207848256990314002985648673259520 = 6917529027641082880 := by
    rw [f64sqrt_eval _ 10 6755399441055745 (by norm_num) (by norm_num) (by norm_num)
      (by norm_num) (by norm_num)]
    norm_num
  unfold Magnitude
  dsimp only
  rw [hp, f64pow2_zero]
  unfold f64add
  rw [add_zero, add_zero, hr, hr, hs]

/-! ## What a tick reads and what the events leave alone -/

/-- C11: two models with the same sensors that agree on whether index 0 is selected get
the same sensors from a tick, whatever their cursors and the other selected indices. -/
theorem tick_reads_only_main_thruster (m₁ m₂ : Model) (hs : m₁.sensors = m₂.sensors)
    (h0 : (0 : Int) ∈ m₁.selected ↔ (0 : Int) ∈ m₂.selected) :
    ∃ m₁' m₂', Update m₁ .tick = some (m₁', Cmd.tick) ∧
      Update m₂ .tick = some (m₂', Cmd.tick) ∧ m₁'.sensors = m₂'.sensors := by
  refine ⟨tickStep m₁, tickStep m₂, rfl, rfl, ?_⟩
  rw [tickStep_sensors, tickStep_sensors, hs]
  by_cases h : (0 : Int) ∈ m₂.selected
  · rw [if_pos (h0.mpr h), if_pos h]
  · rw [if_neg (fun h1 => h (h0.mp h1)), if_neg h]

theorem tick_reads_only_main_thruster_witness :
    ∃ m₁' m₂', Update thrustersOn .tick = some (m₁', Cmd.tick) ∧
      Update { thrustersOn with cursor := 3, selected := .alloc {0, 2, 4} } .tick
        = some (m₂', Cmd.tick) ∧
      m₁'.sensors = m₂'.sensors :=
  tick_reads_only_main_thruster thrustersOn
    { thrustersOn with cursor := 3, selected := .alloc {0, 2, 4} } rfl (by simp [thrustersOn])

/-- C12: a tick changes only `sensors.velocity`, `sensors.fuel` and `sensors.deltaV`:
cursor, selected, choices, celestialBodies, the orientation and the location (and the
two remaining fields, frameOfReference and sensors.body) are as before. -/
theorem tick_frame (m : Model) :
    ∃ m', Update m .tick = some (m', Cmd.tick) ∧
      m'.cursor = m.cursor ∧
      m'.selected = m.selected ∧
      m'.choices = m.choices ∧
      m'.celestialBodies = m.celestialBodies ∧
      m'.sensors.orientation = m.sensors.orientation ∧
      m'.sensors.location = m.sensors.location ∧
      m'.frameOfReference = m.frameOfReference ∧
      m'.sensors.body = m.sensors.body := by
  refine ⟨tickStep m, rfl, rfl, rfl, rfl, rfl, ?_, ?_, rfl, ?_⟩ <;> rw [tickStep_sensors]

/-- A key event panics exactly when it is a toggle on the nil map. -/
theorem Update_key_eq_none_iff (m : Model) (s : String) :
    Update m (.key s) = none ↔ m.selected = KeySet.nil ∧ (s = "enter" ∨ s = " ") := by
  constructor
  · intro h
    rw [Update_key] at h
    split_ifs at h with h1 h2 h3 h4
    cases hsel : m.selected with
    | nil => exact ⟨rfl, h4⟩
    | alloc keys =>
      rw [toggleSelected_alloc m keys hsel] at h
      exact absurd h (by simp)
  · rintro ⟨h1, h2⟩
    exact Update_toggle_nil m s h2 h1

/-- C13: every key event, recognised or not, leaves the sensors (fuel, deltaV,
orientation, velocity, location) and celestialBodies unchanged in the model it returns;
and it returns a model unless it is a toggle ("enter" or " ") on a nil `selected` map. -/
theorem key_leaves_physics (m : Model) (s : String) :
    (∀ m' c, Update m (.key s) = some (m', c) →
      m'.sensors = m.sensors ∧ m'.celestialBodies = m.celestialBodies) ∧
    (Update m (.key s) = none ↔ m.selected = KeySet.nil ∧ (s = "enter" ∨ s = " ")) := by
  refine ⟨?_, Update_key_eq_none_iff m s⟩
  intro m' c h
  obtain ⟨h1, -, h3, -⟩ := Update_key_some m m' s c h
  exact ⟨h1, h3⟩

theorem key_leaves_physics_witness :
    Update initialModel (.key "enter") = some (thrustersOn, Cmd.none) ∧
    thrustersOn.sensors = initialModel.sensors ∧
    thrustersOn.celestialBodies = initialModel.celestialBodies :=
  ⟨Update_enter_initial,
    (key_leaves_physics initialModel "enter").1 thrustersOn Cmd.none Update_enter_initial⟩

/-- C14: a key event whose text is none of "ctrl+c", "q", "up", "k", "down", "j",
"enter", " " returns the model unchanged and no command. -/
theorem unrecognised_key_noop (m : Model) (s : String)
    (h : s ≠ "ctrl+c" ∧ s ≠ "q" ∧ s ≠ "up" ∧ s ≠ "k" ∧ s ≠ "down" ∧ s ≠ "j" ∧ s ≠ "enter" ∧
      s ≠ " ") :
    Update m (.key s) = some (m, Cmd.none) := by
  obtain ⟨h1, h2, h3, h4, h5, h6, h7, h8⟩ := h
  simp [Update, h1, h2, h3, h4, h5, h6, h7, h8]

theorem unrecognised_key_noop_witness :
    Update thrustersOn (.key "x") = some (thrustersOn, Cmd.none) :=
  unrecognised_key_noop thrustersOn "x" (by decide)

/-! ## Fuel below zero, and conservation on the reachable states -/

/-- C19: the tick does not floor the fuel at zero.  From fuel 1 and deltaV 5 one tick
gives `fuel' = -4` and `deltaV' = fuel' = -4`, with index 0 selected or not. -/
theorem tick_does_not_floor_fuel :
    (0 ≤ overdrawnModel.sensors.fuel ∧ 0 ≤ overdrawnModel.sensors.deltaV ∧
      overdrawnModel.sensors.fuel < overdrawnModel.sensors.deltaV) ∧
    (∃ m', Update overdrawnModel .tick = some (m', Cmd.tick) ∧
      m'.sensors.fuel = -4 ∧ m'.sensors.deltaV = -4) ∧
    (∃ m', Update { overdrawnModel with selected := .alloc {0} } .tick = some (m', Cmd.tick) ∧
      m'.sensors.fuel = -4 ∧ m'.sensors.deltaV = -4) ∧
    ∃ m m' : Model, 0 ≤ m.sensors.fuel ∧ 0 ≤ m.sensors.deltaV ∧
      m.sensors.fuel < m.sensors.deltaV ∧ Update m .tick = some (m', Cmd.tick) ∧
      m'.sensors.fuel < 0 ∧ m'.sensors.deltaV = m'.sensors.fuel := by
  have hfuel : f64sub 1 5 = -4 := by
    have h := f64sub_natCast 1 5 (by norm_num) (by norm_num)
    norm_num at h
    exact h
  have hdown : f64sub 5 1 = 4 := by
    have h := f64sub_natCast 5 1 (by norm_num) (by norm_num)
    norm_num at h
    exact h
  have hup : f64add 5 1 = 6 := by
    have h := f64add_natCast 5 1 (by norm_num)
    norm_num at h
    exact h
  have hf : overdrawnModel.sensors.fuel = 1 := rfl
  have hd : overdrawnModel.sensors.deltaV = 5 := rfl
  have hsel : (0 : Int) ∉ overdrawnModel.selected := by simp [overdrawnModel, initialModel]
  have h1 : (tickStep overdrawnModel).sensors.fuel = -4 := by
    rw [tickStep_sensors, hf, hd]
    exact hfuel
  have h2 : (tickStep overdrawnModel).sensors.deltaV = -4 := by
    rw [tickStep_sensors, hf, hd]
    show f64min (f64sub 1 5) (if (0 : Int) ∈ overdrawnModel.selected then
      f64min 10 (f64add 5 1) else f64max 0 (f64sub 5 1)) = -4
    rw [if_neg hsel, hfuel, hdown]
    norm_num [f64min, f64max]
  have hsel' : (0 : Int) ∈ ({ overdrawnModel with selected := .alloc {0} } : Model).selected := by
    simp
  have h3 : (tickStep { overdrawnModel with selected := .alloc {0} }).sensors.fuel = -4 := by
    rw [tickStep_sensors]
    exact hfuel
  have h4 : (tickStep { overdrawnModel with selected := .alloc {0} }).sensors.deltaV = -4 := by
    rw [tickStep_sensors]
    show f64min (f64sub 1 5)
      (if (0 : Int) ∈ ({ overdrawnModel with selected := .alloc {0} } : Model).selected
      then f64min 10 (f64add 5 1) else f64max 0 (f64sub 5 1)) = -4
    rw [if_pos hsel', hfuel, hup]
    norm_num [f64min]
  have h0 : 0 ≤ overdrawnModel.sensors.fuel ∧ 0 ≤ overdrawnModel.sensors.deltaV ∧
      overdrawnModel.sensors.fuel < overdrawnModel.sensors.deltaV := by
    rw [hf, hd]; norm_num
  refine ⟨h0, ⟨_, rfl, h1, h2⟩, ⟨_, rfl, h3, h4⟩, overdrawnModel, _, h0.1, h0.2.1, h0.2.2, rfl,
    ?_, ?_⟩
  · rw [h1]; norm_num
  · rw [h1, h2]

theorem conservedInv_initial : ConservedInv initialModel :=
  ⟨50, 0, 0, by simp [initialModel], by simp [initialModel], by simp [initialModel], rfl,
    by omega, by omega⟩

theorem conservedInv_Update (m : Model) (msg : Msg) (m' : Model) (c : Cmd) (h : ConservedInv m)
    (hu : Update m msg = some (m', c)) : ConservedInv m' := by
  cases msg with
  | key s =>
    obtain ⟨f, d, v, hf, hd, hv, ho, hrest⟩ := h
    have hs := Update_key_sensors m m' s c hu
    refine ⟨f, d, v, ?_, ?_, ?_, ?_, hrest⟩ <;> rw [hs] <;> assumption
  | tick =>
    cases hu
    obtain ⟨f, d, v, hf, hd, hv, ho, hdf, hsum⟩ := h
    obtain ⟨h1, h2⟩ := tickStep_nat m f d hf hd hdf (by omega)
    have h3 := tickStep_velocity_nat m v d ho hv hd (by omega)
    refine ⟨_, _, _, h1, h2, h3, ?_, ?_, ?_⟩
    · rw [tickStep_orientation, ho]
    · rw [natTick_fst, natTick_snd]; exact min_le_left _ _
    · rw [natTick_fst]; dsimp only; omega
  | other => cases hu; exact h

theorem conservedInv_run (m : Model) (l : List Msg) (m' : Model) (h : ConservedInv m)
    (hr : run m l = some m') : ConservedInv m' :=
  run_invariant ConservedInv conservedInv_Update m l m' h hr

/-- C20: every run of events from `initialModel` returns a state in which
`velocity[0] + fuel = 50` and `velocity[1] = velocity[2] = 0`; hence the speed shown,
`Magnitude(velocity)`, equals `50 - fuel` and is at most 50, and a tick never increases
the fuel. -/
theorem conservation (events : List Msg) :
    ∃ m, run initialModel events = some m ∧
      m.sensors.velocity.c0 + m.sensors.fuel = 50 ∧
      m.sensors.velocity.c1 = 0 ∧
      m.sensors.velocity.c2 = 0 ∧
      Magnitude m.sensors.velocity = 50 - m.sensors.fuel ∧
      Magnitude m.sensors.velocity ≤ 50 ∧
      ∃ m', Update m .tick = some (m', Cmd.tick) ∧ m'.sensors.fuel ≤ m.sensors.fuel := by
  obtain ⟨m, hr, -⟩ := run_returns initialModel events initialModel_alloc
  obtain ⟨f, d, v, hf, hd, hv, ho, hdf, hsum⟩ :=
    conservedInv_run _ events m conservedInv_initial hr
  have hsumq : (v : ℚ) + f = 50 := by exact_mod_cast hsum
  have hmag : Magnitude m.sensors.velocity = v := by
    have h := Magnitude_axis v 0 (by nlinarith) (by norm_num)
    rw [hv]
    simpa using h
  obtain ⟨h1, -⟩ := tickStep_nat m f d hf hd hdf (by omega)
  refine ⟨m, hr, ?_, ?_, ?_, ?_, ?_, tickStep m, rfl, ?_⟩
  · rw [hv, hf]; exact hsumq
  · rw [hv]
  · rw [hv]
  · rw [hmag, hf]; linarith
  · rw [hmag]
    have : v ≤ 50 := by omega
    exact_mod_cast this
  · rw [h1, hf, natTick_fst]
    have : f - d ≤ f := Nat.sub_le f d
    exact_mod_cast this

/-! ## The rendered frame -/

theorem foldl_append_eq (l : List String) (s : String) :
    l.foldl (fun r t => r ++ t) s = s ++ l.foldl (fun r t => r ++ t) "" := by
  induction l generalizing s with
  | nil => simp
  | cons a l ih =>
    rw [List.foldl_cons, List.foldl_cons, ih (s ++ a), ih ("" ++ a), String.empty_append,
      String.append_assoc]

theorem join_cons_eq (a : String) (l : List String) :
    String.join (a :: l) = a ++ String.join l := by
  unfold String.join
  rw [List.foldl_cons, foldl_append_eq, String.empty_append]

theorem foldl_rows_eq (m : Model) (l : List (ℕ × String)) (s : String) :
    l.foldl (fun (s : String) (ic : ℕ × String) => s ++ controlRow m ic.1 ic.2) s
      = s ++ String.join (l.map (fun ic => controlRow m ic.1 ic.2)) := by
  induction l generalizing s with
  | nil => simp [String.join]
  | cons a l ih =>
    rw [List.foldl_cons, ih, List.map_cons, join_cons_eq, String.append_assoc]

/-- The frame as three parts: the Sensors block, one of the two rocket glyphs, and the
Pilot Controls list with the footer. -/
theorem View_eq (m : Model) :
    View m = sensorsBlock m ++
      (if 0 < m.sensors.deltaV then rocketWithExhaust else rocketNoExhaust) ++
      ("\n\nPilot Controls\n\n" ++ controlRows m ++ "\nPress q to quit.\n") := by
  unfold View sensorsBlock controlRows
  dsimp only
  rw [foldl_rows_eq]
  by_cases h : 0 < m.sensors.deltaV
  · rw [if_pos h, if_pos (show m.sensors.deltaV > 0 from h)]
    simp only [String.append_assoc]
  · rw [if_neg h, if_neg (show ¬ m.sensors.deltaV > 0 from h)]
    simp only [String.append_assoc]

set_option maxRecDepth 100000 in
theorem rockets_differ : rocketWithExhaust ≠ rocketNoExhaust := by
  decide

/-- C15: the frame is the Sensors block, then one of the two rocket glyphs, then the
Pilot Controls list; the glyph is the rocket with exhaust when `deltaV > 0` and the rocket
without exhaust otherwise, and the two glyphs differ.  With `deltaV = 0` the glyph is the
one without exhaust, with `deltaV = 0.0001` the one with exhaust.  The text depends only
on choices, cursor, selected, velocity, deltaV and fuel, so equal states render the same
text.  The `topRight` of `pkg/view` makes the same choice between its two strings. -/
theorem view_glyph (m : Model) :
    View m = sensorsBlock m ++
      (if 0 < m.sensors.deltaV then rocketWithExhaust else rocketNoExhaust) ++
      ("\n\nPilot Controls\n\n" ++ controlRows m ++ "\nPress q to quit.\n") ∧
    rocketWithExhaust ≠ rocketNoExhaust ∧
    View { m with sensors := { m.sensors with deltaV := 0 } } =
      sensorsBlock { m with sensors := { m.sensors with deltaV := 0 } } ++ rocketNoExhaust ++
      ("\n\nPilot Controls\n\n" ++ controlRows m ++ "\nPress q to quit.\n") ∧
    View { m with sensors := { m.sensors with deltaV := 1 / 10000 } } =
      sensorsBlock { m with sensors := { m.sensors with deltaV := 1 / 10000 } } ++
      rocketWithExhaust ++
      ("\n\nPilot Controls\n\n" ++ controlRows m ++ "\nPress q to quit.\n") ∧
    (∀ m' : Model, m'.choices = m.choices → m'.cursor = m.cursor → m'.selected = m.selected →
      m'.sensors.velocity = m.sensors.velocity → m'.sensors.deltaV = m.sensors.deltaV →
      m'.sensors.fuel = m.sensors.fuel → View m' = View m) ∧
    (∀ (ThrusterOn ThrusterOff : String) (DeltaV : ℚ),
      viewTopRight ThrusterOn ThrusterOff DeltaV
        = if 0 < DeltaV then ThrusterOn else ThrusterOff) := by
  refine ⟨View_eq m, rockets_differ, ?_, ?_, ?_, ?_⟩
  · rw [View_eq]
    have h : ¬ (0 : ℚ) < ({ m with sensors := { m.sensors with deltaV := 0 } } : Model).sensors.deltaV :=
      lt_irrefl 0
    rw [if_neg h]
    rfl
  · rw [View_eq]
    have h : (0 : ℚ) <
        ({ m with sensors := { m.sensors with deltaV := 1 / 10000 } } : Model).sensors.deltaV := by
      show (0 : ℚ) < 1 / 10000
      norm_num
    rw [if_pos h]
    rfl
  · intro m' hch hcur hsel hv hd hf
    have hrows : controlRows m' = controlRows m := by
      unfold controlRows controlRow
      rw [hch, hcur, hsel]
    rw [View_eq, View_eq, hrows, hd]
    unfold sensorsBlock
    rw [hv, hd, hf]
  · intro tOn tOff d
    unfold viewTopRight
    dsimp only
    by_cases h : 0 < d
    · rw [if_pos h, if_pos (show d > 0 from h), String.empty_append]
    · rw [if_neg h, if_neg (show ¬ d > 0 from h), String.empty_append]

/-- C16: for a model with the fixed five choices, the text after the glyph is
"Pilot Controls", then one row per choice in list order, then the footer
"Press q to quit."; a row is `<c> [<k>] <name>` where `<c>` is ">" exactly when the index
of the row equals the cursor (a space otherwise) and `<k>` is "x" exactly when the index
is in selected (a space otherwise); with the cursor in `[0, 4]` exactly one of the five
rows carries ">". -/
theorem view_controls (m : Model) (hch : m.choices = initialModel.choices) :
    View m = sensorsBlock m ++
      (if 0 < m.sensors.deltaV then rocketWithExhaust else rocketNoExhaust) ++
      ("\n\nPilot Controls\n\n" ++
        (controlRow m 0 "MainThrusters" ++ (controlRow m 1 "LeftThrusters" ++
          (controlRow m 2 "RightThrusters" ++ (controlRow m 3 "TopThrusters" ++
            controlRow m 4 "BotThrusters")))) ++ "\nPress q to quit.\n") ∧
    (∀ (i : ℕ) (name : String), controlRow m i name =
      (if m.cursor = (i : Int) then ">" else " ") ++ " [" ++
        (if (i : Int) ∈ m.selected then "x" else " ") ++ "] " ++ name ++ "\n") ∧
    (∀ i : ℕ, ((if m.cursor = (i : Int) then ">" else " ") = ">" ↔ m.cursor = (i : Int)) ∧
      ((if (i : Int) ∈ m.selected then "x" else " ") = "x" ↔ (i : Int) ∈ m.selected)) ∧
    (0 ≤ m.cursor → m.cursor ≤ 4 →
      ((Finset.range 5).filter (fun i : ℕ => m.cursor = (i : Int))).card = 1) := by
  refine ⟨?_, fun i name => rfl, ?_, ?_⟩
  · rw [View_eq]
    have hrows : controlRows m = controlRow m 0 "MainThrusters" ++
        (controlRow m 1 "LeftThrusters" ++ (controlRow m 2 "RightThrusters" ++
          (controlRow m 3 "TopThrusters" ++ controlRow m 4 "BotThrusters"))) := by
      unfold controlRows
      rw [hch]
      show String.join [controlRow m 0 "MainThrusters", controlRow m 1 "LeftThrusters",
        controlRow m 2 "RightThrusters", controlRow m 3 "TopThrusters",
        controlRow m 4 "BotThrusters"] = _
      rw [join_cons_eq, join_cons_eq, join_cons_eq, join_cons_eq, join_cons_eq]
      simp [String.join]
    rw [hrows]
  · intro i
    constructor
    · by_cases h : m.cursor = (i : Int)
      · simp [h]
      · simp only [if_neg h, h, iff_false]
        decide
    · by_cases h : (i : Int) ∈ m.selected
      · simp [h]
      · simp only [if_neg h, h, iff_false]
        decide
  · intro h0 h4
    obtain ⟨c, hc⟩ : ∃ c : ℕ, m.cursor = c := ⟨m.cursor.toNat, by omega⟩
    have hc5 : c < 5 := by omega
    have hset : (Finset.range 5).filter (fun i : ℕ => m.cursor = (i : Int)) = {c} := by
      ext i
      simp only [Finset.mem_filter, Finset.mem_range, Finset.mem_singleton, hc]
      constructor
      · rintro ⟨-, h⟩; exact_mod_cast h.symm
      · rintro rfl; exact ⟨hc5, rfl⟩
    rw [hset, Finset.card_singleton]

theorem view_controls_witness :
    View initialModel = sensorsBlock initialModel ++ rocketNoExhaust ++
      ("\n\nPilot Controls\n\n" ++
        ("> [ ] MainThrusters\n" ++ ("  [ ] LeftThrusters\n" ++ ("  [ ] RightThrusters\n" ++
          ("  [ ] TopThrusters\n" ++ "  [ ] BotThrusters\n")))) ++ "\nPress q to quit.\n") := by
  have h := (view_controls initialModel rfl).1
  rw [h]
  rfl

theorem view_glyph_witness :
    View { thrustersOn with frameOfReference := 7 } = View thrustersOn :=
  (view_glyph thrustersOn).2.2.2.2.1 { thrustersOn with frameOfReference := 7 }
    rfl rfl rfl rfl rfl rfl

/-! ## Magnitude: sign and zeros -/

/-- Evaluation of `f64sqrt` when the root is rounded up: with `t = q / 4^k` in
`[2^104, 2^106)`, `s = ⌊√t⌋` and `t` above `(s + 1/2)^2`, the result is `(s + 1) * 2^k`. -/
theorem f64sqrt_eval_up (q : ℚ) (k : ℤ) (s : ℕ) (h1 : 2 ^ 104 ≤ q / 2 ^ (2 * k))
    (h2 : q / 2 ^ (2 * k) < 2 ^ 106) (h3 : (s : ℚ) * s ≤ q / 2 ^ (2 * k))
    (h4 : q / 2 ^ (2 * k) < ((s : ℚ) + 1) * (s + 1))
    (h5 : (s : ℚ) * s + s + 1 / 4 < q / 2 ^ (2 * k)) :
    f64sqrt q = ((s : ℚ) + 1) * 2 ^ k := by
  have hpow : (0 : ℚ) < 2 ^ (2 * k) := by positivity
  have ht : (0 : ℚ) < q / 2 ^ (2 * k) := lt_of_lt_of_le (by positivity) h1
  have hq : 0 < q := (div_pos_iff_of_pos_right hpow).mp ht
  have hlo : ((2 : ℕ) : ℚ) ^ (2 * k + 104) ≤ q := by
    rw [zpow_add₀ (by norm_num)]
    have := (le_div_iff₀ hpow).mp h1
    push_cast
    calc (2 : ℚ) ^ (2 * k) * 2 ^ (104 : ℤ) = 2 ^ 104 * 2 ^ (2 * k) := by rw [mul_comm]; norm_num
      _ ≤ q := this
  have hhi : q < ((2 : ℕ) : ℚ) ^ (2 * k + 106) := by
    rw [zpow_add₀ (by norm_num)]
    have := (div_lt_iff₀ hpow).mp h2
    push_cast
    calc q < 2 ^ 106 * 2 ^ (2 * k) := this
      _ = (2 : ℚ) ^ (2 * k) * 2 ^ (106 : ℤ) := by rw [mul_comm]; norm_num
  have hk : Int.log 2 q / 2 - 52 = k := by
    have a1 := (Int.zpow_le_iff_le_log (by norm_num) hq).mp hlo
    have a2 := (Int.lt_zpow_iff_log_lt (by norm_num) hq).mp hhi
    omega
  have hsqrt : Nat.sqrt ⌊q / 2 ^ (2 * k)⌋₊ = s := by
    symm
    rw [Nat.eq_sqrt]
    constructor
    · rw [Nat.le_floor_iff ht.le]; push_cast; exact h3
    · rw [Nat.floor_lt ht.le]; push_cast; exact h4
  unfold f64sqrt
  rw [if_neg (not_le.mpr hq)]
  simp only [hk, hsqrt, Int.cast_natCast]
  rw [if_neg (not_lt.mpr h5.le), if_pos h5]
  push_cast
  rfl

theorem roundHalfEven_nonneg (s : ℚ) (hs : 0 ≤ s) : 0 ≤ roundHalfEven s := by
  have hf : 0 ≤ ⌊s⌋ := Int.floor_nonneg.mpr hs
  unfold roundHalfEven
  split_ifs <;> omega

theorem roundHalfEven_eq_zero (s : ℚ) (h : roundHalfEven s = 0) : |s| ≤ 1 / 2 := by
  have h1 : (⌊s⌋ : ℚ) ≤ s := Int.floor_le s
  have h2 : s < ⌊s⌋ + 1 := Int.lt_floor_add_one s
  unfold roundHalfEven at h
  rw [abs_le]
  split_ifs at h with c1 c2 c3
  · rw [h] at c1 h1; push_cast at c1 h1; constructor <;> linarith
  · have hf : ⌊s⌋ = -1 := by omega
    rw [hf] at c2 h2; push_cast at c2 h2; constructor <;> linarith
  · rw [h] at c1 c2 h1; push_cast at c1 c2 h1; constructor <;> linarith
  · have hf : ⌊s⌋ = -1 := by omega
    rw [hf] at c1 c2 h2; push_cast at c1 c2 h2; constructor <;> linarith

theorem roundAt_nonneg (e : ℤ) (q : ℚ) (hq : 0 ≤ q) : 0 ≤ roundAt e q := by
  unfold roundAt
  have h : (0 : ℚ) ≤ q / 2 ^ e := div_nonneg hq (by positivity)
  have := roundHalfEven_nonneg _ h
  have h2 : (0 : ℚ) ≤ (roundHalfEven (q / 2 ^ e) : ℚ) := by exact_mod_cast this
  positivity

theorem round53_nonneg (q : ℚ) (hq : 0 ≤ q) : 0 ≤ round53 q := by
  unfold round53
  split_ifs
  · exact le_refl 0
  · exact roundAt_nonneg _ q hq

theorem roundF64_nonneg (q : ℚ) (hq : 0 ≤ q) : 0 ≤ roundF64 q := by
  unfold roundF64
  split_ifs
  · exact le_refl 0
  · exact roundAt_nonneg _ q hq

theorem half_mul_inv_pow (n : ℕ) : (1 : ℚ) / 2 * (2 ^ n)⁻¹ = 1 / 2 ^ (n + 1) := by
  rw [pow_succ]; field_simp; ring

/-- A result below half of the smallest positive binary64 value underflows to 0. -/
theorem roundF64_underflow (q : ℚ) (hq : |q| * 2 ^ 1075 < 1) : roundF64 q = 0 := by
  unfold roundF64
  split_ifs with h0
  · rfl
  · have hpos : (0 : ℚ) < |q| := abs_pos.mpr h0
    have hlt : |q| < ((2 : ℕ) : ℚ) ^ (-1075 : ℤ) := by
      have h1 : ((2 : ℕ) : ℚ) ^ (-1075 : ℤ) = 1 / 2 ^ 1075 := by
        rw [zpow_neg, zpow_ofNat, one_div, Nat.cast_ofNat]
      rw [h1, lt_div_iff₀ (by positivity)]
      exact hq
    have hlog : Int.log 2 |q| < -1075 := (Int.lt_zpow_iff_log_lt (by norm_num) hpos).mp hlt
    rw [max_eq_right (by omega)]
    unfold roundAt
    have hnear : |q / 2 ^ (-1074 : ℤ) - ((0 : ℤ) : ℚ)| < 1 / 2 := by
      rw [Int.cast_zero, sub_zero, abs_div, abs_of_pos (by positivity : (0 : ℚ) < 2 ^ (-1074 : ℤ)),
        div_lt_iff₀ (by positivity)]
      have h2 : (1 : ℚ) / 2 * 2 ^ (-1074 : ℤ) = 1 / 2 ^ 1075 := by
        rw [zpow_neg, zpow_ofNat]
        exact half_mul_inv_pow 1074
      rw [h2, lt_div_iff₀ (by positivity)]
      exact hq
    rw [roundHalfEven_of_near _ 0 hnear]
    simp

theorem roundAt_eq_zero (e : ℤ) (q : ℚ) (h : roundAt e q = 0) : |q| ≤ 2 ^ e / 2 := by
  unfold roundAt at h
  have hpow : (0 : ℚ) < 2 ^ e := by positivity
  have hz : roundHalfEven (q / 2 ^ e) = 0 := by
    rcases mul_eq_zero.mp h with h1 | h1
    · exact_mod_cast h1
    · exact absurd h1 hpow.ne'
  have hle := roundHalfEven_eq_zero _ hz
  rw [abs_div, abs_of_pos hpow, div_le_iff₀ hpow] at hle
  linarith

/-- A non-negative value that rounds to 0 is at most half of the smallest positive
binary64 value. -/
theorem roundF64_eq_zero (q : ℚ) (hq : 0 ≤ q) (h : roundF64 q = 0) : q * 2 ^ 1075 ≤ 1 := by
  rcases eq_or_lt_of_le hq with h0 | hpos
  · rw [← h0]; norm_num
  unfold roundF64 at h
  rw [if_neg hpos.ne', abs_of_pos hpos] at h
  have hle := roundAt_eq_zero _ q h
  rw [abs_of_pos hpos] at hle
  have hlog : ((2 : ℕ) : ℚ) ^ Int.log 2 q ≤ q := Int.zpow_log_le_self (by norm_num) hpos
  rw [Nat.cast_ofNat] at hlog
  rcases le_total (Int.log 2 q - 52) (-1074) with hc | hc
  · rw [max_eq_right hc, zpow_neg, zpow_ofNat] at hle
    have h2 : (2 : ℚ) ^ 1075 = 2 ^ 1074 * 2 := pow_succ 2 1074
    have hp : (0 : ℚ) < 2 ^ 1074 := by positivity
    rw [h2]
    have h3 : q * (2 ^ 1074 * 2) ≤ (2 ^ 1074)⁻¹ / 2 * (2 ^ 1074 * 2) :=
      mul_le_mul_of_nonneg_right hle (by positivity)
    have h4 : ((2 : ℚ) ^ 1074)⁻¹ / 2 * (2 ^ 1074 * 2) = 1 := by field_simp
    linarith
  · rw [max_eq_left hc, zpow_sub₀ (by norm_num)] at hle
    have h52 : (1 : ℚ) < 2 ^ (52 : ℤ) * 2 := by norm_num
    have hL : (0 : ℚ) < 2 ^ Int.log 2 q := by positivity
    have h5 : (2 : ℚ) ^ Int.log 2 q / 2 ^ (52 : ℤ) / 2 < 2 ^ Int.log 2 q := by
      rw [div_div, div_lt_iff₀ (by positivity)]
      nlinarith
    linarith

/-- A rounded non-negative value is 0 or at least the smallest positive binary64 value. -/
theorem roundF64_quantum (q : ℚ) (hq : 0 ≤ q) :
    roundF64 q = 0 ∨ 1 ≤ roundF64 q * 2 ^ 1074 := by
  unfold roundF64
  split_ifs with h0
  · exact Or.inl rfl
  · have hE : -1074 ≤ max (Int.log 2 |q| - 52) (-1074) := le_max_right _ _
    generalize max (Int.log 2 |q| - 52) (-1074) = E at hE
    unfold roundAt
    have hz := roundHalfEven_nonneg (q / 2 ^ E) (div_nonneg hq (by positivity))
    rcases eq_or_lt_of_le hz with hz0 | hzpos
    · left; rw [← hz0]; simp
    · right
      have h1 : (1 : ℚ) ≤ (roundHalfEven (q / 2 ^ E) : ℚ) := by exact_mod_cast hzpos
      have h2 : (1 : ℚ) ≤ 2 ^ E * 2 ^ 1074 := by
        have : (2 : ℚ) ^ E * 2 ^ 1074 = 2 ^ (E + 1074) := by
          rw [zpow_add₀ (by norm_num), zpow_ofNat]
        rw [this]
        exact one_le_zpow₀ (by norm_num) (by omega)
      calc (1 : ℚ) = 1 * 1 := by ring
        _ ≤ (roundHalfEven (q / 2 ^ E) : ℚ) * (2 ^ E * 2 ^ 1074) :=
          mul_le_mul h1 h2 (by norm_num) (by linarith)
        _ = (roundHalfEven (q / 2 ^ E) : ℚ) * 2 ^ E * 2 ^ 1074 := by ring

theorem f64sqrt_nonneg (q : ℚ) : 0 ≤ f64sqrt q := by
  unfold f64sqrt
  split_ifs with h
  · exact le_refl 0
  · dsimp only
    have hs : (0 : ℤ) ≤ (Nat.sqrt ⌊q / 2 ^ (2 * (Int.log 2 q / 2 - 52))⌋₊ : ℤ) :=
      Int.natCast_nonneg _
    have hpow : (0 : ℚ) < 2 ^ (Int.log 2 q / 2 - 52) := by positivity
    refine mul_nonneg ?_ hpow.le
    split_ifs <;> exact_mod_cast (by omega)

/-- The square root of a positive value is positive. -/
theorem f64sqrt_pos (q : ℚ) (hq : 0 < q) : 0 < f64sqrt q := by
  have hlog : ((2 : ℕ) : ℚ) ^ Int.log 2 q ≤ q := Int.zpow_log_le_self (by norm_num) hq
  rw [Nat.cast_ofNat] at hlog
  have hk : 2 * (Int.log 2 q / 2 - 52) ≤ Int.log 2 q := by omega
  have hpow : (0 : ℚ) < 2 ^ (2 * (Int.log 2 q / 2 - 52)) := by positivity
  have ht : (1 : ℚ) ≤ q / 2 ^ (2 * (Int.log 2 q / 2 - 52)) := by
    rw [le_div_iff₀ hpow, one_mul]
    exact le_trans (zpow_le_zpow_right₀ (by norm_num) hk) hlog
  have hfl : 1 ≤ ⌊q / 2 ^ (2 * (Int.log 2 q / 2 - 52))⌋₊ := by
    rw [Nat.le_floor_iff (by linarith)]; exact_mod_cast ht
  have hs : 1 ≤ Nat.sqrt ⌊q / 2 ^ (2 * (Int.log 2 q / 2 - 52))⌋₊ := by
    rw [Nat.le_sqrt]; exact hfl
  have hsz : (1 : ℤ) ≤ (Nat.sqrt ⌊q / 2 ^ (2 * (Int.log 2 q / 2 - 52))⌋₊ : ℤ) := by
    exact_mod_cast hs
  unfold f64sqrt
  rw [if_neg (not_le.mpr hq)]
  dsimp only
  have hpow2 : (0 : ℚ) < 2 ^ (Int.log 2 q / 2 - 52) := by positivity
  refine mul_pos ?_ hpow2
  split_ifs <;> exact_mod_cast (by omega)

theorem f64sqrt_eq_zero_iff (q : ℚ) (hq : 0 ≤ q) : f64sqrt q = 0 ↔ q = 0 := by
  constructor
  · intro h
    rcases eq_or_lt_of_le hq with h0 | hpos
    · exact h0.symm
    · exact absurd h (f64sqrt_pos q hpos).ne'
  · rintro rfl
    simp [f64sqrt]

theorem f64pow2_nonneg (x : ℚ) : 0 ≤ f64pow2 x :=
  roundF64_nonneg _ (round53_nonneg _ (mul_self_nonneg x))

theorem f64add_eq_zero (a b : ℚ) (ha : 0 ≤ a) (hb : 0 ≤ b)
    (hqa : a = 0 ∨ 1 ≤ a * 2 ^ 1074) (hqb : b = 0 ∨ 1 ≤ b * 2 ^ 1074)
    (h : f64add a b = 0) : a = 0 ∧ b = 0 := by
  have hle := roundF64_eq_zero (a + b) (add_nonneg ha hb) h
  have h2 : (2 : ℚ) ^ 1075 = 2 ^ 1074 * 2 := pow_succ 2 1074
  have hp : (0 : ℚ) < 2 ^ 1074 := by positivity
  rw [h2] at hle
  have ha2 : 0 ≤ a * 2 ^ 1074 := mul_nonneg ha hp.le
  have hb2 : 0 ≤ b * 2 ^ 1074 := mul_nonneg hb hp.le
  have hsum : (a + b) * (2 ^ 1074 * 2) = 2 * (a * 2 ^ 1074) + 2 * (b * 2 ^ 1074) := by ring
  rw [hsum] at hle
  constructor
  · rcases hqa with h0 | h1
    · exact h0
    · linarith
  · rcases hqb with h0 | h1
    · exact h0
    · linarith

theorem roundHalfEven_ge (s : ℚ) (n : ℤ) (h : (n : ℚ) ≤ s) : n ≤ roundHalfEven s := by
  have hf : n ≤ ⌊s⌋ := Int.le_floor.mpr h
  unfold roundHalfEven
  split_ifs <;> omega

/-- The 53-bit rounding of a positive value is not below the power of two under it. -/
theorem round53_ge (q : ℚ) (e : ℤ) (h : (2 : ℚ) ^ e ≤ q) : (2 : ℚ) ^ e ≤ round53 q := by
  have hq : 0 < q := lt_of_lt_of_le (by positivity) h
  have hL : e ≤ Int.log 2 q := by
    apply (Int.zpow_le_iff_le_log (by norm_num) hq).mp
    rw [Nat.cast_ofNat]; exact h
  have hlog : ((2 : ℕ) : ℚ) ^ Int.log 2 q ≤ q := Int.zpow_log_le_self (by norm_num) hq
  rw [Nat.cast_ofNat] at hlog
  unfold round53
  rw [if_neg hq.ne', abs_of_pos hq]
  unfold roundAt
  have hpow : (0 : ℚ) < 2 ^ (Int.log 2 q - 52) := by positivity
  have hs' : (2 : ℚ) ^ 52 ≤ q / 2 ^ (Int.log 2 q - 52) := by
    rw [le_div_iff₀ hpow, zpow_sub₀ (by norm_num)]
    have : (2 : ℚ) ^ 52 * (2 ^ Int.log 2 q / 2 ^ (52 : ℤ)) = 2 ^ Int.log 2 q := by
      rw [zpow_ofNat]; field_simp
    rw [this]; exact hlog
  have hs : (((2 : ℤ) ^ 52 : ℤ) : ℚ) ≤ q / 2 ^ (Int.log 2 q - 52) := by
    rw [Int.cast_pow, Int.cast_ofNat]; exact hs'
  have hz : ((2 : ℤ) ^ 52 : ℤ) ≤ roundHalfEven (q / 2 ^ (Int.log 2 q - 52)) :=
    roundHalfEven_ge _ _ hs
  have hzq : (2 : ℚ) ^ 52 ≤ (roundHalfEven (q / 2 ^ (Int.log 2 q - 52)) : ℚ) := by
    have h1 : (((2 : ℤ) ^ 52 : ℤ) : ℚ) ≤ (roundHalfEven (q / 2 ^ (Int.log 2 q - 52)) : ℚ) :=
      Int.cast_le.mpr hz
    rw [Int.cast_pow, Int.cast_ofNat] at h1
    exact h1
  calc (2 : ℚ) ^ e ≤ 2 ^ Int.log 2 q := zpow_le_zpow_right₀ (by norm_num) hL
    _ = 2 ^ 52 * 2 ^ (Int.log 2 q - 52) := by
      rw [zpow_sub₀ (by norm_num), zpow_ofNat]; field_simp
    _ ≤ (roundHalfEven (q / 2 ^ (Int.log 2 q - 52)) : ℚ) * 2 ^ (Int.log 2 q - 52) :=
      mul_le_mul_of_nonneg_right hzq hpow.le

theorem inv_pow_mul_pow_succ (n : ℕ) : ((2 : ℚ) ^ n)⁻¹ * 2 ^ (n + 1) = 2 := by
  rw [pow_succ]; field_simp

/-- The square of a value of magnitude at least `2^-537` does not underflow to 0. -/
theorem f64pow2_ne_zero (x : ℚ) (hx : (2 : ℚ) ^ (-537 : ℤ) ≤ |x|) : f64pow2 x ≠ 0 := by
  have hsq : (2 : ℚ) ^ (-1074 : ℤ) ≤ x * x := by
    have h1 : (2 : ℚ) ^ (-1074 : ℤ) = 2 ^ (-537 : ℤ) * 2 ^ (-537 : ℤ) := by
      rw [← zpow_add₀ (by norm_num)]; norm_num
    have h2 : x * x = |x| * |x| := (abs_mul_abs_self x).symm
    have h0 : (0 : ℚ) ≤ 2 ^ (-537 : ℤ) := by positivity
    rw [h1, h2]
    exact mul_le_mul hx hx h0 (abs_nonneg x)
  have h53 := round53_ge (x * x) (-1074) hsq
  intro h
  unfold f64pow2 at h
  have hle := roundF64_eq_zero _ (round53_nonneg _ (mul_self_nonneg x)) h
  have hp : (0 : ℚ) < 2 ^ 1075 := by positivity
  have h3 : (2 : ℚ) ^ (-1074 : ℤ) * 2 ^ 1075 = 2 := by
    rw [zpow_neg, zpow_ofNat]
    exact inv_pow_mul_pow_succ 1074
  have h4 : (2 : ℚ) ^ (-1074 : ℤ) * 2 ^ 1075 ≤ round53 (x * x) * 2 ^ 1075 :=
    mul_le_mul_of_nonneg_right h53 hp.le
  linarith

theorem Magnitude_eq_zero_iff (v : Vector3) :
    Magnitude v = 0 ↔ f64pow2 v.c0 = 0 ∧ f64pow2 v.c1 = 0 ∧ f64pow2 v.c2 = 0 := by
  have q0 := roundF64_quantum _ (round53_nonneg _ (mul_self_nonneg v.c0))
  have q1 := roundF64_quantum _ (round53_nonneg _ (mul_self_nonneg v.c1))
  have q2 := roundF64_quantum _ (round53_nonneg _ (mul_self_nonneg v.c2))
  have n0 := f64pow2_nonneg v.c0
  have n1 := f64pow2_nonneg v.c1
  have n2 := f64pow2_nonneg v.c2
  have hsum : 0 ≤ f64pow2 v.c0 + f64pow2 v.c1 := add_nonneg n0 n1
  have nA : 0 ≤ f64add (f64pow2 v.c0) (f64pow2 v.c1) := roundF64_nonneg _ hsum
  have qA := roundF64_quantum _ hsum
  have nS : 0 ≤ f64add (f64add (f64pow2 v.c0) (f64pow2 v.c1)) (f64pow2 v.c2) :=
    roundF64_nonneg _ (add_nonneg nA n2)
  unfold Magnitude
  rw [f64sqrt_eq_zero_iff _ nS]
  constructor
  · intro h
    obtain ⟨hA, h2⟩ := f64add_eq_zero _ _ nA n2 qA q2 h
    obtain ⟨h0, h1⟩ := f64add_eq_zero _ _ n0 n1 q0 q1 hA
    exact ⟨h0, h1, h2⟩
  · rintro ⟨h0, h1, h2⟩
    rw [h0, h1, h2]
    simp [f64add, roundF64_zero]

/-- The value `2^-600` is a float64 value. -/
theorem roundF64_tiny : roundF64 (2 ^ (-600 : ℤ)) = 2 ^ (-600 : ℤ) := by
  have h := roundF64_repr 1 (-600) (by norm_num) (by norm_num)
  simpa using h

/-- The square of `2^-600` underflows to 0, and so does the magnitude. -/
theorem Magnitude_tiny : Magnitude ⟨2 ^ (-600 : ℤ), 0, 0⟩ = 0 := by
  rw [Magnitude_eq_zero_iff]
  refine ⟨?_, f64pow2_zero, f64pow2_zero⟩
  have hsq : (2 : ℚ) ^ (-600 : ℤ) * 2 ^ (-600 : ℤ) = ((1 : ℤ) : ℚ) * 2 ^ (-1200 : ℤ) := by
    rw [← zpow_add₀ (by norm_num)]; norm_num
  unfold f64pow2
  rw [hsq, round53_repr 1 (-1200) (by norm_num)]
  apply roundF64_underflow
  have hpos : (0 : ℚ) < ((1 : ℤ) : ℚ) * 2 ^ (-1200 : ℤ) := by positivity
  rw [abs_of_pos hpos, Int.cast_one, one_mul, ← zpow_ofNat, ← zpow_add₀ (by norm_num)]
  norm_num

/-- C17, as stated, fails: the vector `(2^-600, 0, 0)` is not the zero vector, its
component is a binary64 value, and its magnitude is 0, because the square `2^-1200`
underflows to 0. -/
theorem tiny_vector_has_zero_magnitude :
    roundF64 (2 ^ (-600 : ℤ)) = 2 ^ (-600 : ℤ) ∧
    (⟨2 ^ (-600 : ℤ), 0, 0⟩ : Vector3) ≠ ⟨0, 0, 0⟩ ∧
    Magnitude ⟨2 ^ (-600 : ℤ), 0, 0⟩ = 0 := by
  refine ⟨roundF64_tiny, ?_, Magnitude_tiny⟩
  intro h
  have h0 := congrArg Vector3.c0 h
  have hpos : (0 : ℚ) < 2 ^ (-600 : ℤ) := by positivity
  exact hpos.ne' h0

/-- C17, amended: for every vector `v`, `Magnitude(v)` is the float64 evaluation of
`Sqrt(Pow(v[0],2) + Pow(v[1],2) + Pow(v[2],2))`, it is `≥ 0`, and it is 0 exactly when the
three squares `Pow(v[i],2)` are 0: so for the zero vector, and never for a vector with a
component of magnitude `2^-537` or more; the copy in `pkg/maths` is the same function. -/
theorem magnitude_sign_and_zero (v : Vector3) :
    Magnitude v
      = f64sqrt (f64add (f64add (f64pow2 v.c0) (f64pow2 v.c1)) (f64pow2 v.c2)) ∧
    0 ≤ Magnitude v ∧
    Magnitude ⟨0, 0, 0⟩ = 0 ∧
    (Magnitude v = 0 ↔ f64pow2 v.c0 = 0 ∧ f64pow2 v.c1 = 0 ∧ f64pow2 v.c2 = 0) ∧
    ((2 : ℚ) ^ (-537 : ℤ) ≤ |v.c0| ∨ (2 : ℚ) ^ (-537 : ℤ) ≤ |v.c1| ∨
      (2 : ℚ) ^ (-537 : ℤ) ≤ |v.c2| → Magnitude v ≠ 0) ∧
    Maths.Magnitude v = Magnitude v := by
  refine ⟨rfl, f64sqrt_nonneg _, ?_, Magnitude_eq_zero_iff v, ?_, rfl⟩
  · rw [Magnitude_eq_zero_iff]
    exact ⟨f64pow2_zero, f64pow2_zero, f64pow2_zero⟩
  · intro h hz
    obtain ⟨h0, h1, h2⟩ := (Magnitude_eq_zero_iff v).mp hz
    rcases h with h | h | h
    · exact f64pow2_ne_zero _ h h0
    · exact f64pow2_ne_zero _ h h1
    · exact f64pow2_ne_zero _ h h2

theorem magnitude_sign_and_zero_witness : Magnitude ⟨3, 4, 0⟩ ≠ 0 :=
  (magnitude_sign_and_zero ⟨3, 4, 0⟩).2.2.2.2.1
    (Or.inl (by
      show (2 : ℚ) ^ (-537 : ℤ) ≤ |(3 : ℚ)|
      have h1 : (2 : ℚ) ^ (-537 : ℤ) ≤ 1 := by
        rw [zpow_neg]
        exact inv_le_one_of_one_le₀ (one_le_zpow₀ (by norm_num) (by norm_num))
      have h3 : |(3 : ℚ)| = 3 := abs_of_pos (by norm_num)
      rw [h3]; linarith))

/-! ## The magnitude of an axis vector, and velocity accumulation -/

theorem roundHalfEven_le (s : ℚ) (n : ℤ) (h : s ≤ (n : ℚ)) : roundHalfEven s ≤ n := by
  rcases eq_or_lt_of_le h with h1 | h1
  · rw [h1, roundHalfEven_intCast]
  · have hf : ⌊s⌋ < n := Int.floor_lt.mpr h1
    unfold roundHalfEven
    split_ifs <;> omega

/-- Rounding to the nearest integer moves a value by at most one half. -/
theorem roundHalfEven_abs_sub_le (s : ℚ) : |(roundHalfEven s : ℚ) - s| ≤ 1 / 2 := by
  have h1 : (⌊s⌋ : ℚ) ≤ s := Int.floor_le s
  have h2 : s < ⌊s⌋ + 1 := Int.lt_floor_add_one s
  unfold roundHalfEven
  rw [abs_le]
  split_ifs with c1 c2 c3 <;> push_cast <;> constructor <;> linarith

/-- As `roundF64_repr`, with the significand `2^53` allowed: it is `2^52 * 2`. -/
theorem roundF64_repr_le (m e : ℤ) (hm : |m| ≤ 2 ^ 53) (he : -1074 ≤ e) :
    roundF64 ((m : ℚ) * 2 ^ e) = (m : ℚ) * 2 ^ e := by
  rcases lt_or_eq_of_le hm with h | h
  · exact roundF64_repr m e h he
  · have key : ∀ c : ℤ, |c| < 2 ^ 53 → m = 2 * c →
        roundF64 ((m : ℚ) * 2 ^ e) = (m : ℚ) * 2 ^ e := by
      intro c hc hmc
      have h2 : (m : ℚ) * 2 ^ e = (c : ℚ) * 2 ^ (e + 1) := by
        rw [zpow_add₀ (by norm_num), zpow_one, hmc]
        push_cast; ring
      rw [h2]
      exact roundF64_repr c (e + 1) hc (by omega)
    rcases (abs_eq (by norm_num : (0 : ℤ) ≤ 2 ^ 53)).mp h with h' | h'
    · exact key (2 ^ 52) (by norm_num) (by rw [h']; norm_num)
    · exact key (-2 ^ 52) (by norm_num) (by rw [h']; norm_num)

/-- The two roundings of `f64pow2` on a value in the normal range: the 53-bit rounding
gives a significand `R` within one half of the scaled value, and the second rounding
changes nothing. -/
theorem roundF64_round53_scaled (q : ℚ) (e : ℤ) (h1 : 2 ^ 52 ≤ q / 2 ^ e)
    (h2 : q / 2 ^ e < 2 ^ 53) (he : -1074 ≤ e) :
    ∃ R : ℤ, round53 q = (R : ℚ) * 2 ^ e ∧ roundF64 (round53 q) = (R : ℚ) * 2 ^ e ∧
      (2 : ℚ) ^ 52 ≤ R ∧ (R : ℚ) ≤ 2 ^ 53 ∧ |(R : ℚ) - q / 2 ^ e| ≤ 1 / 2 := by
  have hlo : (2 : ℤ) ^ 52 ≤ roundHalfEven (q / 2 ^ e) :=
    roundHalfEven_ge _ _ (by rw [Int.cast_pow, Int.cast_ofNat]; exact h1)
  have hhi : roundHalfEven (q / 2 ^ e) ≤ (2 : ℤ) ^ 53 :=
    roundHalfEven_le _ _ (by rw [Int.cast_pow, Int.cast_ofNat]; exact h2.le)
  have hloq : (2 : ℚ) ^ 52 ≤ (roundHalfEven (q / 2 ^ e) : ℚ) := by
    have h := Int.cast_le (R := ℚ) |>.mpr hlo
    rw [Int.cast_pow, Int.cast_ofNat] at h
    exact h
  have hhiq : (roundHalfEven (q / 2 ^ e) : ℚ) ≤ 2 ^ 53 := by
    have h := Int.cast_le (R := ℚ) |>.mpr hhi
    rw [Int.cast_pow, Int.cast_ofNat] at h
    exact h
  have habs : |roundHalfEven (q / 2 ^ e)| ≤ 2 ^ 53 := by
    rw [abs_of_nonneg (le_trans (by norm_num) hlo)]
    exact hhi
  refine ⟨roundHalfEven (q / 2 ^ e), round53_of_scaled q e h1 h2, ?_, hloq, hhiq,
    roundHalfEven_abs_sub_le _⟩
  rw [round53_of_scaled q e h1 h2]
  exact roundF64_repr_le _ e habs he

/-- The float64 square of a value with a normalised significand `N0` (53 bits), in the
range where the square is a normal number: it is `t * 4^k` with `t` within `N0 - 1/2` of
`N0^2`. -/
theorem f64pow2_normalized (N0 : ℕ) (k : ℤ) (h52 : 2 ^ 52 ≤ N0) (h53 : N0 < 2 ^ 53)
    (hk : -563 ≤ k) :
    ∃ t : ℚ, f64pow2 ((N0 : ℚ) * 2 ^ k) = t * 2 ^ (2 * k) ∧
      roundF64 (t * 2 ^ (2 * k)) = t * 2 ^ (2 * k) ∧
      |t - (N0 : ℚ) * N0| ≤ (N0 : ℚ) - 1 / 2 ∧ 2 ^ 104 ≤ t ∧ t < 2 ^ 106 := by
  have h52q : (2 : ℚ) ^ 52 ≤ (N0 : ℚ) := by exact_mod_cast h52
  have h53q : (N0 : ℚ) ≤ 2 ^ 53 - 1 := by
    have : N0 + 1 ≤ 2 ^ 53 := h53
    have h : ((N0 + 1 : ℕ) : ℚ) ≤ 2 ^ 53 := by exact_mod_cast this
    push_cast at h
    linarith
  have hpk : (0 : ℚ) < 2 ^ (2 * k) := by positivity
  have hq : (N0 : ℚ) * 2 ^ k * ((N0 : ℚ) * 2 ^ k) = (N0 : ℚ) * N0 * 2 ^ (2 * k) := by
    rw [two_mul, zpow_add₀ (by norm_num)]; ring
  have hsq_lo : (2 : ℚ) ^ 104 ≤ (N0 : ℚ) * N0 := by nlinarith
  have hsq_hi : (N0 : ℚ) * N0 ≤ 2 ^ 106 - 2 ^ 54 + 1 := by nlinarith
  -- the scale `c` is 52 or 53 according to the size of `N0^2`
  have main : ∀ c : ℕ, (c = 52 ∨ c = 53) → (2 : ℚ) ^ (c + 52) ≤ (N0 : ℚ) * N0 →
      (N0 : ℚ) * N0 < 2 ^ (c + 53) → (2 : ℚ) ^ c / 2 ≤ (N0 : ℚ) - 1 / 2 →
      ∃ t : ℚ, f64pow2 ((N0 : ℚ) * 2 ^ k) = t * 2 ^ (2 * k) ∧
        roundF64 (t * 2 ^ (2 * k)) = t * 2 ^ (2 * k) ∧
        |t - (N0 : ℚ) * N0| ≤ (N0 : ℚ) - 1 / 2 ∧ 2 ^ 104 ≤ t ∧ t < 2 ^ 106 := by
    intro c hc hlo hhi hhalf
    have hpc : (0 : ℚ) < 2 ^ c := by positivity
    have hscale : (N0 : ℚ) * N0 * 2 ^ (2 * k) / 2 ^ (2 * k + (c : ℤ)) = (N0 : ℚ) * N0 / 2 ^ c := by
      rw [zpow_add₀ (by norm_num), zpow_natCast]
      field_simp
      ring
    have h1 : (2 : ℚ) ^ 52 ≤ (N0 : ℚ) * N0 * 2 ^ (2 * k) / 2 ^ (2 * k + (c : ℤ)) := by
      rw [hscale, le_div_iff₀ hpc, ← pow_add, add_comm]
      exact hlo
    have h2 : (N0 : ℚ) * N0 * 2 ^ (2 * k) / 2 ^ (2 * k + (c : ℤ)) < 2 ^ 53 := by
      rw [hscale, div_lt_iff₀ hpc, ← pow_add, add_comm]
      exact hhi
    obtain ⟨R, hR53, hRF, hRlo, hRhi, hRerr⟩ :=
      roundF64_round53_scaled _ (2 * k + (c : ℤ)) h1 h2 (by rcases hc with rfl | rfl <;> omega)
    rw [hscale] at hRerr
    have hval : (R : ℚ) * 2 ^ (2 * k + (c : ℤ)) = (R : ℚ) * 2 ^ c * 2 ^ (2 * k) := by
      rw [zpow_add₀ (by norm_num), zpow_natCast]; ring
    have herr : |(R : ℚ) * 2 ^ c - (N0 : ℚ) * N0| ≤ 2 ^ c / 2 := by
      have : (R : ℚ) * 2 ^ c - (N0 : ℚ) * N0 = ((R : ℚ) - (N0 : ℚ) * N0 / 2 ^ c) * 2 ^ c := by
        field_simp
      rw [this, abs_mul, abs_of_pos hpc]
      calc |(R : ℚ) - (N0 : ℚ) * N0 / 2 ^ c| * 2 ^ c ≤ 1 / 2 * 2 ^ c :=
            mul_le_mul_of_nonneg_right hRerr hpc.le
        _ = 2 ^ c / 2 := by ring
    refine ⟨(R : ℚ) * 2 ^ c, ?_, ?_, le_trans herr hhalf, ?_, ?_⟩
    · unfold f64pow2
      rw [hq, hRF, hval]
    · rw [← hval, ← hR53, hRF, hR53]
    · calc (2 : ℚ) ^ 104 ≤ 2 ^ 52 * 2 ^ c := by
            rcases hc with rfl | rfl <;> norm_num
        _ ≤ (R : ℚ) * 2 ^ c := mul_le_mul_of_nonneg_right hRlo hpc.le
    · have h3 := (abs_le.mp herr).2
      rcases hc with rfl | rfl
      · have : (R : ℚ) * 2 ^ 52 ≤ 2 ^ 53 * 2 ^ 52 := mul_le_mul_of_nonneg_right hRhi (by positivity)
        calc (R : ℚ) * 2 ^ 52 ≤ 2 ^ 53 * 2 ^ 52 := this
          _ < 2 ^ 106 := by norm_num
      · have : (R : ℚ) * 2 ^ 53 ≤ 2 ^ 106 - 2 ^ 54 + 1 + 2 ^ 53 / 2 := by linarith
        calc (R : ℚ) * 2 ^ 53 ≤ 2 ^ 106 - 2 ^ 54 + 1 + 2 ^ 53 / 2 := this
          _ < 2 ^ 106 := by norm_num
  rcases lt_or_le ((N0 : ℚ) * N0) (2 ^ 105) with hA | hB
  · exact main 52 (Or.inl rfl) hsq_lo hA (by linarith)
  · have hN : (2 : ℚ) ^ 52 + 1 ≤ (N0 : ℚ) := by
      have hne : N0 ≠ 2 ^ 52 := by
        intro h
        rw [h] at hB
        norm_num at hB
      have : 2 ^ 52 + 1 ≤ N0 := by omega
      exact_mod_cast this
    exact main 53 (Or.inr rfl) hB (lt_of_le_of_lt hsq_hi (by norm_num)) (by linarith)

/-- The magnitude of a vector along the first axis whose length has a normalised 53-bit
significand and a square in the normal range is that length: the square root of the
rounded square rounds back to it. -/
theorem Magnitude_axis_normalized (N0 : ℕ) (k : ℤ) (h52 : 2 ^ 52 ≤ N0) (h53 : N0 < 2 ^ 53)
    (hk : -563 ≤ k) :
    Magnitude ⟨(N0 : ℚ) * 2 ^ k, 0, 0⟩ = (N0 : ℚ) * 2 ^ k := by
  obtain ⟨t, hp, hr, herr, hlo, hhi⟩ := f64pow2_normalized N0 k h52 h53 hk
  have h52q : (2 : ℚ) ^ 52 ≤ (N0 : ℚ) := by exact_mod_cast h52
  have hdiv : t * 2 ^ (2 * k) / 2 ^ (2 * k) = t := by field_simp
  obtain ⟨e1, e2⟩ := abs_le.mp herr
  unfold Magnitude
  dsimp only
  rw [hp, f64pow2_zero]
  unfold f64add
  rw [add_zero, add_zero, hr, hr]
  rcases le_or_lt ((N0 : ℚ) * N0) t with hge | hlt
  · exact f64sqrt_eval _ k N0 (by rw [hdiv]; exact hlo) (by rw [hdiv]; exact hhi)
      (by rw [hdiv]; exact hge) (by rw [hdiv]; nlinarith) (by rw [hdiv]; linarith)
  · obtain ⟨s, hs⟩ : ∃ s : ℕ, N0 = s + 1 := ⟨N0 - 1, by omega⟩
    have hsq : (N0 : ℚ) = (s : ℚ) + 1 := by rw [hs]; push_cast; ring
    rw [hsq] at e1 e2 hlt h52q ⊢
    exact f64sqrt_eval_up _ k s (by rw [hdiv]; exact hlo) (by rw [hdiv]; exact hhi)
      (by rw [hdiv]; nlinarith) (by rw [hdiv]; exact hlt) (by rw [hdiv]; nlinarith)

/-- Every positive natural number below `2^53` has a multiple by a power of two in
`[2^52, 2^53)`. -/
theorem exists_normalized (n : ℕ) (hpos : 0 < n) (hn : n < 2 ^ 53) :
    ∃ j : ℕ, 2 ^ 52 ≤ n * 2 ^ j ∧ n * 2 ^ j < 2 ^ 53 := by
  have ha : Nat.log 2 n < 53 := Nat.log_lt_of_lt_pow hpos.ne' hn
  obtain ⟨j, hj⟩ : ∃ j : ℕ, j + Nat.log 2 n = 52 := ⟨52 - Nat.log 2 n, by omega⟩
  refine ⟨j, ?_, ?_⟩
  · calc 2 ^ 52 = 2 ^ Nat.log 2 n * 2 ^ j := by rw [← pow_add, add_comm, hj]
      _ ≤ n * 2 ^ j := Nat.mul_le_mul_right _ (Nat.pow_log_le_self 2 hpos.ne')
  · calc n * 2 ^ j < 2 ^ (Nat.log 2 n + 1) * 2 ^ j :=
          Nat.mul_lt_mul_of_pos_right (Nat.lt_pow_succ_log_self (by norm_num) n) (by positivity)
      _ = 2 ^ 53 := by rw [← pow_add]; congr 1; omega

/-- The magnitude of a vector `(x, 0, 0)` is `x` for every float64 value `x = n * 2^e`
of at least `2^-511`: the square is then a normal number, and the root of the rounded
square is `x` again. -/
theorem Magnitude_axis_normal (n : ℕ) (e : ℤ) (hn : n < 2 ^ 53)
    (hx : (2 : ℚ) ^ (-511 : ℤ) ≤ (n : ℚ) * 2 ^ e) :
    Magnitude ⟨(n : ℚ) * 2 ^ e, 0, 0⟩ = (n : ℚ) * 2 ^ e := by
  have hpos : 0 < n := by
    rcases Nat.eq_zero_or_pos n with h0 | h
    · subst h0
      have : (0 : ℚ) < 2 ^ (-511 : ℤ) := by positivity
      simp at hx
      linarith
    · exact h
  obtain ⟨j, hj1, hj2⟩ := exists_normalized n hpos hn
  have hval : (n : ℚ) * 2 ^ e = ((n * 2 ^ j : ℕ) : ℚ) * 2 ^ (e - (j : ℤ)) := by
    rw [zpow_sub₀ (by norm_num), zpow_natCast]
    push_cast
    field_simp
    ring
  have hk : -563 ≤ e - (j : ℤ) := by
    have h1 : ((n * 2 ^ j : ℕ) : ℚ) < 2 ^ (53 : ℤ) := by
      rw [zpow_ofNat]; exact_mod_cast hj2
    have h2 : (0 : ℚ) < 2 ^ (e - (j : ℤ)) := by positivity
    have h3 : (2 : ℚ) ^ (-511 : ℤ) < 2 ^ (53 + (e - (j : ℤ))) := by
      rw [zpow_add₀ (by norm_num)]
      calc (2 : ℚ) ^ (-511 : ℤ) ≤ ((n * 2 ^ j : ℕ) : ℚ) * 2 ^ (e - (j : ℤ)) := by
            rw [← hval]; exact hx
        _ < 2 ^ (53 : ℤ) * 2 ^ (e - (j : ℤ)) := mul_lt_mul_of_pos_right h1 h2
    have h4 := (zpow_lt_zpow_iff_right₀ (by norm_num : (1 : ℚ) < 2)).mp h3
    omega
  rw [hval]
  exact Magnitude_axis_normalized _ _ hj1 hj2 hk


theorem creep_velocity : (ticks 1 creepModel).sensors.velocity = ⟨2 ^ (-600 : ℤ), 0, 0⟩ := by
  have h := tickStep_velocity_axis creepModel 0 rfl rfl
  have hd : creepModel.sensors.deltaV = 2 ^ (-600 : ℤ) := rfl
  rw [hd] at h
  have h1 : f64mul 1 ((2 : ℚ) ^ (-600 : ℤ)) = 2 ^ (-600 : ℤ) := by
    unfold f64mul; rw [one_mul, roundF64_tiny]
  have h2 : f64add 0 ((2 : ℚ) ^ (-600 : ℤ)) = 2 ^ (-600 : ℤ) := by
    unfold f64add; rw [zero_add, roundF64_tiny]
  rw [h1, h2] at h
  exact h

/-- C7, as stated, fails in two ways.  The sums are rounded: `driftModel` has orientation
`(1, 0, 0)`, velocity `(0, 0, 0)` and holds `deltaV = d = 2^60 + 2^8` at the start of each
of six consecutive ticks, yet after them the velocity is `(6917529027641082880, 0, 0)` and
so is its magnitude, while `d * 6 = 6917529027641083392` (and the float64 product of `d`
and 6 is `6917529027641083904`).  And the square underflows: `creepModel` holds
`deltaV = 2^-600` at the start of one tick, after which the velocity is `(2^-600, 0, 0)`
and its magnitude is 0. -/
theorem drift_breaks_accumulation :
    (driftModel.sensors.orientation = ⟨1, 0, 0⟩ ∧
      driftModel.sensors.velocity = ⟨0, 0, 0⟩ ∧
      (0 : ℚ) ≤ 1152921504606847232 ∧
      roundF64 driftModel.sensors.fuel = driftModel.sensors.fuel ∧
      roundF64 driftModel.sensors.deltaV = driftModel.sensors.deltaV ∧
      (∀ i, i < 6 → (ticks i driftModel).sensors.deltaV = 1152921504606847232) ∧
      run driftModel (List.replicate 6 .tick) = some (ticks 6 driftModel) ∧
      (ticks 6 driftModel).sensors.velocity = ⟨6917529027641082880, 0, 0⟩ ∧
      Magnitude (ticks 6 driftModel).sensors.velocity = 6917529027641082880 ∧
      Magnitude (ticks 6 driftModel).sensors.velocity ≠ 1152921504606847232 * 6 ∧
      Magnitude (ticks 6 driftModel).sensors.velocity ≠ f64mul 1152921504606847232 6 ∧
      (ticks 6 driftModel).sensors.velocity ≠ ⟨1152921504606847232 * 6, 0, 0⟩) ∧
    (creepModel.sensors.orientation = ⟨1, 0, 0⟩ ∧
      creepModel.sensors.velocity = ⟨0, 0, 0⟩ ∧
      creepModel.sensors.deltaV = 2 ^ (-600 : ℤ) ∧
      roundF64 creepModel.sensors.deltaV = creepModel.sensors.deltaV ∧
      run creepModel (List.replicate 1 .tick) = some (ticks 1 creepModel) ∧
      (ticks 1 creepModel).sensors.velocity = ⟨2 ^ (-600 : ℤ) * 1, 0, 0⟩ ∧
      Magnitude (ticks 1 creepModel).sensors.velocity = 0 ∧
      Magnitude (ticks 1 creepModel).sensors.velocity ≠ 2 ^ (-600 : ℤ) * 1) := by
  have hv : (ticks 6 driftModel).sensors.velocity = ⟨6917529027641082880, 0, 0⟩ :=
    drift_velocity
  have hfuel : roundF64 driftModel.sensors.fuel = driftModel.sensors.fuel := by
    show roundF64 (2 ^ 200) = 2 ^ 200
    have h := roundF64_repr 1 200 (by norm_num) (by norm_num)
    norm_num at h ⊢
    exact h
  have hpos : (0 : ℚ) < 2 ^ (-600 : ℤ) := by positivity
  refine ⟨⟨rfl, rfl, by norm_num, hfuel, drift_repr, fun i _ => (drift_ticks i).2.1,
    ticks_eq_run 6 driftModel, hv, ?_, ?_, ?_, ?_⟩,
    ⟨rfl, rfl, rfl, roundF64_tiny, ticks_eq_run 1 creepModel, ?_, ?_, ?_⟩⟩
  · rw [hv, drift_magnitude]
  · rw [hv, drift_magnitude]; norm_num
  · rw [hv, drift_magnitude, drift_product]; norm_num
  · rw [hv]
    intro h
    have h0 := congrArg Vector3.c0 h
    norm_num at h0
  · rw [creep_velocity, mul_one]
  · rw [creep_velocity, Magnitude_tiny]
  · rw [creep_velocity, Magnitude_tiny, mul_one]
    exact hpos.ne

/-- C7, amended: for a deltaV `d = a * 2^e` with `a` a natural number and
`-1074 ≤ e ≤ 970`, if the orientation is `(1, 0, 0)`, the velocity starts at `(0, 0, 0)`
and deltaV equals `d` at the start of each of `N` consecutive ticks, then with
`a * N < 2^53` (every partial sum is a float64 value) the `N` ticks return a model whose
velocity is `(d * N, 0, 0)`; and its magnitude is `d * N` when `d * N` is 0, or at least
`2^-511` (its square is a normal float64 number), or has a square that is a float64 value
(`(a * N)^2 < 2^53` and `-537 ≤ e`).  The upper bounds, `e ≤ 970` and `d * N < 2^512`, keep
the sums and the square below `2^1024`, the range in which the arithmetic of the embedding
is that of Go. -/
theorem velocity_accumulation (m : Model) (a N : ℕ) (e : ℤ)
    (ho : m.sensors.orientation = ⟨1, 0, 0⟩) (hv : m.sensors.velocity = ⟨0, 0, 0⟩)
    (hd : ∀ i, i < N → (ticks i m).sensors.deltaV = (a : ℚ) * 2 ^ e)
    (hrep : a * N < 2 ^ 53) (he : -1074 ≤ e) (_hmax : e ≤ 970) :
    run m (List.replicate N .tick) = some (ticks N m) ∧
    (ticks N m).sensors.velocity = ⟨(a : ℚ) * 2 ^ e * N, 0, 0⟩ ∧
    (a * N = 0 ∨ (2 : ℚ) ^ (-511 : ℤ) ≤ (a : ℚ) * 2 ^ e * N ∨
        ((a * N) * (a * N) < 2 ^ 53 ∧ -537 ≤ e) →
      (a : ℚ) * 2 ^ e * N < 2 ^ (512 : ℤ) →
      Magnitude (ticks N m).sensors.velocity = (a : ℚ) * 2 ^ e * N) := by
  have hvel := axis_velocity_after_ticks m a N e ho hv hd hrep he N (le_refl N)
  have hcast : (((a * N : ℕ) : ℤ) : ℚ) * 2 ^ e = (a : ℚ) * 2 ^ e * N := by push_cast; ring
  refine ⟨ticks_eq_run N m, by rw [hvel, hcast], ?_⟩
  intro hcase _
  rw [hvel, ← hcast, Int.cast_natCast]
  rcases hcase with h0 | hnorm | ⟨hsq, he2⟩
  · rw [h0]
    have h := Magnitude_axis 0 0 (by norm_num) (by norm_num)
    simpa using h
  · rw [← hcast, Int.cast_natCast] at hnorm
    exact Magnitude_axis_normal (a * N) e hrep hnorm
  · exact Magnitude_axis (a * N) e hsq (by omega)

theorem velocity_accumulation_witness :
    (ticks 4 cruiseModel).sensors.velocity = ⟨40, 0, 0⟩ ∧
    Magnitude (ticks 4 cruiseModel).sensors.velocity = 40 := by
  have hd : ∀ i, i < 4 → (ticks i cruiseModel).sensors.deltaV = ((10 : ℕ) : ℚ) * 2 ^ (0 : ℤ) := by
    intro i hi
    have hsel : decide ((0 : Int) ∈ cruiseModel.selected) = true := by
      simp [cruiseModel, thrustersOn]
    have h := (ticks_nat i cruiseModel 40 10 (by simp [cruiseModel]) (by simp [cruiseModel])
      (by omega) (by norm_num)).2
    rw [hsel] at h
    rw [h]
    interval_cases i
    · have : (natTick true)^[0] (40, 10) = (40, 10) := by decide
      rw [this]; norm_num
    · have : (natTick true)^[1] (40, 10) = (30, 10) := by decide
      rw [this]; norm_num
    · have : (natTick true)^[2] (40, 10) = (20, 10) := by decide
      rw [this]; norm_num
    · have : (natTick true)^[3] (40, 10) = (10, 10) := by decide
      rw [this]; norm_num
  have h := velocity_accumulation cruiseModel 10 4 0 rfl rfl hd (by norm_num) (by norm_num)
    (by norm_num)
  have hval : ((10 : ℕ) : ℚ) * 2 ^ (0 : ℤ) * ((4 : ℕ) : ℚ) = 40 := by norm_num
  rw [hval] at h
  have hlo : (2 : ℚ) ^ (-511 : ℤ) ≤ 40 :=
    le_trans (zpow_le_one_of_nonpos₀ (by norm_num) (by norm_num)) (by norm_num)
  have hhi : (40 : ℚ) < 2 ^ (512 : ℤ) :=
    lt_of_lt_of_le (by norm_num : (40 : ℚ) < 2 ^ (6 : ℤ))
      (zpow_le_zpow_right₀ (by norm_num) (by norm_num))
  exact ⟨h.2.1, h.2.2 (Or.inr (Or.inl hlo)) hhi⟩

/-! ## Normalize -/

theorem f64add_zero_left (m e : ℤ) (hm : |m| < 2 ^ 53) (he : -1074 ≤ e) :
    f64add 0 ((m : ℚ) * 2 ^ e) = (m : ℚ) * 2 ^ e := by
  unfold f64add
  rw [zero_add, roundF64_repr m e hm he]

theorem f64mul_zero_left (x : ℚ) : f64mul 0 x = 0 := by
  simp [f64mul, roundF64_zero]

theorem Magnitude_011 : Magnitude ⟨0, 1, 1⟩ = 6369051672525773 * 2 ^ (-52 : ℤ) := by
  have h1 : f64pow2 1 = 1 := by
    have h := f64pow2_natCast 1 (by norm_num)
    simpa using h
  have h01 : f64add 0 1 = 1 := by
    have h := f64add_natCast 0 1 (by norm_num)
    simpa using h
  have h11 : f64add 1 1 = 2 := by
    have h := f64add_natCast 1 1 (by norm_num)
    norm_num at h
    exact h
  have hs : f64sqrt 2 = 6369051672525773 * 2 ^ (-52 : ℤ) := by
    rw [f64sqrt_eval_up 2 (-52) 6369051672525772 (by norm_num) (by norm_num) (by norm_num)
      (by norm_num) (by norm_num)]
    norm_num
  unfold Magnitude
  dsimp only
  rw [f64pow2_zero, h1, h01, h11, hs]

theorem inverse_root_two :
    f64div 1 (6369051672525773 * 2 ^ (-52 : ℤ)) = 6369051672525772 * 2 ^ (-53 : ℤ) := by
  unfold f64div
  rw [roundF64_eval_near _ (-53) 6369051672525772 (by norm_num) (by norm_num)
    (by rw [abs_lt]; constructor <;> norm_num) (by norm_num)]
  norm_num

theorem Normalize_011 :
    Normalize ⟨0, 1, 1⟩
      = ⟨0, 6369051672525772 * 2 ^ (-53 : ℤ), 6369051672525772 * 2 ^ (-53 : ℤ)⟩ := by
  have hm : f64mul 1 (6369051672525772 * 2 ^ (-53 : ℤ)) = 6369051672525772 * 2 ^ (-53 : ℤ) := by
    unfold f64mul
    rw [one_mul]
    have h := roundF64_repr 6369051672525772 (-53) (by norm_num) (by norm_num)
    simpa using h
  unfold Normalize
  dsimp only
  rw [Magnitude_011, inverse_root_two]
  unfold ScalarProduct
  dsimp only
  rw [f64mul_zero_left, hm]

theorem Magnitude_Normalize_011 :
    Magnitude (Normalize ⟨0, 1, 1⟩) = 9007199254740991 * 2 ^ (-53 : ℤ) := by
  have h53 : round53 (6369051672525772 * 2 ^ (-53 : ℤ) * (6369051672525772 * 2 ^ (-53 : ℤ)))
      = ((9007199254740990 : ℤ) : ℚ) * 2 ^ (-54 : ℤ) := by
    rw [round53_eval_near _ (-54) 9007199254740990 (by norm_num) (by norm_num)
      (by rw [abs_lt]; constructor <;> norm_num)]
  have hp : f64pow2 (6369051672525772 * 2 ^ (-53 : ℤ))
      = ((9007199254740990 : ℤ) : ℚ) * 2 ^ (-54 : ℤ) := by
    unfold f64pow2
    rw [h53, roundF64_repr 9007199254740990 (-54) (by norm_num) (by norm_num)]
  have hsum : f64add (((9007199254740990 : ℤ) : ℚ) * 2 ^ (-54 : ℤ))
      (((9007199254740990 : ℤ) : ℚ) * 2 ^ (-54 : ℤ))
      = ((9007199254740990 : ℤ) : ℚ) * 2 ^ (-53 : ℤ) := by
    unfold f64add
    have h2 : ((9007199254740990 : ℤ) : ℚ) * 2 ^ (-54 : ℤ)
        + ((9007199254740990 : ℤ) : ℚ) * 2 ^ (-54 : ℤ)
        = ((9007199254740990 : ℤ) : ℚ) * 2 ^ (-53 : ℤ) := by norm_num
    rw [h2, roundF64_repr 9007199254740990 (-53) (by norm_num) (by norm_num)]
  have hs : f64sqrt (((9007199254740990 : ℤ) : ℚ) * 2 ^ (-53 : ℤ))
      = 9007199254740991 * 2 ^ (-53 : ℤ) := by
    rw [f64sqrt_eval_up _ (-53) 9007199254740990 (by norm_num) (by norm_num) (by norm_num)
      (by norm_num) (by norm_num)]
    norm_num
  rw [Normalize_011]
  unfold Magnitude
  dsimp only
  rw [f64pow2_zero, hp, f64add_zero_left _ _ (by norm_num) (by norm_num), hsum, hs]

/-! ### The rounding error of `Normalize` -/

theorem relLo_pos : 0 < relLo := by
  unfold relLo; norm_num

theorem relLo_le_one : relLo ≤ 1 := by
  unfold relLo; norm_num

theorem relLo_pow_pos (k : ℕ) : 0 < relLo ^ k := pow_pos relLo_pos k

theorem relLo_pow_le_one (k : ℕ) : relLo ^ k ≤ 1 := pow_le_one₀ relLo_pos.le relLo_le_one

theorem relLo_pow_ge_half (k : ℕ) (hk : k ≤ 14) : 1 / 2 ≤ relLo ^ k := by
  have h1 : relLo ^ 14 ≤ relLo ^ k := pow_le_pow_of_le_one relLo_pos.le relLo_le_one hk
  have h2 : (1 : ℚ) / 2 ≤ relLo ^ 14 := by
    unfold relLo; norm_num
  exact le_trans h2 h1

theorem near_zero (k : ℕ) : Near k 0 0 := by
  unfold Near; simp

theorem near_refl (x : ℚ) : Near 0 x x := by
  unfold Near; simp

theorem near_symm (k : ℕ) (x y : ℚ) (h : Near k x y) : Near k y x := ⟨h.2, h.1⟩

theorem near_mono (j k : ℕ) (x y : ℚ) (h : Near j x y) (hx : 0 ≤ x) (hy : 0 ≤ y)
    (hjk : j ≤ k) : Near k x y := by
  have hp : relLo ^ k ≤ relLo ^ j := pow_le_pow_of_le_one relLo_pos.le relLo_le_one hjk
  exact ⟨le_trans (mul_le_mul_of_nonneg_left hp hy) h.1,
    le_trans (mul_le_mul_of_nonneg_left hp hx) h.2⟩

theorem near_trans (j k : ℕ) (x y z : ℚ) (h1 : Near j x y) (h2 : Near k y z) :
    Near (j + k) x z := by
  constructor
  · calc z * relLo ^ (j + k) = z * relLo ^ k * relLo ^ j := by rw [pow_add]; ring
      _ ≤ y * relLo ^ j := mul_le_mul_of_nonneg_right h2.1 (relLo_pow_pos j).le
      _ ≤ x := h1.1
  · calc x * relLo ^ (j + k) = x * relLo ^ j * relLo ^ k := by rw [pow_add]; ring
      _ ≤ y * relLo ^ k := mul_le_mul_of_nonneg_right h1.2 (relLo_pow_pos k).le
      _ ≤ z := h2.2

theorem near_add (k : ℕ) (a b c d : ℚ) (h1 : Near k a b) (h2 : Near k c d) :
    Near k (a + c) (b + d) := by
  constructor
  · rw [add_mul]; exact add_le_add h1.1 h2.1
  · rw [add_mul]; exact add_le_add h1.2 h2.2

theorem near_mul (j k : ℕ) (a b c d : ℚ) (h1 : Near j a b) (h2 : Near k c d)
    (ha : 0 ≤ a) (hb : 0 ≤ b) (hc : 0 ≤ c) (hd : 0 ≤ d) : Near (j + k) (a * c) (b * d) := by
  constructor
  · calc b * d * relLo ^ (j + k) = (b * relLo ^ j) * (d * relLo ^ k) := by rw [pow_add]; ring
      _ ≤ a * c := mul_le_mul h1.1 h2.1 (mul_nonneg hd (relLo_pow_pos k).le) ha
  · calc a * c * relLo ^ (j + k) = (a * relLo ^ j) * (c * relLo ^ k) := by rw [pow_add]; ring
      _ ≤ b * d := mul_le_mul h1.2 h2.2 (mul_nonneg hc (relLo_pow_pos k).le) hb

theorem near_inv (k : ℕ) (a b : ℚ) (h : Near k a b) (ha : 0 < a) (hb : 0 < b) :
    Near k (1 / a) (1 / b) := by
  constructor
  · rw [div_mul_eq_mul_div, one_mul, div_le_div_iff₀ hb ha, one_mul]
    rw [mul_comm]; exact h.2
  · rw [div_mul_eq_mul_div, one_mul, div_le_div_iff₀ ha hb, one_mul]
    rw [mul_comm]; exact h.1

theorem near_pos (k : ℕ) (x y : ℚ) (h : Near k x y) (hy : 0 < y) : 0 < x :=
  lt_of_lt_of_le (mul_pos hy (relLo_pow_pos k)) h.1

theorem near_eq_zero (k : ℕ) (x : ℚ) (h : Near k x 0) : x = 0 := by
  have h1 : 0 ≤ x := by simpa using h.1
  have h2 : x * relLo ^ k ≤ 0 := h.2
  have h3 : x ≤ 0 := by
    by_contra hc
    push_neg at hc
    exact absurd h2 (not_le.mpr (mul_pos hc (relLo_pow_pos k)))
  exact le_antisymm h3 h1

/-- Rounding to a multiple of `2^E` moves a value by at most half of `2^E`. -/
theorem roundAt_abs_sub_le (E : ℤ) (q : ℚ) : |roundAt E q - q| ≤ 2 ^ E / 2 := by
  have hp : (0 : ℚ) < 2 ^ E := by positivity
  have h : roundAt E q - q = ((roundHalfEven (q / 2 ^ E) : ℚ) - q / 2 ^ E) * 2 ^ E := by
    unfold roundAt; field_simp
  rw [h, abs_mul, abs_of_pos hp]
  calc |(roundHalfEven (q / 2 ^ E) : ℚ) - q / 2 ^ E| * 2 ^ E ≤ 1 / 2 * 2 ^ E :=
        mul_le_mul_of_nonneg_right (roundHalfEven_abs_sub_le _) hp.le
    _ = 2 ^ E / 2 := by ring

/-- A value within `|q| / 2^53` of `q` agrees with `q` up to one rounding. -/
theorem near_of_abs_sub_le (r q : ℚ) (h : |r - q| ≤ |q| * (1 / 2 ^ 53)) : Near 1 |r| |q| := by
  have h1 : |q| - |r| ≤ |r - q| := by
    rw [abs_sub_comm r q]; exact abs_sub_abs_le_abs_sub q r
  have h2 : |r| - |q| ≤ |r - q| := abs_sub_abs_le_abs_sub r q
  have hq : 0 ≤ |q| := abs_nonneg q
  unfold Near relLo
  rw [pow_one]
  constructor
  · linarith
  · have : |r| ≤ |q| * (1 + 1 / 2 ^ 53) := by linarith
    calc |r| * (1 - 1 / 2 ^ 53) ≤ |q| * (1 + 1 / 2 ^ 53) * (1 - 1 / 2 ^ 53) :=
          mul_le_mul_of_nonneg_right this (by norm_num)
      _ = |q| * (1 - 1 / 2 ^ 53 * (1 / 2 ^ 53)) := by ring
      _ ≤ |q| * 1 := mul_le_mul_of_nonneg_left (by norm_num) hq
      _ = |q| := mul_one _

/-- The relative error of the rounding to 53 bits is at most `2^-53`. -/
theorem round53_near (q : ℚ) : Near 1 |round53 q| |q| := by
  by_cases h0 : q = 0
  · rw [h0, round53_zero, abs_zero]; exact near_zero 1
  · have hpos : 0 < |q| := abs_pos.mpr h0
    have hlog : ((2 : ℕ) : ℚ) ^ Int.log 2 |q| ≤ |q| := Int.zpow_log_le_self (by norm_num) hpos
    rw [Nat.cast_ofNat] at hlog
    apply near_of_abs_sub_le
    unfold round53
    rw [if_neg h0]
    refine le_trans (roundAt_abs_sub_le _ q) ?_
    have he : (2 : ℚ) ^ (Int.log 2 |q| - 52) / 2 = 2 ^ Int.log 2 |q| * (1 / 2 ^ 53) := by
      rw [zpow_sub₀ (by norm_num), zpow_ofNat]
      ring
    rw [he]
    exact mul_le_mul_of_nonneg_right hlog (by norm_num)

/-- In the normal range the rounding to binary64 is the rounding to 53 bits. -/
theorem roundF64_eq_round53 (q : ℚ) (h : (2 : ℚ) ^ (-1022 : ℤ) ≤ |q|) :
    roundF64 q = round53 q := by
  have hpos : 0 < |q| := lt_of_lt_of_le (by positivity) h
  have hL : (-1022 : ℤ) ≤ Int.log 2 |q| := by
    apply (Int.zpow_le_iff_le_log (by norm_num) hpos).mp
    rw [Nat.cast_ofNat]; exact h
  unfold roundF64 round53
  rw [max_eq_left (by omega)]

theorem roundF64_near (q : ℚ) (h : q = 0 ∨ (2 : ℚ) ^ (-1022 : ℤ) ≤ |q|) :
    Near 1 |roundF64 q| |q| := by
  rcases h with h | h
  · rw [h, roundF64_zero, abs_zero]; exact near_zero 1
  · rw [roundF64_eq_round53 q h]; exact round53_near q

/-- The scaled significand of a positive value lies in `[2^52, 2^53)`. -/
theorem scaled_of_log (q : ℚ) (hq : 0 < q) :
    2 ^ 52 ≤ q / 2 ^ (Int.log 2 q - 52) ∧ q / 2 ^ (Int.log 2 q - 52) < 2 ^ 53 := by
  have hlog : ((2 : ℕ) : ℚ) ^ Int.log 2 q ≤ q := Int.zpow_log_le_self (by norm_num) hq
  have hlog2 : q < ((2 : ℕ) : ℚ) ^ (Int.log 2 q + 1) := Int.lt_zpow_succ_log_self (by norm_num) q
  rw [Nat.cast_ofNat] at hlog hlog2
  have hpow : (0 : ℚ) < 2 ^ (Int.log 2 q - 52) := by positivity
  constructor
  · rw [le_div_iff₀ hpow]
    calc (2 : ℚ) ^ 52 * 2 ^ (Int.log 2 q - 52) = 2 ^ Int.log 2 q := by
          rw [zpow_sub₀ (by norm_num), zpow_ofNat]; field_simp
      _ ≤ q := hlog
  · rw [div_lt_iff₀ hpow]
    calc q < 2 ^ (Int.log 2 q + 1) := hlog2
      _ = (2 : ℚ) ^ 53 * 2 ^ (Int.log 2 q - 52) := by
          rw [zpow_sub₀ (by norm_num), zpow_add₀ (by norm_num), zpow_ofNat]; field_simp; ring

/-- The float64 square agrees with the exact square up to one rounding, when the argument
is 0 or at least `2^-511` in magnitude (the square is then in the normal range). -/
theorem f64pow2_near (x : ℚ) (h : x = 0 ∨ (2 : ℚ) ^ (-511 : ℤ) ≤ |x|) :
    Near 1 (f64pow2 x) (x * x) := by
  rcases h with h | h
  · rw [h, f64pow2_zero, mul_zero]; exact near_zero 1
  · have hsq : (2 : ℚ) ^ (-1022 : ℤ) ≤ x * x := by
      have h1 : (2 : ℚ) ^ (-1022 : ℤ) = 2 ^ (-511 : ℤ) * 2 ^ (-511 : ℤ) := by
        rw [← zpow_add₀ (by norm_num)]; norm_num
      rw [h1, ← abs_mul_abs_self x]
      exact mul_le_mul h h (by positivity) (abs_nonneg x)
    have hq : 0 < x * x := lt_of_lt_of_le (by positivity) hsq
    have hL : (-1022 : ℤ) ≤ Int.log 2 (x * x) := by
      apply (Int.zpow_le_iff_le_log (by norm_num) hq).mp
      rw [Nat.cast_ofNat]; exact hsq
    obtain ⟨s1, s2⟩ := scaled_of_log (x * x) hq
    obtain ⟨R, h53, hF, -, -, -⟩ :=
      roundF64_round53_scaled (x * x) (Int.log 2 (x * x) - 52) s1 s2 (by omega)
    have hn := round53_near (x * x)
    rw [abs_of_nonneg (round53_nonneg _ hq.le), abs_of_pos hq] at hn
    unfold f64pow2
    rw [hF, ← h53]
    exact hn


/-- The choice between `s` and `s + 1` made by `f64sqrt`: the chosen `m` has
`(m - 1/2)^2 ≤ t ≤ (m + 1/2)^2`. -/
theorem sqrt_choice (t : ℚ) (s : ℤ) (hs : (1 : ℚ) ≤ s) (h1 : (s : ℚ) * s ≤ t)
    (h2 : t < ((s : ℚ) + 1) * (s + 1)) :
    (s : ℚ) ≤ ((if t < (s : ℚ) * s + s + 1 / 4 then s
        else if (s : ℚ) * s + s + 1 / 4 < t then s + 1
        else if s % 2 = 0 then s else s + 1 : ℤ) : ℚ) ∧
    (((if t < (s : ℚ) * s + s + 1 / 4 then s
        else if (s : ℚ) * s + s + 1 / 4 < t then s + 1
        else if s % 2 = 0 then s else s + 1 : ℤ) : ℚ) - 1 / 2) *
      (((if t < (s : ℚ) * s + s + 1 / 4 then s
        else if (s : ℚ) * s + s + 1 / 4 < t then s + 1
        else if s % 2 = 0 then s else s + 1 : ℤ) : ℚ) - 1 / 2) ≤ t ∧
    t ≤ (((if t < (s : ℚ) * s + s + 1 / 4 then s
        else if (s : ℚ) * s + s + 1 / 4 < t then s + 1
        else if s % 2 = 0 then s else s + 1 : ℤ) : ℚ) + 1 / 2) *
      (((if t < (s : ℚ) * s + s + 1 / 4 then s
        else if (s : ℚ) * s + s + 1 / 4 < t then s + 1
        else if s % 2 = 0 then s else s + 1 : ℤ) : ℚ) + 1 / 2) := by
  split_ifs with c1 c2 c3
  · refine ⟨le_refl _, ?_, ?_⟩ <;> nlinarith
  · push_cast
    refine ⟨by linarith, ?_, ?_⟩ <;> nlinarith
  · refine ⟨le_refl _, ?_, ?_⟩ <;> nlinarith
  · push_cast
    refine ⟨by linarith, ?_, ?_⟩ <;> nlinarith

/-- The square of the float64 square root agrees with the argument up to two roundings. -/
theorem f64sqrt_near (q : ℚ) (hq : 0 ≤ q) : Near 2 (f64sqrt q * f64sqrt q) q := by
  rcases eq_or_lt_of_le hq with h0 | hpos
  · rw [← h0]
    have : f64sqrt 0 = 0 := by simp [f64sqrt]
    rw [this, mul_zero]
    exact near_zero 2
  have hlog : ((2 : ℕ) : ℚ) ^ Int.log 2 q ≤ q := Int.zpow_log_le_self (by norm_num) hpos
  have hlog2 : q < ((2 : ℕ) : ℚ) ^ (Int.log 2 q + 1) := Int.lt_zpow_succ_log_self (by norm_num) q
  rw [Nat.cast_ofNat] at hlog hlog2
  obtain ⟨k, hk⟩ : ∃ k : ℤ, k = Int.log 2 q / 2 - 52 := ⟨_, rfl⟩
  have hpow : (0 : ℚ) < 2 ^ (2 * k) := by positivity
  have hpk : (0 : ℚ) < 2 ^ k := by positivity
  obtain ⟨t, ht⟩ : ∃ t : ℚ, t = q / 2 ^ (2 * k) := ⟨_, rfl⟩
  have ht1 : (2 : ℚ) ^ 104 ≤ t := by
    rw [ht, le_div_iff₀ hpow]
    calc (2 : ℚ) ^ 104 * 2 ^ (2 * k) = 2 ^ (104 + 2 * k) := by
          rw [zpow_add₀ (by norm_num), zpow_ofNat]
      _ ≤ 2 ^ Int.log 2 q := zpow_le_zpow_right₀ (by norm_num) (by omega)
      _ ≤ q := hlog
  have htpos : 0 < t := lt_of_lt_of_le (by positivity) ht1
  obtain ⟨s, hs⟩ : ∃ s : ℕ, s = Nat.sqrt ⌊t⌋₊ := ⟨_, rfl⟩
  have hs1 : (s : ℚ) * s ≤ t := by
    have h := Nat.sqrt_le ⌊t⌋₊
    rw [← hs] at h
    have h2 : ((s * s : ℕ) : ℚ) ≤ (⌊t⌋₊ : ℚ) := by exact_mod_cast h
    push_cast at h2
    exact le_trans h2 (Nat.floor_le htpos.le)
  have hs2 : t < ((s : ℚ) + 1) * (s + 1) := by
    have h := Nat.lt_succ_sqrt ⌊t⌋₊
    rw [← hs] at h
    have h2 : ((⌊t⌋₊ + 1 : ℕ) : ℚ) ≤ (((s + 1) * (s + 1) : ℕ) : ℚ) := by exact_mod_cast h
    push_cast at h2
    exact lt_of_lt_of_le (Nat.lt_floor_add_one t) h2
  have hs52 : (2 : ℚ) ^ 52 ≤ s := by
    have h1 : (2 : ℚ) ^ 52 < (s : ℚ) + 1 := by
      by_contra hc
      push_neg at hc
      have h0 : (0 : ℚ) ≤ (s : ℚ) + 1 := by positivity
      have : ((s : ℚ) + 1) * (s + 1) ≤ 2 ^ 52 * 2 ^ 52 := mul_le_mul hc hc h0 (by positivity)
      have h3 : (2 : ℚ) ^ 52 * 2 ^ 52 = 2 ^ 104 := by norm_num
      linarith
    have h2 : (2 : ℕ) ^ 52 < s + 1 := by exact_mod_cast h1
    have h3 : (2 : ℕ) ^ 52 ≤ s := by omega
    exact_mod_cast h3
  obtain ⟨m, hm⟩ : ∃ m : ℤ, m = (if t < ((s : ℤ) : ℚ) * ((s : ℤ) : ℚ) + ((s : ℤ) : ℚ) + 1 / 4
      then (s : ℤ)
      else if ((s : ℤ) : ℚ) * ((s : ℤ) : ℚ) + ((s : ℤ) : ℚ) + 1 / 4 < t then (s : ℤ) + 1
      else if (s : ℤ) % 2 = 0 then (s : ℤ) else (s : ℤ) + 1) := ⟨_, rfl⟩
  have hchoice := sqrt_choice t (s : ℤ) (by push_cast; linarith [hs52])
    (by push_cast; exact hs1) (by push_cast; exact hs2)
  rw [← hm] at hchoice
  obtain ⟨hm1, hm2, hm3⟩ := hchoice
  rw [Int.cast_natCast] at hm1
  have hm52 : (2 : ℚ) ^ 52 ≤ m := le_trans hs52 hm1
  have hval : f64sqrt q = (m : ℚ) * 2 ^ k := by
    unfold f64sqrt
    rw [if_neg (not_le.mpr hpos)]
    dsimp only
    rw [← hk, ← ht, ← hs, hm]
  have hqt : q = t * 2 ^ (2 * k) := by
    rw [ht]; field_simp
  have hu : (m : ℚ) * (1 / 2 ^ 53) ≥ 1 / 2 := by
    have := mul_le_mul_of_nonneg_right hm52 (by norm_num : (0 : ℚ) ≤ 1 / 2 ^ 53)
    norm_num at this ⊢
    linarith
  have hA : (m : ℚ) * relLo ≤ (m : ℚ) - 1 / 2 := by
    unfold relLo; linarith
  have hB : ((m : ℚ) + 1 / 2) * relLo ≤ (m : ℚ) := by
    unfold relLo; nlinarith
  have hm0 : (0 : ℚ) ≤ m := le_trans (by positivity) hm52
  have hl0 : 0 ≤ relLo := relLo_pos.le
  have key : Near 2 ((m : ℚ) * m) t := by
    unfold Near
    constructor
    · calc t * relLo ^ 2 ≤ ((m : ℚ) + 1 / 2) * ((m : ℚ) + 1 / 2) * relLo ^ 2 :=
            mul_le_mul_of_nonneg_right hm3 (by positivity)
        _ = (((m : ℚ) + 1 / 2) * relLo) * (((m : ℚ) + 1 / 2) * relLo) := by ring
        _ ≤ (m : ℚ) * m := mul_le_mul hB hB (by positivity) hm0
    · calc (m : ℚ) * m * relLo ^ 2 = ((m : ℚ) * relLo) * ((m : ℚ) * relLo) := by ring
        _ ≤ ((m : ℚ) - 1 / 2) * ((m : ℚ) - 1 / 2) :=
            mul_le_mul hA hA (by positivity) (by linarith)
        _ ≤ t := hm2
  rw [hval]
  have e1 : (m : ℚ) * 2 ^ k * ((m : ℚ) * 2 ^ k) = (m : ℚ) * m * 2 ^ (2 * k) := by
    rw [two_mul, zpow_add₀ (by norm_num)]; ring
  rw [e1]
  conv_rhs => rw [hqt]
  unfold Near at key ⊢
  constructor
  · calc t * 2 ^ (2 * k) * relLo ^ 2 = t * relLo ^ 2 * 2 ^ (2 * k) := by ring
      _ ≤ (m : ℚ) * m * 2 ^ (2 * k) := mul_le_mul_of_nonneg_right key.1 hpow.le
  · calc (m : ℚ) * m * 2 ^ (2 * k) * relLo ^ 2 = (m : ℚ) * m * relLo ^ 2 * 2 ^ (2 * k) := by ring
      _ ≤ t * 2 ^ (2 * k) := mul_le_mul_of_nonneg_right key.2 hpow.le

theorem near_normal (k : ℕ) (hk : k ≤ 14) (a b : ℚ) (h : Near k a b)
    (hb : b = 0 ∨ (2 : ℚ) ^ (-1002 : ℤ) ≤ b) : a = 0 ∨ (2 : ℚ) ^ (-1003 : ℤ) ≤ a := by
  rcases hb with hb | hb
  · left
    rw [hb] at h
    exact near_eq_zero k a h
  · right
    have h2 := relLo_pow_ge_half k hk
    have hp : (0 : ℚ) < 2 ^ (-1002 : ℤ) := by positivity
    calc (2 : ℚ) ^ (-1003 : ℤ) = 2 ^ (-1002 : ℤ) * (1 / 2) := by
          rw [show (-1003 : ℤ) = -1002 - 1 from rfl, zpow_sub₀ (by norm_num), zpow_one]
          ring
      _ ≤ b * relLo ^ k := mul_le_mul hb h2 (by norm_num) (le_trans hp.le hb)
      _ ≤ a := h.1

theorem normal_of_ge (a : ℚ) (h : a = 0 ∨ (2 : ℚ) ^ (-1003 : ℤ) ≤ a) :
    a = 0 ∨ (2 : ℚ) ^ (-1022 : ℤ) ≤ |a| := by
  rcases h with h | h
  · exact Or.inl h
  · exact Or.inr (le_trans (zpow_le_zpow_right₀ (by norm_num) (by norm_num))
      (le_trans h (le_abs_self a)))

theorem ge_of_sq_ge (a : ℚ) (ha : 0 ≤ a) (h : (2 : ℚ) ^ (-1003 : ℤ) ≤ a * a) :
    (2 : ℚ) ^ (-511 : ℤ) ≤ a := by
  by_contra hc
  push_neg at hc
  have h1 : a * a < 2 ^ (-511 : ℤ) * 2 ^ (-511 : ℤ) := mul_self_lt_mul_self ha hc
  rw [← zpow_add₀ (by norm_num)] at h1
  have h2 : (2 : ℚ) ^ ((-511 : ℤ) + -511) ≤ 2 ^ (-1003 : ℤ) :=
    zpow_le_zpow_right₀ (by norm_num) (by norm_num)
  linarith

/-- The square of the magnitude, given the three float64 squares up to `k` roundings
of targets `t0`, `t1`, `t2` that are 0 or well inside the normal range. -/
theorem Magnitude_sq_near (v : Vector3) (k : ℕ) (hk : k + 4 ≤ 14) (t0 t1 t2 : ℚ)
    (h0 : Near k (f64pow2 v.c0) t0) (h1 : Near k (f64pow2 v.c1) t1)
    (h2 : Near k (f64pow2 v.c2) t2)
    (ht0 : t0 = 0 ∨ (2 : ℚ) ^ (-1002 : ℤ) ≤ t0) (ht1 : t1 = 0 ∨ (2 : ℚ) ^ (-1002 : ℤ) ≤ t1)
    (ht2 : t2 = 0 ∨ (2 : ℚ) ^ (-1002 : ℤ) ≤ t2) :
    Near (k + 4) (Magnitude v * Magnitude v) (t0 + t1 + t2) := by
  have hp : (0 : ℚ) < 2 ^ (-1002 : ℤ) := by positivity
  have n0 : 0 ≤ t0 := by rcases ht0 with h | h <;> linarith
  have n1 : 0 ≤ t1 := by rcases ht1 with h | h <;> linarith
  have n2 : 0 ≤ t2 := by rcases ht2 with h | h <;> linarith
  have p0 := f64pow2_nonneg v.c0
  have p1 := f64pow2_nonneg v.c1
  have p2 := f64pow2_nonneg v.c2
  have ht01 : t0 + t1 = 0 ∨ (2 : ℚ) ^ (-1002 : ℤ) ≤ t0 + t1 := by
    rcases ht0 with h | h
    · rcases ht1 with h' | h'
      · left; rw [h, h', add_zero]
      · right; linarith
    · right; linarith
  have ht012 : t0 + t1 + t2 = 0 ∨ (2 : ℚ) ^ (-1002 : ℤ) ≤ t0 + t1 + t2 := by
    rcases ht01 with h | h
    · rcases ht2 with h' | h'
      · left; rw [h, h', add_zero]
      · right; linarith
    · right; linarith
  -- first sum
  have a1 : Near k (f64pow2 v.c0 + f64pow2 v.c1) (t0 + t1) := near_add k _ _ _ _ h0 h1
  have s1nn : 0 ≤ f64pow2 v.c0 + f64pow2 v.c1 := add_nonneg p0 p1
  have r1 := roundF64_near _ (normal_of_ge _ (near_normal k (by omega) _ _ a1 ht01))
  rw [abs_of_nonneg (roundF64_nonneg _ s1nn), abs_of_nonneg s1nn] at r1
  have b1 : Near (1 + k) (f64add (f64pow2 v.c0) (f64pow2 v.c1)) (t0 + t1) :=
    near_trans 1 k _ _ _ r1 a1
  have S1nn : 0 ≤ f64add (f64pow2 v.c0) (f64pow2 v.c1) := roundF64_nonneg _ s1nn
  -- second sum
  have a2 : Near (1 + k) (f64add (f64pow2 v.c0) (f64pow2 v.c1) + f64pow2 v.c2) (t0 + t1 + t2) :=
    near_add (1 + k) _ _ _ _ b1 (near_mono k (1 + k) _ _ h2 p2 n2 (by omega))
  have s2nn : 0 ≤ f64add (f64pow2 v.c0) (f64pow2 v.c1) + f64pow2 v.c2 := add_nonneg S1nn p2
  have r2 := roundF64_near _ (normal_of_ge _ (near_normal (1 + k) (by omega) _ _ a2 ht012))
  rw [abs_of_nonneg (roundF64_nonneg _ s2nn), abs_of_nonneg s2nn] at r2
  have b2 : Near (1 + (1 + k))
      (f64add (f64add (f64pow2 v.c0) (f64pow2 v.c1)) (f64pow2 v.c2)) (t0 + t1 + t2) :=
    near_trans 1 (1 + k) _ _ _ r2 a2
  -- square root
  have r3 := f64sqrt_near (f64add (f64add (f64pow2 v.c0) (f64pow2 v.c1)) (f64pow2 v.c2))
    (roundF64_nonneg _ s2nn)
  have b3 := near_trans 2 (1 + (1 + k)) _ _ _ r3 b2
  have hk4 : 2 + (1 + (1 + k)) = k + 4 := by omega
  rw [hk4] at b3
  exact b3

theorem abs_sub_one_le_of_near (a : ℚ) (ha : 0 ≤ a) (h : Near 14 (a * a) 1) :
    |a - 1| ≤ 1 / 2 ^ 50 := by
  obtain ⟨h1, h2⟩ := h
  rw [one_mul] at h1
  have c1 : ((1 : ℚ) - 1 / 2 ^ 50) * (1 - 1 / 2 ^ 50) ≤ relLo ^ 14 := by
    unfold relLo; norm_num
  have c2 : (1 : ℚ) ≤ (1 + 1 / 2 ^ 50) * (1 + 1 / 2 ^ 50) * relLo ^ 14 := by
    unfold relLo; norm_num
  rw [abs_le]
  constructor
  · by_contra hc
    push_neg at hc
    have h3 : a * a < (1 - 1 / 2 ^ 50) * (1 - 1 / 2 ^ 50) :=
      mul_self_lt_mul_self ha (by linarith)
    linarith
  · by_contra hc
    push_neg at hc
    have h3 : (1 + 1 / 2 ^ 50) * (1 + 1 / 2 ^ 50) < a * a :=
      mul_self_lt_mul_self (by norm_num) (by linarith)
    have h4 : (1 + 1 / 2 ^ 50) * (1 + 1 / 2 ^ 50) * relLo ^ 14 < a * a * relLo ^ 14 :=
      mul_lt_mul_of_pos_right h3 (relLo_pow_pos 14)
    linarith

/-- The square of a component that is 0 or between `2^-250` and `2^250` in magnitude. -/
theorem sq_range (c : ℚ)
    (h : c = 0 ∨ ((2 : ℚ) ^ (-250 : ℤ) ≤ |c| ∧ |c| ≤ 2 ^ (250 : ℤ))) :
    (c * c = 0 ∨ (2 : ℚ) ^ (-500 : ℤ) ≤ c * c) ∧ c * c ≤ 2 ^ (500 : ℤ) := by
  rcases h with h | ⟨h1, h2⟩
  · rw [h, mul_zero]
    exact ⟨Or.inl rfl, by positivity⟩
  · rw [← abs_mul_abs_self c]
    constructor
    · right
      calc (2 : ℚ) ^ (-500 : ℤ) = 2 ^ (-250 : ℤ) * 2 ^ (-250 : ℤ) := by
            rw [← zpow_add₀ (by norm_num)]; norm_num
        _ ≤ |c| * |c| := mul_le_mul h1 h1 (by positivity) (abs_nonneg c)
    · calc |c| * |c| ≤ 2 ^ (250 : ℤ) * 2 ^ (250 : ℤ) :=
            mul_le_mul h2 h2 (abs_nonneg c) (by positivity)
        _ = 2 ^ (500 : ℤ) := by rw [← zpow_add₀ (by norm_num)]; norm_num

/-- One component of `Normalize`: the float64 square of `c * r`, where `r * r` is `1 / Q`
up to 7 roundings, is `c * c / Q` up to 10 roundings. -/
theorem component_near (c r Q : ℚ)
    (hc : c = 0 ∨ ((2 : ℚ) ^ (-250 : ℤ) ≤ |c| ∧ |c| ≤ 2 ^ (250 : ℤ)))
    (hQ : 0 < Q) (hQhi : Q ≤ 2 ^ (502 : ℤ)) (hr7 : Near 7 (r * r) (1 / Q)) :
    Near 10 (f64pow2 (f64mul c r)) (c * c * (1 / Q)) ∧
    (c * c * (1 / Q) = 0 ∨ (2 : ℚ) ^ (-1002 : ℤ) ≤ c * c * (1 / Q)) := by
  obtain ⟨hsq, -⟩ := sq_range c hc
  have hinvQ : (2 : ℚ) ^ (-502 : ℤ) ≤ 1 / Q := by
    rw [zpow_neg, ← one_div]
    exact one_div_le_one_div_of_le hQ hQhi
  have hcc : 0 ≤ c * c := mul_self_nonneg c
  have hiq : 0 ≤ 1 / Q := by positivity
  have ht : c * c * (1 / Q) = 0 ∨ (2 : ℚ) ^ (-1002 : ℤ) ≤ c * c * (1 / Q) := by
    rcases hsq with h | h
    · left; rw [h, zero_mul]
    · right
      calc (2 : ℚ) ^ (-1002 : ℤ) = 2 ^ (-500 : ℤ) * 2 ^ (-502 : ℤ) := by
            rw [← zpow_add₀ (by norm_num)]; norm_num
        _ ≤ c * c * (1 / Q) := mul_le_mul h hinvQ (by positivity) hcc
  have e1 : Near 7 (c * c * (r * r)) (c * c * (1 / Q)) := by
    have h := near_mul 0 7 _ _ _ _ (near_refl (c * c)) hr7 hcc hcc (mul_self_nonneg r) hiq
    rwa [zero_add] at h
  have hprod : (c * r) * (c * r) = c * c * (r * r) := by ring
  have n1 : c * r = 0 ∨ (2 : ℚ) ^ (-1022 : ℤ) ≤ |c * r| := by
    rcases near_normal 7 (by norm_num) _ _ e1 ht with h | h
    · left
      rw [← hprod] at h
      exact mul_self_eq_zero.mp h
    · right
      rw [← hprod, ← abs_mul_abs_self] at h
      exact le_trans (zpow_le_zpow_right₀ (by norm_num) (by norm_num))
        (ge_of_sq_ge _ (abs_nonneg _) h)
  have w1 := roundF64_near (c * r) n1
  have w2 : Near 2 (f64mul c r * f64mul c r) (c * c * (r * r)) := by
    have h := near_mul 1 1 _ _ _ _ w1 w1 (abs_nonneg _) (abs_nonneg _) (abs_nonneg _)
      (abs_nonneg _)
    rw [abs_mul_abs_self, abs_mul_abs_self, hprod] at h
    exact h
  have w9 : Near 9 (f64mul c r * f64mul c r) (c * c * (1 / Q)) := near_trans 2 7 _ _ _ w2 e1
  have n2 : f64mul c r = 0 ∨ (2 : ℚ) ^ (-511 : ℤ) ≤ |f64mul c r| := by
    rcases near_normal 9 (by norm_num) _ _ w9 ht with h | h
    · left; exact mul_self_eq_zero.mp h
    · right
      rw [← abs_mul_abs_self] at h
      exact ge_of_sq_ge _ (abs_nonneg _) h
  exact ⟨near_trans 1 9 _ _ _ (f64pow2_near _ n2) w9, ht⟩

/-- The square of the magnitude of a normalized vector is 1 up to 14 roundings, for a
vector of non-zero magnitude whose components are 0 or between `2^-250` and `2^250` in
magnitude. -/
theorem Magnitude_Normalize_near (v : Vector3) (hv : Magnitude v ≠ 0)
    (h0 : v.c0 = 0 ∨ ((2 : ℚ) ^ (-250 : ℤ) ≤ |v.c0| ∧ |v.c0| ≤ 2 ^ (250 : ℤ)))
    (h1 : v.c1 = 0 ∨ ((2 : ℚ) ^ (-250 : ℤ) ≤ |v.c1| ∧ |v.c1| ≤ 2 ^ (250 : ℤ)))
    (h2 : v.c2 = 0 ∨ ((2 : ℚ) ^ (-250 : ℤ) ≤ |v.c2| ∧ |v.c2| ≤ 2 ^ (250 : ℤ))) :
    Near 14 (Magnitude (Normalize v) * Magnitude (Normalize v)) 1 := by
  obtain ⟨s0, u0⟩ := sq_range v.c0 h0
  obtain ⟨s1, u1⟩ := sq_range v.c1 h1
  obtain ⟨s2, u2⟩ := sq_range v.c2 h2
  have lift : ∀ t : ℚ, (t = 0 ∨ (2 : ℚ) ^ (-500 : ℤ) ≤ t) →
      (t = 0 ∨ (2 : ℚ) ^ (-1002 : ℤ) ≤ t) := fun t h =>
    h.imp id (fun h' => le_trans (zpow_le_zpow_right₀ (by norm_num) (by norm_num)) h')
  have pn : ∀ c : ℚ, (c = 0 ∨ ((2 : ℚ) ^ (-250 : ℤ) ≤ |c| ∧ |c| ≤ 2 ^ (250 : ℤ))) →
      (c = 0 ∨ (2 : ℚ) ^ (-511 : ℤ) ≤ |c|) := fun c h =>
    h.imp id (fun h' => le_trans (zpow_le_zpow_right₀ (by norm_num) (by norm_num)) h'.1)
  obtain ⟨Q, hQ⟩ : ∃ Q : ℚ, Q = v.c0 * v.c0 + v.c1 * v.c1 + v.c2 * v.c2 := ⟨_, rfl⟩
  have hM5 : Near 5 (Magnitude v * Magnitude v) Q := by
    rw [hQ]
    exact Magnitude_sq_near v 1 (by norm_num) _ _ _ (f64pow2_near _ (pn _ h0))
      (f64pow2_near _ (pn _ h1)) (f64pow2_near _ (pn _ h2)) (lift _ s0) (lift _ s1) (lift _ s2)
  have hMpos : 0 < Magnitude v := lt_of_le_of_ne (f64sqrt_nonneg _) (Ne.symm hv)
  have hMM : 0 < Magnitude v * Magnitude v := mul_pos hMpos hMpos
  have hQpos : 0 < Q := near_pos 5 _ _ (near_symm 5 _ _ hM5) hMM
  have n0 := mul_self_nonneg v.c0
  have n1 := mul_self_nonneg v.c1
  have n2 := mul_self_nonneg v.c2
  have hQhi : Q ≤ 2 ^ (502 : ℤ) := by
    have h4 : (2 : ℚ) ^ (502 : ℤ) = 2 ^ (500 : ℤ) * 4 := by
      rw [show (502 : ℤ) = 500 + 2 from rfl, zpow_add₀ (by norm_num)]; norm_num
    have hp : (0 : ℚ) < 2 ^ (500 : ℤ) := by positivity
    rw [hQ, h4]
    linarith
  have hinvQ : (2 : ℚ) ^ (-502 : ℤ) ≤ 1 / Q := by
    rw [zpow_neg, ← one_div]
    exact one_div_le_one_div_of_le hQpos hQhi
  have hinv5 : Near 5 (1 / (Magnitude v * Magnitude v)) (1 / Q) :=
    near_inv 5 _ _ hM5 hMM hQpos
  have hsqinv : (1 / Magnitude v) * (1 / Magnitude v) = 1 / (Magnitude v * Magnitude v) := by
    field_simp
  have hinvpos : 0 < 1 / Magnitude v := one_div_pos.mpr hMpos
  have nr : 1 / Magnitude v = 0 ∨ (2 : ℚ) ^ (-1022 : ℤ) ≤ |1 / Magnitude v| := by
    right
    rcases near_normal 5 (by norm_num) _ _ hinv5
      (Or.inr (le_trans (zpow_le_zpow_right₀ (by norm_num) (by norm_num)) hinvQ)) with h | h
    · exact absurd h (one_div_pos.mpr hMM).ne'
    · rw [← hsqinv] at h
      rw [abs_of_pos hinvpos]
      exact le_trans (zpow_le_zpow_right₀ (by norm_num) (by norm_num))
        (ge_of_sq_ge _ hinvpos.le h)
  have hrnn : 0 ≤ f64div 1 (Magnitude v) := roundF64_nonneg _ hinvpos.le
  have r1 : Near 1 (f64div 1 (Magnitude v)) (1 / Magnitude v) := by
    have h := roundF64_near (1 / Magnitude v) nr
    rw [abs_of_nonneg (roundF64_nonneg _ hinvpos.le), abs_of_pos hinvpos] at h
    exact h
  have r2 : Near 2 (f64div 1 (Magnitude v) * f64div 1 (Magnitude v))
      (1 / (Magnitude v * Magnitude v)) := by
    have h := near_mul 1 1 _ _ _ _ r1 r1 hrnn hinvpos.le hrnn hinvpos.le
    rw [hsqinv] at h
    exact h
  have r7 : Near 7 (f64div 1 (Magnitude v) * f64div 1 (Magnitude v)) (1 / Q) :=
    near_trans 2 5 _ _ _ r2 hinv5
  obtain ⟨c0n, c0t⟩ := component_near v.c0 _ Q h0 hQpos hQhi r7
  obtain ⟨c1n, c1t⟩ := component_near v.c1 _ Q h1 hQpos hQhi r7
  obtain ⟨c2n, c2t⟩ := component_near v.c2 _ Q h2 hQpos hQhi r7
  have key := Magnitude_sq_near (Normalize v) 10 (by norm_num) _ _ _ c0n c1n c2n c0t c1t c2t
  have hsum : v.c0 * v.c0 * (1 / Q) + v.c1 * v.c1 * (1 / Q) + v.c2 * v.c2 * (1 / Q) = 1 := by
    rw [← add_mul, ← add_mul, ← hQ]
    field_simp
  rw [hsum] at key
  exact key

/-- The magnitude of a vector with one non-zero component `x`, on each of the three
axes, when the float64 square `p` of `x` is known together with its root. -/
theorem Magnitude_axes (x p m : ℚ) (hp : f64pow2 x = p) (hr : roundF64 p = p)
    (hs : f64sqrt p = m) :
    Magnitude ⟨x, 0, 0⟩ = m ∧ Magnitude ⟨0, x, 0⟩ = m ∧ Magnitude ⟨0, 0, x⟩ = m := by
  refine ⟨?_, ?_, ?_⟩
  · unfold Magnitude
    dsimp only
    rw [hp, f64pow2_zero]
    unfold f64add
    rw [add_zero, add_zero, hr, hr, hs]
  · unfold Magnitude
    dsimp only
    rw [hp, f64pow2_zero]
    unfold f64add
    rw [add_zero, zero_add, hr, hr, hs]
  · unfold Magnitude
    dsimp only
    rw [hp, f64pow2_zero]
    unfold f64add
    rw [add_zero, roundF64_zero, zero_add, hr, hs]

/-- Normalizing a vector along an axis whose non-zero component is `s * 2^e` with `s` a
sign: the result is the signed unit vector of that axis, and its magnitude is 1. -/
theorem Normalize_signed_axis (s : ℚ) (hs : s = 1 ∨ s = -1) (e : ℤ) (he1 : -537 ≤ e)
    (he2 : e ≤ 511) :
    (Normalize ⟨s * 2 ^ e, 0, 0⟩ = ⟨s, 0, 0⟩ ∧ Magnitude (Normalize ⟨s * 2 ^ e, 0, 0⟩) = 1) ∧
    (Normalize ⟨0, s * 2 ^ e, 0⟩ = ⟨0, s, 0⟩ ∧ Magnitude (Normalize ⟨0, s * 2 ^ e, 0⟩) = 1) ∧
    (Normalize ⟨0, 0, s * 2 ^ e⟩ = ⟨0, 0, s⟩ ∧ Magnitude (Normalize ⟨0, 0, s * 2 ^ e⟩) = 1) := by
  have hss : s * s = 1 := by rcases hs with rfl | rfl <;> norm_num
  have hrs : roundF64 s = s := by
    rcases hs with rfl | rfl
    · have h := roundF64_intCast 1 (by norm_num)
      simpa using h
    · have h := roundF64_intCast (-1) (by norm_num)
      simpa using h
  have hr1 : roundF64 (1 : ℚ) = 1 := by
    have h := roundF64_intCast 1 (by norm_num)
    simpa using h
  have h531 : round53 (1 : ℚ) = 1 := by
    have h := round53_repr 1 0 (by norm_num)
    simpa using h
  have hsq1 : f64sqrt (1 : ℚ) = 1 := by
    have h := f64sqrt_sq_repr 1 0 (by norm_num)
    simpa using h
  -- the square of the component and its root
  have hval : (2 : ℚ) ^ e * 2 ^ e = ((1 : ℤ) : ℚ) * 2 ^ (e + e) := by
    rw [zpow_add₀ (by norm_num)]; simp
  have hpe : f64pow2 (s * 2 ^ e) = 2 ^ e * 2 ^ e := by
    unfold f64pow2
    have h : s * 2 ^ e * (s * 2 ^ e) = 2 ^ e * 2 ^ e := by
      calc s * 2 ^ e * (s * 2 ^ e) = s * s * (2 ^ e * 2 ^ e) := by ring
        _ = 2 ^ e * 2 ^ e := by rw [hss, one_mul]
    rw [h, hval, round53_repr 1 (e + e) (by norm_num),
      roundF64_repr 1 (e + e) (by norm_num) (by omega)]
  have hre : roundF64 ((2 : ℚ) ^ e * 2 ^ e) = 2 ^ e * 2 ^ e := by
    rw [hval, roundF64_repr 1 (e + e) (by norm_num) (by omega)]
  have hse : f64sqrt ((2 : ℚ) ^ e * 2 ^ e) = 2 ^ e := by
    have h := f64sqrt_sq_repr 1 e (by norm_num)
    simpa using h
  obtain ⟨m0, m1, m2⟩ := Magnitude_axes (s * 2 ^ e) _ _ hpe hre hse
  -- the square of the sign and its root
  have hps : f64pow2 s = 1 := by
    unfold f64pow2
    rw [hss, h531, hr1]
  obtain ⟨u0, u1, u2⟩ := Magnitude_axes s 1 1 hps hr1 hsq1
  -- the inverse of the magnitude and the products
  have hdiv : f64div 1 ((2 : ℚ) ^ e) = 2 ^ (-e) := by
    unfold f64div
    have h := roundF64_repr 1 (-e) (by norm_num) (by omega)
    rw [one_div, ← zpow_neg]
    simpa using h
  have hone : f64mul (s * 2 ^ e) (2 ^ (-e)) = s := by
    unfold f64mul
    rw [mul_assoc, ← zpow_add₀ (by norm_num), add_neg_cancel, zpow_zero, mul_one, hrs]
  have n0 : Normalize ⟨s * 2 ^ e, 0, 0⟩ = ⟨s, 0, 0⟩ := by
    unfold Normalize
    dsimp only
    rw [m0, hdiv]
    unfold ScalarProduct
    dsimp only
    rw [hone, f64mul_zero_left]
  have n1 : Normalize ⟨0, s * 2 ^ e, 0⟩ = ⟨0, s, 0⟩ := by
    unfold Normalize
    dsimp only
    rw [m1, hdiv]
    unfold ScalarProduct
    dsimp only
    rw [hone, f64mul_zero_left]
  have n2 : Normalize ⟨0, 0, s * 2 ^ e⟩ = ⟨0, 0, s⟩ := by
    unfold Normalize
    dsimp only
    rw [m2, hdiv]
    unfold ScalarProduct
    dsimp only
    rw [hone, f64mul_zero_left]
  exact ⟨⟨n0, by rw [n0, u0]⟩, ⟨n1, by rw [n1, u1]⟩, ⟨n2, by rw [n2, u2]⟩⟩

/-- C18, as stated, fails: the vector `(0, 1, 1)` has a non-zero magnitude, and the
magnitude of its normalization is `(2^53 - 1) / 2^53 = 0.9999999999999999`, not 1. -/
theorem normalized_diagonal_is_not_unit :
    Magnitude ⟨0, 1, 1⟩ ≠ 0 ∧
    Magnitude (Normalize ⟨0, 1, 1⟩) = 9007199254740991 / 9007199254740992 ∧
    Magnitude (Normalize ⟨0, 1, 1⟩) ≠ 1 := by
  refine ⟨?_, ?_, ?_⟩
  · rw [Magnitude_011]; norm_num
  · rw [Magnitude_Normalize_011]; norm_num
  · rw [Magnitude_Normalize_011]; norm_num

/-- C18, amended: for every vector `v` with `Magnitude(v) ≠ 0`, `Normalize(v)` is
`ScalarProduct(v, 1/Magnitude(v))` in float64 arithmetic, in both copies; its magnitude is
1 up to rounding: within `2^-50` of 1 when every component of `v` is 0 or between `2^-250`
and `2^250` in magnitude (no intermediate result then leaves the normal range), and
exactly 1 for a vector along an axis whose component is `2^e` or `-2^e` with
`-537 ≤ e ≤ 511`, such as the orientation `(1, 0, 0)`. -/
theorem normalize_scales_by_inverse_magnitude (v : Vector3) (hv : Magnitude v ≠ 0) (e : ℤ)
    (he1 : -537 ≤ e) (he2 : e ≤ 511) :
    Normalize v = ScalarProduct v (f64div 1 (Magnitude v)) ∧
    Maths.Normalize v = Normalize v ∧
    ((v.c0 = 0 ∨ ((2 : ℚ) ^ (-250 : ℤ) ≤ |v.c0| ∧ |v.c0| ≤ 2 ^ (250 : ℤ))) →
      (v.c1 = 0 ∨ ((2 : ℚ) ^ (-250 : ℤ) ≤ |v.c1| ∧ |v.c1| ≤ 2 ^ (250 : ℤ))) →
      (v.c2 = 0 ∨ ((2 : ℚ) ^ (-250 : ℤ) ≤ |v.c2| ∧ |v.c2| ≤ 2 ^ (250 : ℤ))) →
      |Magnitude (Normalize v) - 1| ≤ 1 / 2 ^ 50) ∧
    Magnitude ⟨2 ^ e, 0, 0⟩ ≠ 0 ∧
    Normalize ⟨2 ^ e, 0, 0⟩ = ⟨1, 0, 0⟩ ∧
    Magnitude (Normalize ⟨2 ^ e, 0, 0⟩) = 1 ∧
    (∀ s : ℚ, s = 1 ∨ s = -1 →
      (Normalize ⟨s * 2 ^ e, 0, 0⟩ = ⟨s, 0, 0⟩ ∧
        Magnitude (Normalize ⟨s * 2 ^ e, 0, 0⟩) = 1) ∧
      (Normalize ⟨0, s * 2 ^ e, 0⟩ = ⟨0, s, 0⟩ ∧
        Magnitude (Normalize ⟨0, s * 2 ^ e, 0⟩) = 1) ∧
      (Normalize ⟨0, 0, s * 2 ^ e⟩ = ⟨0, 0, s⟩ ∧
        Magnitude (Normalize ⟨0, 0, s * 2 ^ e⟩) = 1)) := by
  have hmag : Magnitude ⟨2 ^ e, 0, 0⟩ = 2 ^ e := by
    have h := Magnitude_axis 1 e (by norm_num) (by omega)
    simpa using h
  have hpos : Normalize ⟨2 ^ e, 0, 0⟩ = ⟨1, 0, 0⟩ ∧ Magnitude (Normalize ⟨2 ^ e, 0, 0⟩) = 1 := by
    have h := (Normalize_signed_axis 1 (Or.inl rfl) e he1 he2).1
    rw [one_mul] at h
    exact h
  refine ⟨rfl, rfl, ?_, ?_, hpos.1, hpos.2, fun s hs => Normalize_signed_axis s hs e he1 he2⟩
  · intro h0 h1 h2
    exact abs_sub_one_le_of_near _ (f64sqrt_nonneg _) (Magnitude_Normalize_near v hv h0 h1 h2)
  · rw [hmag]; positivity

theorem normalize_scales_by_inverse_magnitude_witness :
    Magnitude ⟨3, 4, 0⟩ ≠ 0 ∧
    |Magnitude (Normalize ⟨3, 4, 0⟩) - 1| ≤ 1 / 2 ^ 50 ∧
    Normalize ⟨1, 0, 0⟩ = ⟨1, 0, 0⟩ ∧ Magnitude (Normalize ⟨1, 0, 0⟩) = 1 ∧
    Normalize ⟨0, -4, 0⟩ = ⟨0, -1, 0⟩ ∧ Magnitude (Normalize ⟨0, -4, 0⟩) = 1 := by
  have hlo : ∀ x : ℚ, 1 ≤ x → x ≤ 4 →
      (x = 0 ∨ ((2 : ℚ) ^ (-250 : ℤ) ≤ |x| ∧ |x| ≤ 2 ^ (250 : ℤ))) := by
    intro x h1 h4
    right
    rw [abs_of_pos (by linarith)]
    constructor
    · exact le_trans (zpow_le_one_of_nonpos₀ (by norm_num) (by norm_num)) h1
    · exact le_trans h4 (le_trans (by norm_num : (4 : ℚ) ≤ 2 ^ (2 : ℤ))
        (zpow_le_zpow_right₀ (by norm_num) (by norm_num)))
  have h34 : Magnitude ⟨3, 4, 0⟩ ≠ 0 := by
    intro hz
    have h3 : (2 : ℚ) ^ (-537 : ℤ) ≤ |(3 : ℚ)| := by
      rw [abs_of_pos (by norm_num)]
      exact le_trans (zpow_le_one_of_nonpos₀ (by norm_num) (by norm_num)) (by norm_num)
    exact f64pow2_ne_zero 3 h3 ((Magnitude_eq_zero_iff ⟨3, 4, 0⟩).mp hz).1
  have h := normalize_scales_by_inverse_magnitude ⟨3, 4, 0⟩ h34 2 (by norm_num) (by norm_num)
  have hb := h.2.2.1 (hlo 3 (by norm_num) (by norm_num)) (hlo 4 (by norm_num) (by norm_num))
    (Or.inl rfl)
  have ha := (h.2.2.2.2.2.2 1 (Or.inl rfl))
  have hn := (h.2.2.2.2.2.2 (-1) (Or.inr rfl)).2.1
  have e4 : (-1 : ℚ) * 2 ^ (2 : ℤ) = -4 := by norm_num
  rw [e4] at hn
  have hu := normalize_scales_by_inverse_magnitude ⟨3, 4, 0⟩ h34 0 (by norm_num) (by norm_num)
  have hu1 := hu.2.2.2.2
  rw [zpow_zero] at hu1
  exact ⟨h34, hb, hu1.1, hu1.2.1, hn.1, hn.2⟩

end SpaceGame
